import Mathlib

/-!
Cursor-Middleware: request translation gateway (`main.go`)

A shallow embedding of the schema translation of `main.go`: the typed
translators `translateTool` and `translateMessage`, the custom decoder
`ProxyPayload.UnmarshalJSON`, the payload assembly of `proxyHandler`, and the
textual pass `ConvertToolTypesToText`, together with the parts of Go's
`encoding/json` and `strings` packages they call.

Modelling conventions.
* A Go `string` is a Lean `String`; serialized JSON text is a `List Char`.
  The patterns searched for by `strings.ReplaceAll` are ASCII, so matching on
  code points agrees with Go's matching on UTF-8 bytes.
* A Go `map[string]interface{}` is an association list kept sorted by key
  without duplicate keys (`GoMap`), the order in which `json.Marshal` writes it.
* A decoded JSON number is a `float64` in Go. It is held here as the literal that
  `json.Marshal` writes for that `float64` (`float64Lit`): the decoder rounds the
  literal it reads to the nearest `float64` and refuses a literal that is out of
  range. No function of `main.go` inspects a number.
* An out-of-range index is a run-time panic of Go: `GoPanic`.
* A request body is a list of characters: a byte of the body that is not valid UTF-8
  is read by the decoder as U+FFFD inside a string and is a syntax error elsewhere, as
  the character U+FFFD is.
* The decoder's limit on the nesting depth (10000) is not modelled.
-/

namespace CursorMiddleware

/-! ## JSON values (`interface{}` as produced by `json.Unmarshal`) -/

/-- Decimal digit test. -/
def isDigit (c : Char) : Bool := decide ('0' ≤ c) && decide (c ≤ '9')

/-- The exponent part of a number literal, after `e` or `E`: an optional sign and at
least one digit. -/
def numExp (cs : List Char) : Bool :=
  match cs with
  | [] => false
  | c :: r =>
    if c = '+' ∨ c = '-' then !r.isEmpty && r.all isDigit
    else (c :: r).all isDigit

/-- What may follow the fraction digits of a number literal: nothing or an exponent. -/
def numAfterFrac (cs : List Char) : Bool :=
  match cs with
  | [] => true
  | c :: r => if c = 'e' ∨ c = 'E' then numExp r else false

/-- What may follow the integer part of a number literal: nothing, a fraction, an
exponent. -/
def numAfterInt (cs : List Char) : Bool :=
  match cs with
  | [] => true
  | c :: r =>
    if c = '.' then !(r.takeWhile isDigit).isEmpty && numAfterFrac (r.dropWhile isDigit)
    else if c = 'e' ∨ c = 'E' then numExp r
    else false

/-- The unsigned part of a number literal: `0` or a digit string without leading zero,
then fraction and exponent. -/
def numUnsigned (cs : List Char) : Bool :=
  match cs with
  | [] => false
  | c :: r =>
    if c = '0' then numAfterInt r
    else if isDigit c then numAfterInt (r.dropWhile isDigit)
    else false

/-- The JSON number grammar accepted by the scanner of `encoding/json`:
`-?(0|[1-9][0-9]*)(\.[0-9]+)?([eE][+-]?[0-9]+)?`. -/
def validNumber (cs : List Char) : Bool :=
  match cs with
  | [] => false
  | c :: r => if c = '-' then numUnsigned r else numUnsigned (c :: r)

/-- A JSON number literal. -/
structure NumLit where
  lit : List Char
  valid : validNumber lit = true
  deriving DecidableEq

/-! ## Numbers (`strconv.ParseFloat`, and the float encoder of `encoding/json`)

`json.Unmarshal` stores a number in an `interface{}` as the `float64` that
`strconv.ParseFloat` reads from its literal, and `json.Marshal` writes a `float64` with
the fewest digits from which `ParseFloat` reads the same `float64` again. -/

/-- Evaluates `n` before it is used: `withNat n k` is `k n`. -/
@[always_inline, inline]
def withNat {α : Type} (n : Nat) (k : Nat → α) : α :=
  match n with
  | 0 => k 0
  | m + 1 => k (m + 1)

/-- Evaluates `i` before it is used: `withInt i k` is `k i`. -/
@[always_inline, inline]
def withInt {α : Type} (i : Int) (k : Int → α) : α :=
  match i with
  | .ofNat n => withNat n fun m => k (.ofNat m)
  | .negSucc n => withNat n fun m => k (.negSucc m)

/-- The value of a decimal digit. -/
def digitVal (c : Char) : Nat := c.toNat - 48

/-- The number written by a string of decimal digits, after the number `n` read so far. -/
def natOfDigits : Nat → List Char → Nat
  | n, [] => n
  | n, c :: cs => withNat (10 * n + digitVal c) fun m => natOfDigits m cs

/-- The power `b ^ k`, times `acc`, by repeated squaring. -/
def powMul : Nat → Nat → Nat → Nat → Nat
  | 0, _, _, acc => acc
  | fuel + 1, b, k, acc =>
    if k = 0 then acc
    else
      withNat (if k % 2 = 1 then acc * b else acc) fun a =>
      withNat (b * b) fun b2 => withNat (k / 2) fun k2 => powMul fuel b2 k2 a

/-- The power `b ^ k`. -/
def pow (b k : Nat) : Nat := powMul k b k 1

/-- The fraction `num / den` times `b ^ e`, as a fraction. -/
def scale (b : Nat) (num den : Nat) (e : Int) : Nat × Nat :=
  match e with
  | .ofNat k => (num * pow b k, den)
  | .negSucc k => (num, den * pow b (k + 1))

/-- The powers `2 ^ (2 ^ i)` that are at most `n`, the largest first, each with its
exponent `2 ^ i`; `t` and `w` are the next power and its exponent. -/
def squares : Nat → Nat → Nat → Nat → List (Nat × Nat) → List (Nat × Nat)
  | 0, _, _, _, acc => acc
  | fuel + 1, n, t, w, acc =>
    if n < t then acc
    else withNat (t * t) fun t2 => withNat (2 * w) fun w2 => squares fuel n t2 w2 ((t, w) :: acc)

/-- Divides `m` by each of the powers that is at most what is left of it, and adds the
exponents of these powers to `l`. -/
def log2Aux : List (Nat × Nat) → Nat → Nat → Nat
  | [], _, l => l
  | (t, w) :: ps, m, l =>
    if t ≤ m then withNat (m / t) fun m1 => withNat (l + w) fun l1 => log2Aux ps m1 l1
    else log2Aux ps m l

/-- The binary logarithm of a positive number, rounded down. -/
def log2 (n : Nat) : Nat := log2Aux (squares n n 2 1 []) n 0

/-- A finite `float64`: a sign and the magnitude `mant * 2 ^ exp`. The magnitude of a
normal number has `2 ^ 52 ≤ mant < 2 ^ 53` and `-1074 ≤ exp ≤ 971`; a subnormal number
has `mant < 2 ^ 52` and `exp = -1074`, and zero has `mant = 0` and `exp = -1074`. -/
structure F64 where
  neg : Bool
  mant : Nat
  exp : Int
  deriving DecidableEq

/-- The `float64` magnitude nearest to the positive fraction `num / den`, a tie going to
the even mantissa; `none` when that is beyond the largest `float64`. A fraction below the
smallest subnormal number rounds to zero. -/
def roundF64 (num den : Nat) : Option (Nat × Int) :=
  if num = 0 then some (0, -1074)
  else
    -- the binary logarithm of the fraction, rounded down, is `l0` or `l0 - 1`
    withInt ((log2 num : Int) - (log2 den : Int)) fun l0 =>
    let p0 := scale 2 num den (-l0)
    withInt (max ((if p0.2 ≤ p0.1 then l0 else l0 - 1) - 52) (-1074)) fun e =>
    -- the mantissa is the fraction divided by `2 ^ e`, rounded
    let p1 := scale 2 num den (-e)
    withNat p1.1 fun n1 => withNat p1.2 fun d1 =>
    withNat (n1 / d1) fun q => withNat (n1 % d1) fun r =>
    withNat (if d1 < 2 * r ∨ (2 * r = d1 ∧ q % 2 = 1) then q + 1 else q) fun m =>
    if m = pow 2 53 then (if 971 < e + 1 then none else some (pow 2 52, e + 1))
    else if 971 < e then none
    else some (m, e)

/-- The exponent part of a number literal, from its `e` or `E` on. -/
def readExp : List Char → Int
  | [] => 0
  | _ :: '-' :: ds => - (natOfDigits 0 ds : Int)
  | _ :: '+' :: ds => (natOfDigits 0 ds : Int)
  | _ :: ds => (natOfDigits 0 ds : Int)

/-- `strconv.ParseFloat(s, 64)` on a JSON number literal: the nearest `float64`, or
`none` for the range error. -/
def parseFloat (cs : List Char) : Option F64 :=
  let neg := cs.head? == some '-'
  let cs := if neg then cs.tail else cs
  let ip := cs.takeWhile isDigit
  let r := cs.dropWhile isDigit
  let fp := match r with
    | '.' :: r1 => r1.takeWhile isDigit
    | _ => []
  let r := match r with
    | '.' :: r1 => r1.dropWhile isDigit
    | _ => r
  withNat (natOfDigits 0 (ip ++ fp)) fun mant =>
  withInt (readExp r - fp.length) fun e =>
  let p := scale 10 mant 1 e
  withNat p.1 fun num => withNat p.2 fun den =>
  (roundF64 num den).map fun x => ⟨neg, x.1, x.2⟩

/-- Counts the times `n` can be divided by ten before it is below ten, from `acc` on. -/
def decLen : Nat → Nat → Nat → Nat
  | 0, _, acc => acc
  | fuel + 1, n, acc =>
    if n < 10 then acc
    else withNat (n / 10) fun m => withNat (acc + 1) fun a => decLen fuel m a

/-- The decimal digits of `n`, before `acc`. -/
def digitsAux : Nat → Nat → List Char → List Char
  | 0, _, acc => acc
  | fuel + 1, n, acc =>
    if n < 10 then Char.ofNat (48 + n) :: acc
    else withNat (n / 10) fun m => digitsAux fuel m (Char.ofNat (48 + n % 10) :: acc)

/-- The decimal digits of `n`. -/
def digitsOf (n : Nat) : List Char := digitsAux (n + 1) n []

/-- The decimal `d * 10 ^ s` without the final zeros of `d`. -/
def stripZeros : Nat → Nat → Int → Nat × Int
  | 0, d, s => (d, s)
  | fuel + 1, d, s =>
    if d % 10 = 0 ∧ d ≠ 0 then
      withNat (d / 10) fun m => withInt (s + 1) fun t => stripZeros fuel m t
    else (d, s)

/-- The decimal exponent `k` of a positive fraction: `10 ^ k ≤ vn / vd < 10 ^ (k + 1)`. -/
def decExp (vn vd : Nat) : Int :=
  if vd ≤ vn then (decLen (vn / vd) (vn / vd) 0 : Int)
  else
    withNat (decLen (vd / vn) (vd / vn) 1) fun j =>
    if vd ≤ vn * pow 10 (j - 1) then - ((j - 1 : Nat) : Int) else - (j : Int)

/-- Comparison of fractions. -/
def ltFrac (a b : Nat × Nat) : Bool := decide (a.1 * b.2 < b.1 * a.2)

/-- The test `abs < 1e-6 || abs >= 1e21` of the float encoder of `encoding/json`, which
selects the format `e`; `1e-6` is the `float64` nearest to it. -/
def useExp (v : Nat × Nat) : Bool :=
  (match roundF64 1 1000000 with
   | some (m, e) => ltFrac v (scale 2 m 1 e)
   | none => false) || !ltFrac v (1000000000000000000000, 1)

/-- The text of the decimal `d * 10 ^ s`, with the digits of `d` less its final zeros:
in the format `e` as `d.ddde±x` (the encoder of `encoding/json` removes the zero with
which `strconv` pads a one-digit exponent), in the format `f` as `ddd.ddd`, with zeros
up to the decimal point where the digits do not reach it. -/
def renderDigits (e : Bool) (neg : Bool) (d : Nat) (s : Int) : List Char :=
  let p := stripZeros d d s
  let ds := digitsOf p.1
  withInt (p.2 + ds.length) fun dp =>
  let body :=
    if e then
      (match ds with
       | [] => []
       | [c] => [c]
       | c :: cs => c :: '.' :: cs) ++
      'e' :: (if dp - 1 < 0 then '-' else '+') :: digitsOf (dp - 1).natAbs
    else if dp ≤ 0 then '0' :: '.' :: (List.replicate (-dp).toNat '0' ++ ds)
    else if (ds.length : Int) ≤ dp then ds ++ List.replicate (dp - ds.length).toNat '0'
    else ds.take dp.toNat ++ '.' :: ds.drop dp.toNat
  if neg then '-' :: body else body

/-- The shortest decimal from which `parseFloat` reads `f`, tried with `n` digits and
then with more: of the two decimals of `n` digits next to the value `vn / vd` of `f`,
the one that reads as `f`, and the nearer one (in a tie, the one with the even last
digit) when both do. -/
def shortest (f : F64) (vn vd : Nat) (k : Int) (e : Bool) : Nat → Nat → Option (List Char)
  | 0, _ => none
  | fuel + 1, n =>
    withInt (k - n + 1) fun s =>
    let p := scale 10 vn vd (-s)
    withNat p.1 fun pn => withNat p.2 fun pd =>
    withNat (pn / pd) fun lo => withNat (pn % pd) fun r =>
    let tlo := renderDigits e f.neg lo s
    let thi := renderDigits e f.neg (lo + 1) s
    let okdown := decide (parseFloat tlo = some f)
    let okup := decide (parseFloat thi = some f)
    if okdown ∧ okup then
      (if 2 * r < pd ∨ (2 * r = pd ∧ lo % 2 = 0) then some tlo else some thi)
    else if okdown then some tlo
    else if okup then some thi
    else shortest f vn vd k e fuel (n + 1)

/-- What `json.Marshal` writes for a `float64`: `strconv.AppendFloat` with precision `-1`
(the fewest digits from which `ParseFloat` reads the number again), in the format `f`, or
`e` for a magnitude below `1e-6` or from `1e21` on. Seventeen digits are enough for every
`float64`, so the search ends with a text. -/
def formatFloat (f : F64) : Option (List Char) :=
  if f.mant = 0 then some (if f.neg then "-0".data else "0".data)
  else
    let v := scale 2 f.mant 1 f.exp
    withNat v.1 fun vn => withNat v.2 fun vd =>
    withInt (decExp vn vd) fun k =>
    shortest f vn vd k (useExp (vn, vd)) 17 1

/-- The `float64` that the decoder stores for a number literal, as the literal that
`json.Marshal` writes for it; `none` when the literal is out of range, which is an error
of `json.Unmarshal`, and in no other case: were no number literal written for the
`float64`, the literal read would stand for it. -/
def float64Lit (n : NumLit) : Option NumLit :=
  match parseFloat n.lit with
  | none => none
  | some f =>
    match withNat f.mant fun m => withInt f.exp fun e => formatFloat ⟨f.neg, m, e⟩ with
    | some t => if h : validNumber t = true then some ⟨t, h⟩ else some n
    | none => some n

/-- A decoded JSON value: what `json.Unmarshal` stores in an `interface{}`. A number is
given by the literal that `json.Marshal` writes for it. Objects list their members in the
order in which they are written. -/
inductive JSON where
  | null
  | bool (b : Bool)
  | num (n : NumLit)
  | str (s : String)
  | arr (xs : List JSON)
  | obj (ms : List (String × JSON))

/-- A Go map with string keys: an association list, sorted by key. -/
abbrev GoMap (α : Type) := List (String × α)

/-- Key order of `json.Marshal` (byte order of the UTF-8 encodings, which is the
lexicographic order of the code points). -/
def keyLt : List Char → List Char → Bool
  | _, [] => false
  | [], _ :: _ => true
  | a :: as, b :: bs => if a < b then true else if a = b then keyLt as bs else false

/-- Map index `m[k]` (the comma-ok form). -/
def GoMap.lookup {α : Type} (k : String) : GoMap α → Option α
  | [] => none
  | (k', v) :: m => if k = k' then some v else GoMap.lookup k m

/-- Map assignment `m[k] = v`. -/
def GoMap.insert {α : Type} (k : String) (v : α) : GoMap α → GoMap α
  | [] => [(k, v)]
  | (k', v') :: m =>
    if k = k' then (k, v) :: m
    else if keyLt k.data k'.data then (k, v) :: (k', v') :: m
    else (k', v') :: GoMap.insert k v m

/-- The builtin `delete(m, k)`. -/
def GoMap.erase {α : Type} (k : String) (m : GoMap α) : GoMap α :=
  m.filter (fun kv => !decide (kv.1 = k))

/-! ## The typed model (`main.go`, lines 16-89) -/

/-- `OriginalTool` describes a tool from the incoming JSON. -/
structure OriginalTool where
  Name : String
  Description : String
  InputSchema : Option (GoMap JSON)

/-- The element type of `OriginalContent.Content`. -/
structure NestedContent where
  Text : String
  Type_ : String

/-- `OriginalContent`: one content block of an incoming message. -/
structure OriginalContent where
  Type_ : String
  Text : String
  Id : String
  Input : Option (GoMap JSON)
  Name : String
  CacheControl : String
  Content : List NestedContent

/-- `TransformedContent`: one content item of an outgoing message. -/
structure TransformedContent where
  Type_ : String
  Text : String
  Id : String
  Input : Option (GoMap JSON)
  CacheControl : String
  Name : String

/-- `Function` is the nested part of `TransformedTool`. -/
structure Function where
  Name : String
  Description : String
  Parameters : Option (GoMap JSON)

/-- `TransformedTool` matches the OpenAI-style function format. -/
structure TransformedTool where
  Type_ : String
  Function : Function

/-- `OriginalMessage`. -/
structure OriginalMessage where
  Content : List OriginalContent
  Role : String

/-- `TransformedMessage`. -/
structure TransformedMessage where
  Content : List TransformedContent
  Role : String

/-- `ProxyPayload` is the general incoming request. -/
structure ProxyPayload where
  Tools : List OriginalTool
  ToolChoice : Option (GoMap JSON)
  Other : GoMap JSON
  Messages : List OriginalMessage

/-- A run-time panic of Go. -/
inductive GoPanic where
  | indexOutOfRange (index len : Nat)
  deriving DecidableEq

/-- The index expression `xs[i]`, which panics when `i` is out of range. -/
def index {α : Type} (xs : List α) (i : Nat) : Except GoPanic α :=
  match xs.get? i with
  | some x => .ok x
  | none => .error (.indexOutOfRange i xs.length)

/-! ## The translators (`main.go`, lines 124-181) -/

/-- `translateTool` (lines 124-133). -/
def translateTool (t : OriginalTool) : TransformedTool :=
  { Type_ := "function",
    Function := {
      Name := t.Name,
      Description := t.Description,
      Parameters := t.InputSchema } }

/-- `translateMessage` (lines 135-181). The function has no error result: an index
out of range is a panic. -/
def translateMessage (m : OriginalMessage) : Except GoPanic TransformedMessage := do
  let c0 ← index m.Content 0
  if c0.Type_ = "tool_result" then
    let n0 ← index c0.Content 0
    return {
      Content := [{
        Type_ := "text",
        Text := n0.Text,
        Id := c0.Id,
        Input := c0.Input,
        CacheControl := c0.CacheControl,
        Name := c0.Name }],
      Role := "tool" }
  if c0.Type_ = "tool_use" then
    let n0 ← index c0.Content 0
    return {
      Content := [{
        Type_ := "text",
        Text := n0.Text,
        Id := c0.Id,
        Input := c0.Input,
        CacheControl := c0.CacheControl,
        Name := c0.Name }],
      Role := "tool" }
  return {
    Content := [{
      Type_ := c0.Type_,
      Text := c0.Text,
      Id := c0.Id,
      Input := c0.Input,
      CacheControl := c0.CacheControl,
      Name := c0.Name }],
    Role := m.Role }

/-! ## `json.Marshal` (package `encoding/json`, `encode.go`) -/

/-- The double quote. -/
def dq : Char := Char.ofNat 34

/-- The backslash. -/
def bsl : Char := Char.ofNat 92

/-- Lower-case hexadecimal digit of a number below 16. -/
def hexDigit (n : Nat) : Char :=
  if n < 10 then Char.ofNat (48 + n) else Char.ofNat (87 + n)

/-- How `json.Marshal` writes one character of a string (HTML escaping is on). -/
def escapeChar (c : Char) : List Char :=
  if c = dq then [bsl, dq]
  else if c = bsl then [bsl, bsl]
  else if c = Char.ofNat 8 then [bsl, 'b']
  else if c = Char.ofNat 12 then [bsl, 'f']
  else if c = Char.ofNat 10 then [bsl, 'n']
  else if c = Char.ofNat 13 then [bsl, 'r']
  else if c = Char.ofNat 9 then [bsl, 't']
  else if c.toNat < 32 ∨ c = '<' ∨ c = '>' ∨ c = '&' then
    [bsl, 'u', '0', '0', hexDigit (c.toNat / 16), hexDigit (c.toNat % 16)]
  else if c = Char.ofNat 8232 then [bsl, 'u', '2', '0', '2', '8']
  else if c = Char.ofNat 8233 then [bsl, 'u', '2', '0', '2', '9']
  else [c]

/-- The characters of a string between its quotes, as `json.Marshal` writes them. -/
def escapeString : List Char → List Char
  | [] => []
  | c :: cs => escapeChar c ++ escapeString cs

/-- The tokens of JSON text. -/
inductive Token where
  | lbrace
  | rbrace
  | lbrack
  | rbrack
  | comma
  | colon
  | str (s : String)
  | num (n : NumLit)
  | tru
  | fls
  | nul
  deriving DecidableEq

/-- The text of a token in the compact form written by `json.Marshal`. -/
def Token.render : Token → List Char
  | .lbrace => ['{']
  | .rbrace => ['}']
  | .lbrack => ['[']
  | .rbrack => [']']
  | .comma => [',']
  | .colon => [':']
  | .str s => dq :: (escapeString s.data ++ [dq])
  | .num n => n.lit
  | .tru => ['t', 'r', 'u', 'e']
  | .fls => ['f', 'a', 'l', 's', 'e']
  | .nul => ['n', 'u', 'l', 'l']

mutual
/-- The token stream that `json.Marshal` writes for a value. -/
def JSON.tokens : JSON → List Token
  | .null => [.nul]
  | .bool true => [.tru]
  | .bool false => [.fls]
  | .num n => [.num n]
  | .str s => [.str s]
  | .arr xs => .lbrack :: (elemTokens xs ++ [.rbrack])
  | .obj ms => .lbrace :: (memberTokens ms ++ [.rbrace])
/-- The elements of an array, separated by commas. -/
def elemTokens : List JSON → List Token
  | [] => []
  | [x] => x.tokens
  | x :: y :: xs => x.tokens ++ .comma :: elemTokens (y :: xs)
/-- The members of an object, separated by commas. -/
def memberTokens : List (String × JSON) → List Token
  | [] => []
  | [(k, v)] => .str k :: .colon :: v.tokens
  | (k, v) :: m :: ms => (.str k :: .colon :: v.tokens) ++ .comma :: memberTokens (m :: ms)
end

/-- The text of a token stream. -/
def renderTokens : List Token → List Char
  | [] => []
  | t :: ts => t.render ++ renderTokens ts

/-- `json.Marshal` of a decoded value: compact text, members in their listed order. -/
def marshal (v : JSON) : List Char := renderTokens v.tokens

/-! ## `strings.ReplaceAll` -/

/-- The scan of `strings.ReplaceAll` for a non-empty `old`: the first argument counts the
characters of the match just replaced that are still to be skipped. -/
def replaceAux (old new : List Char) : Nat → List Char → List Char
  | _, [] => []
  | k + 1, _ :: cs => replaceAux old new k cs
  | 0, c :: cs =>
    if old.isPrefixOf (c :: cs) then new ++ replaceAux old new (old.length - 1) cs
    else c :: replaceAux old new 0 cs

/-- `strings.ReplaceAll(s, old, new)`: the non-overlapping instances of `old` in `s`,
found from left to right, are replaced by `new`; an empty `old` matches before every
character and at the end. -/
def replaceAll (s old new : List Char) : List Char :=
  match old with
  | [] => new ++ s.flatMap (fun c => c :: new)
  | _ :: _ => replaceAux old new 0 s

/-! ## `json.Unmarshal` into an `interface{}` (`scanner.go`, `decode.go`) -/

/-- Value of a hexadecimal digit. -/
def hexVal (c : Char) : Option Nat :=
  if '0' ≤ c ∧ c ≤ '9' then some (c.toNat - 48)
  else if 'a' ≤ c ∧ c ≤ 'f' then some (c.toNat - 87)
  else if 'A' ≤ c ∧ c ≤ 'F' then some (c.toNat - 55)
  else none

/-- The function `getu4`: the number written by four hexadecimal digits. -/
def hex4 (a b c d : Char) : Option Nat :=
  match hexVal a, hexVal b, hexVal c, hexVal d with
  | some x, some y, some z, some w => some (((x * 16 + y) * 16 + z) * 16 + w)
  | _, _, _, _ => none

/-- The character of a one-letter escape. -/
def simpleEscape (e : Char) : Option Char :=
  if e = dq then some dq
  else if e = bsl then some bsl
  else if e = '/' then some '/'
  else if e = 'b' then some (Char.ofNat 8)
  else if e = 'f' then some (Char.ofNat 12)
  else if e = 'n' then some (Char.ofNat 10)
  else if e = 'r' then some (Char.ofNat 13)
  else if e = 't' then some (Char.ofNat 9)
  else none

/-- The replacement character U+FFFD. -/
def replacementChar : Char := Char.ofNat 65533

/-- What a pending high surrogate that found no partner decodes to: U+FFFD. -/
def flush (pending : Option Nat) (s : List Char) : List Char :=
  match pending with
  | some _ => replacementChar :: s
  | none => s

/-- Reads a string literal after its opening quote: the decoded characters and the number
of characters read, the closing quote included (`unquote`; the scanner rejects control
characters and unknown escapes). The first argument is a high surrogate read just before,
waiting for its partner: two surrogate escapes that form a valid pair decode to one
character, any other surrogate escape to U+FFFD. -/
def readStr : Option Nat → List Char → Option (List Char × Nat)
  | _, [] => none
  | pending, c :: cs =>
    if c = dq then some (flush pending [], 1)
    else if c = bsl then
      match cs with
      | [] => none
      | e :: cs1 =>
        if e = 'u' then
          match cs1 with
          | a :: b :: c2 :: d :: cs2 =>
            match hex4 a b c2 d with
            | none => none
            | some r =>
              if 56320 ≤ r ∧ r < 57344 then
                match pending with
                | some r1 =>
                  (readStr none cs2).map fun (s, n) =>
                    (Char.ofNat ((r1 - 55296) * 1024 + (r - 56320) + 65536) :: s, n + 6)
                | none => (readStr none cs2).map fun (s, n) => (replacementChar :: s, n + 6)
              else if 55296 ≤ r ∧ r < 56320 then
                (readStr (some r) cs2).map fun (s, n) => (flush pending s, n + 6)
              else (readStr none cs2).map fun (s, n) => (flush pending (Char.ofNat r :: s), n + 6)
          | _ => none
        else
          match simpleEscape e with
          | some d => (readStr none cs1).map fun (s, n) => (flush pending (d :: s), n + 2)
          | none => none
    else if c.toNat < 32 then none
    else (readStr none cs).map fun (s, n) => (flush pending (c :: s), n + 1)

/-- Reads a string literal after its opening quote. -/
def readString (cs : List Char) : Option (List Char × Nat) := readStr none cs

/-- The characters a number literal is made of. -/
def isNumChar (c : Char) : Bool :=
  isDigit c || c = '-' || c = '+' || c = '.' || c = 'e' || c = 'E'

/-- The scanner's white space. -/
def isSpace (c : Char) : Bool :=
  c = ' ' || c = Char.ofNat 9 || c = Char.ofNat 13 || c = Char.ofNat 10

/-- The scanner: splits JSON text into tokens, or fails. The first argument counts the
characters of the token just read that are still to be skipped. -/
def lexAux : Nat → List Char → Option (List Token)
  | _, [] => some []
  | k + 1, _ :: cs => lexAux k cs
  | 0, c :: cs =>
    if isSpace c then lexAux 0 cs
    else if c = '{' then (lexAux 0 cs).map (Token.lbrace :: ·)
    else if c = '}' then (lexAux 0 cs).map (Token.rbrace :: ·)
    else if c = '[' then (lexAux 0 cs).map (Token.lbrack :: ·)
    else if c = ']' then (lexAux 0 cs).map (Token.rbrack :: ·)
    else if c = ',' then (lexAux 0 cs).map (Token.comma :: ·)
    else if c = ':' then (lexAux 0 cs).map (Token.colon :: ·)
    else if c = dq then
      match readString cs with
      | none => none
      | some (s, n) => (lexAux n cs).map (Token.str (String.mk s) :: ·)
    else if isNumChar c then
      if h : validNumber (c :: cs.takeWhile isNumChar) = true then
        (lexAux (cs.takeWhile isNumChar).length cs).map
          (Token.num ⟨c :: cs.takeWhile isNumChar, h⟩ :: ·)
      else none
    else if ['t', 'r', 'u', 'e'].isPrefixOf (c :: cs) then (lexAux 3 cs).map (Token.tru :: ·)
    else if ['f', 'a', 'l', 's', 'e'].isPrefixOf (c :: cs) then
      (lexAux 4 cs).map (Token.fls :: ·)
    else if ['n', 'u', 'l', 'l'].isPrefixOf (c :: cs) then (lexAux 3 cs).map (Token.nul :: ·)
    else none

/-- An open array or object of the decoder. -/
inductive Frame where
  | inArr (acc : List JSON)
  | inObj (m : GoMap JSON)
  | inObjVal (m : GoMap JSON) (k : String)

/-- What the decoder expects next. -/
inductive Mode where
  | value
  | arrFirst
  | objFirst
  | key
  | colon
  | afterValue
  | done (v : JSON)

/-- State of the decoder: the open containers, innermost first, and the expectation. -/
structure PState where
  stack : List Frame
  mode : Mode

/-- A value is complete: it is the result, the next element of the open array, or the
value of the pending key of the open object (a repeated key is overwritten). -/
def complete (v : JSON) : List Frame → Option PState
  | [] => some ⟨[], .done v⟩
  | .inArr acc :: st => some ⟨.inArr (v :: acc) :: st, .afterValue⟩
  | .inObjVal m k :: st => some ⟨.inObj (GoMap.insert k v m) :: st, .afterValue⟩
  | .inObj _ :: _ => none

/-- A token where a value may start. -/
def startValue (st : List Frame) : Token → Option PState
  | .nul => complete .null st
  | .tru => complete (.bool true) st
  | .fls => complete (.bool false) st
  | .num n =>
    match float64Lit n with
    | some m => complete (.num m) st
    | none => none
  | .str s => complete (.str s) st
  | .lbrack => some ⟨.inArr [] :: st, .arrFirst⟩
  | .lbrace => some ⟨.inObj [] :: st, .objFirst⟩
  | _ => none

/-- A token where an object key is expected. -/
def startKey (st : List Frame) : Token → Option PState
  | .str k =>
    match st with
    | .inObj m :: st1 => some ⟨.inObjVal m k :: st1, .colon⟩
    | _ => none
  | _ => none

/-- One step of the decoder. -/
def pstep (s : PState) (t : Token) : Option PState :=
  match s.mode with
  | .value => startValue s.stack t
  | .arrFirst =>
    match t, s.stack with
    | .rbrack, .inArr _ :: st => complete (.arr []) st
    | _, _ => startValue s.stack t
  | .objFirst =>
    match t, s.stack with
    | .rbrace, .inObj m :: st => complete (.obj m) st
    | _, _ => startKey s.stack t
  | .key => startKey s.stack t
  | .colon =>
    match t with
    | .colon => some ⟨s.stack, .value⟩
    | _ => none
  | .afterValue =>
    match t, s.stack with
    | .comma, .inArr acc :: st => some ⟨.inArr acc :: st, .value⟩
    | .comma, .inObj m :: st => some ⟨.inObj m :: st, .key⟩
    | .rbrack, .inArr acc :: st => complete (.arr acc.reverse) st
    | .rbrace, .inObj m :: st => complete (.obj m) st
    | _, _ => none
  | .done _ => none

/-- Runs the decoder over a token stream. -/
def prun : PState → List Token → Option PState
  | s, [] => some s
  | s, t :: ts =>
    match pstep s t with
    | some s1 => prun s1 ts
    | none => none

/-- `json.Unmarshal(text, &v)` for `v` of type `interface{}`: the decoded value, or `none`
when the text is not one JSON value or a number in it is out of range. -/
def parse (text : List Char) : Option JSON :=
  match lexAux 0 text with
  | none => none
  | some ts =>
    match prun ⟨[], .value⟩ ts with
    | some ⟨_, .done v⟩ => some v
    | _ => none

/-- Why `json.Unmarshal` fails. -/
inductive JSONError where
  | syntaxError
  | typeError
  deriving DecidableEq

/-- A number token gives way to `null`, which is read wherever a number is. -/
def blindNum : Token → Token
  | .num _ => .nul
  | t => t

/-- The text is one JSON value, whatever its numbers. -/
def validText (text : List Char) : Bool :=
  match lexAux 0 text with
  | none => false
  | some ts =>
    match prun ⟨[], .value⟩ (ts.map blindNum) with
    | some ⟨_, .done _⟩ => true
    | _ => false

/-- `json.Unmarshal(data, &m)` for a nil `m` of type `map[string]interface{}`: the text must
be one JSON value, and that value an object, or `null`, which leaves the map nil. A number
out of range in a text that is one JSON value is a type error. -/
def unmarshalMap (data : List Char) : Except JSONError (GoMap JSON) :=
  match parse data with
  | none => .error (if validText data then .typeError else .syntaxError)
  | some (.obj m) => .ok m
  | some .null => .ok []
  | some _ => .error .typeError

/-! ## `json.Unmarshal` into the typed model

The texts decoded into the typed model are outputs of `json.Marshal`, so they are read
through `parse`. A member is stored in the field whose name equals its key up to case
(`equalFold`); a value of the wrong kind leaves the field as it is (the error that
`json.Unmarshal` returns for it is dropped by `UnmarshalJSON`); `null` leaves a string or
a struct as it is and makes a map or a slice nil. -/

/-- Simple case folding, on the characters that fold to an ASCII character. -/
def foldChar (c : Char) : Char :=
  if 'a' ≤ c ∧ c ≤ 'z' then Char.ofNat (c.toNat - 32)
  else if c = Char.ofNat 383 then 'S'
  else if c = Char.ofNat 8490 then 'K'
  else c

/-- Whether a member key names the field called `name`. -/
def equalFold (name key : String) : Bool :=
  decide (name.data.map foldChar = key.data.map foldChar)

/-- Decoding into a `string`. -/
def decodeString (cur : String) : JSON → String
  | .str s => s
  | _ => cur

/-- Decoding into a `map[string]interface{}`: an object is stored member by member in the
map at hand. -/
def decodeMap (cur : Option (GoMap JSON)) : JSON → Option (GoMap JSON)
  | .null => none
  | .obj ms => some (ms.foldl (fun acc kv => GoMap.insert kv.1 kv.2 acc) (cur.getD []))
  | _ => cur

/-- Decoding the elements of an array into a slice: element `i` is decoded into the
element `i` at hand, or into a zero value when the slice at hand is shorter. (A slice is
at hand only when an object repeats a key up to case.) -/
def decodeElems {α : Type} (zero : α) (dec : α → JSON → α) : List α → List JSON → List α
  | _, [] => []
  | [], x :: xs => dec zero x :: decodeElems zero dec [] xs
  | c :: cs, x :: xs => dec c x :: decodeElems zero dec cs xs

/-- Decoding into a slice. -/
def decodeSlice {α : Type} (zero : α) (dec : α → JSON → α) (cur : List α) : JSON → List α
  | .null => []
  | .arr xs => decodeElems zero dec cur xs
  | _ => cur

/-- Decoding into an element of `OriginalContent.Content`. -/
def decodeNestedContent (cur : NestedContent) : JSON → NestedContent
  | .obj ms => ms.foldl (fun c kv =>
      if equalFold "text" kv.1 then { c with Text := decodeString c.Text kv.2 }
      else if equalFold "type" kv.1 then { c with Type_ := decodeString c.Type_ kv.2 }
      else c) cur
  | _ => cur

/-- Decoding into an `OriginalContent`. -/
def decodeOriginalContent (cur : OriginalContent) : JSON → OriginalContent
  | .obj ms => ms.foldl (fun c kv =>
      if equalFold "type" kv.1 then { c with Type_ := decodeString c.Type_ kv.2 }
      else if equalFold "text" kv.1 then { c with Text := decodeString c.Text kv.2 }
      else if equalFold "id" kv.1 then { c with Id := decodeString c.Id kv.2 }
      else if equalFold "input" kv.1 then { c with Input := decodeMap c.Input kv.2 }
      else if equalFold "name" kv.1 then { c with Name := decodeString c.Name kv.2 }
      else if equalFold "cache_control" kv.1 then
        { c with CacheControl := decodeString c.CacheControl kv.2 }
      else if equalFold "content" kv.1 then
        { c with Content := decodeSlice ⟨"", ""⟩ decodeNestedContent c.Content kv.2 }
      else c) cur
  | _ => cur

/-- Decoding into an `OriginalMessage`. -/
def decodeOriginalMessage (cur : OriginalMessage) : JSON → OriginalMessage
  | .obj ms => ms.foldl (fun c kv =>
      if equalFold "content" kv.1 then
        { c with Content :=
            decodeSlice ⟨"", "", "", none, "", "", []⟩ decodeOriginalContent c.Content kv.2 }
      else if equalFold "role" kv.1 then { c with Role := decodeString c.Role kv.2 }
      else c) cur
  | _ => cur

/-- Decoding into an `OriginalTool`. -/
def decodeOriginalTool (cur : OriginalTool) : JSON → OriginalTool
  | .obj ms => ms.foldl (fun c kv =>
      if equalFold "name" kv.1 then { c with Name := decodeString c.Name kv.2 }
      else if equalFold "description" kv.1 then
        { c with Description := decodeString c.Description kv.2 }
      else if equalFold "input_schema" kv.1 then
        { c with InputSchema := decodeMap c.InputSchema kv.2 }
      else c) cur
  | _ => cur

/-- `json.Unmarshal(text, &tools)` for a nil `tools` of type `[]OriginalTool`, its error
dropped. -/
def unmarshalTools (text : List Char) : List OriginalTool :=
  match parse text with
  | some j => decodeSlice ⟨"", "", none⟩ decodeOriginalTool [] j
  | none => []

/-- `json.Unmarshal(text, &messages)` for a nil `messages` of type `[]OriginalMessage`,
its error dropped. -/
def unmarshalMessages (text : List Char) : List OriginalMessage :=
  match parse text with
  | some j => decodeSlice ⟨[], ""⟩ decodeOriginalMessage [] j
  | none => []

/-! ## `ProxyPayload.UnmarshalJSON` (`main.go`, lines 92-122) -/

/-- The map `raw` of `UnmarshalJSON`: the request body decoded as a map. -/
def rawFields (data : List Char) : Except JSONError (GoMap JSON) := unmarshalMap data

/-- `UnmarshalJSON`, called on a zero `ProxyPayload`. A key that is absent from `raw` reads
as a nil interface, which `json.Marshal` writes as `null`. -/
def UnmarshalJSON (data : List Char) : Except JSONError ProxyPayload :=
  match rawFields data with
  | .error err => .error err
  | .ok raw =>
    let toolsRaw := (GoMap.lookup "tools" raw).getD .null
    let toolChoiceRaw := (GoMap.lookup "tool_choice" raw).getD .null
    let messagesRaw := (GoMap.lookup "messages" raw).getD .null
    let raw := GoMap.erase "messages" raw
    let raw := GoMap.erase "tools" raw
    let raw := GoMap.erase "tool_choice" raw
    let toolsBytes := marshal toolsRaw
    let messagesBytes := marshal messagesRaw
    .ok {
      Tools := unmarshalTools toolsBytes,
      Messages := unmarshalMessages messagesBytes,
      ToolChoice := match toolChoiceRaw with
        | .obj m => some m
        | _ => none,
      Other := raw }

/-! ## Payload assembly in `proxyHandler` (`main.go`, lines 229-256) -/

/-- What the map `result` of `proxyHandler` holds: translated tools, translated messages,
or a decoded JSON value. -/
inductive Value where
  | tools (ts : List TransformedTool)
  | messages (ms : List TransformedMessage)
  | json (j : JSON)

/-- The loop over `payload.Tools` (lines 230-233). -/
def translateTools (ts : List OriginalTool) : List TransformedTool :=
  ts.map translateTool

/-- The loop over `payload.Messages` (lines 236-239): the first panic ends it. -/
def translateMessages : List OriginalMessage → Except GoPanic (List TransformedMessage)
  | [] => .ok []
  | m :: ms =>
    match translateMessage m with
    | .error e => .error e
    | .ok t =>
      match translateMessages ms with
      | .error e => .error e
      | .ok ts => .ok (t :: ts)

/-- The narrowed tool choice (lines 246-252): the string at `type`, if there is one. -/
def narrowToolChoice (toolChoice : Option (GoMap JSON)) : Option String :=
  match toolChoice with
  | none => none
  | some m =>
    match GoMap.lookup "type" m with
    | some (.str strType) => some strType
    | _ => none

/-- The map `result` as rebuilt in lines 241-256: the translated lists, the narrowed tool
choice, then every preserved field. -/
def assemble (transformedTools : List TransformedTool)
    (transformedMessages : List TransformedMessage) (payload : ProxyPayload) : GoMap Value :=
  let result : GoMap Value :=
    GoMap.insert "messages" (.messages transformedMessages)
      (GoMap.insert "tools" (.tools transformedTools) [])
  let result :=
    match narrowToolChoice payload.ToolChoice with
    | some strType => GoMap.insert "tool_choice" (.json (.str strType)) result
    | none => result
  payload.Other.foldl (fun r kv => GoMap.insert kv.1 (.json kv.2) r) result

/-- The payload `proxyHandler` has assembled when it reaches line 258, for a decoded
request. -/
def assembled (payload : ProxyPayload) : Except GoPanic (GoMap Value) :=
  match translateMessages payload.Messages with
  | .error e => .error e
  | .ok transformedMessages =>
    .ok (assemble (translateTools payload.Tools) transformedMessages payload)

/-! ## `json.Marshal` of the typed model -/

/-- A map field: `null` when nil. -/
def mapJSON : Option (GoMap JSON) → JSON
  | none => .null
  | some m => .obj m

/-- `TransformedContent` as `json.Marshal` writes it: every field, in declaration order. -/
def TransformedContent.toJSON (c : TransformedContent) : JSON :=
  .obj [("type", .str c.Type_), ("text", .str c.Text), ("id", .str c.Id),
        ("input", mapJSON c.Input), ("cache_control", .str c.CacheControl),
        ("name", .str c.Name)]

/-- `TransformedMessage` as `json.Marshal` writes it. -/
def TransformedMessage.toJSON (m : TransformedMessage) : JSON :=
  .obj [("content", .arr (m.Content.map TransformedContent.toJSON)), ("role", .str m.Role)]

/-- `Function` as `json.Marshal` writes it. -/
def Function.toJSON (f : Function) : JSON :=
  .obj [("name", .str f.Name), ("description", .str f.Description),
        ("parameters", mapJSON f.Parameters)]

/-- `TransformedTool` as `json.Marshal` writes it. -/
def TransformedTool.toJSON (t : TransformedTool) : JSON :=
  .obj [("type", .str t.Type_), ("function", t.Function.toJSON)]

/-- A value of the map `result` as `json.Marshal` writes it. -/
def Value.toJSON : Value → JSON
  | .tools ts => .arr (ts.map TransformedTool.toJSON)
  | .messages ms => .arr (ms.map TransformedMessage.toJSON)
  | .json j => j

/-- `json.Marshal` of the map `result`. -/
def marshalPayload (input : GoMap Value) : List Char :=
  marshal (.obj (input.map fun kv => (kv.1, kv.2.toJSON)))

/-! ## `ConvertToolTypesToText` (`main.go`, lines 183-209) -/

/-- The two calls of `strings.ReplaceAll` (lines 195-196). -/
def patchText (jsonStr : List Char) : List Char :=
  let jsonStr := replaceAll jsonStr "\"tool_use\"".data
    "\"text\", \"text\":\"incorrect tool use\"".data
  let jsonStr := replaceAll jsonStr "\"tool_result\"".data
    "\"text\", \"text\":\"incorrect tool result\"".data
  jsonStr

/-- `ConvertToolTypesToText`: marshal, patch the text, unmarshal. `json.Marshal` does not
fail on the values of `result`. -/
def ConvertToolTypesToText (input : GoMap Value) : Except String (GoMap JSON) :=
  let jsonStr := marshalPayload input
  let jsonStr := patchText jsonStr
  match unmarshalMap jsonStr with
  | .error _ => .error "failed to parse updated JSON"
  | .ok output => .ok output

/-! ## `proxyHandler` (`main.go`, lines 223-266) -/

/-- How `proxyHandler` ends for a request body that was read: with an error response, with
a panic, or with a body posted to the backend. -/
inductive Outcome where
  | badRequest (msg : String)
  | panicked (p : GoPanic)
  | internalError (msg : String)
  | forwarded (body : List Char)

/-- `proxyHandler` from the decoding of the body to the body that is posted. -/
def proxyHandler (body : List Char) : Outcome :=
  match UnmarshalJSON body with
  | .error _ => .badRequest "Invalid JSON"
  | .ok payload =>
    match assembled payload with
    | .error p => .panicked p
    | .ok result =>
      match ConvertToolTypesToText result with
      | .error err => .internalError ("Failed to convert tool types to text: " ++ err)
      | .ok result => .forwarded (marshal (.obj result))

/-! ## Predicates and examples used by the theorems -/

/-- Keys strictly increasing: the representation invariant of a Go map. -/
def KeysSorted {α : Type} (m : GoMap α) : Prop :=
  (m.map Prod.fst).Pairwise (fun a b => keyLt a.data b.data = true)

/-- A value in the form the decoder produces: every object in it is a Go map, and every
number is the literal that `json.Marshal` writes for a `float64`. -/
inductive Canon : JSON → Prop where
  | null : Canon .null
  | bool (b : Bool) : Canon (.bool b)
  | num (n : NumLit) (h : float64Lit n = some n) : Canon (.num n)
  | str (s : String) : Canon (.str s)
  | arr (xs : List JSON) : (∀ x ∈ xs, Canon x) → Canon (.arr xs)
  | obj (ms : List (String × JSON)) : KeysSorted ms → (∀ kv ∈ ms, Canon kv.2) →
      Canon (.obj ms)

/-- A map of the decoder: sorted keys, values in decoder form. -/
def CanonMap (m : GoMap JSON) : Prop := KeysSorted m ∧ ∀ kv ∈ m, Canon kv.2

/-- An invariant of the decoder: a property `Q` of decoded values and a property `M` of
decoded maps, kept by every step on tokens that satisfy `T`. -/
structure DecInv where
  Q : JSON → Prop
  M : GoMap JSON → Prop
  T : Token → Prop
  q_null : Q .null
  q_bool : ∀ b, Q (.bool b)
  q_num : ∀ n m, float64Lit n = some m → Q (.num m)
  q_str : ∀ s, T (.str s) → Q (.str s)
  q_arr : ∀ xs, (∀ x ∈ xs, Q x) → Q (.arr xs)
  q_obj : ∀ m, M m → Q (.obj m)
  m_nil : M []
  m_insert : ∀ k v m, T (.str k) → M m → Q v → M (GoMap.insert k v m)

/-- The invariant of an open container of the decoder. -/
def FrameOK (I : DecInv) : Frame → Prop
  | .inArr acc => ∀ x ∈ acc, I.Q x
  | .inObj m => I.M m
  | .inObjVal m k => I.M m ∧ I.T (.str k)

/-- The invariant of the decoder state. -/
def PStateOK (I : DecInv) (s : PState) : Prop :=
  (∀ f ∈ s.stack, FrameOK I f) ∧
  match s.mode with
  | .done v => I.Q v
  | _ => True

mutual
/-- Every string of a value, key or string value, satisfies `P`. -/
def JSON.AllStr (P : String → Prop) : JSON → Prop
  | .str s => P s
  | .arr xs => allStrList P xs
  | .obj ms => allStrMembers P ms
  | _ => True
/-- Every string of the values of a list satisfies `P`. -/
def allStrList (P : String → Prop) : List JSON → Prop
  | [] => True
  | x :: xs => x.AllStr P ∧ allStrList P xs
/-- Every string of the members of an object satisfies `P`. -/
def allStrMembers (P : String → Prop) : List (String × JSON) → Prop
  | [] => True
  | (k, v) :: ms => P k ∧ v.AllStr P ∧ allStrMembers P ms
end

/-- The string value of a member, when the member is named `type`. -/
def typeTagAt (k : String) : JSON → List String
  | .str s => if k = "type" then [s] else []
  | _ => []

mutual
/-- The string values found at a member named `type`, anywhere in a value. -/
def JSON.typeTags : JSON → List String
  | .arr xs => typeTagsList xs
  | .obj ms => typeTagsMembers ms
  | _ => []
/-- The string values at `type` in the values of a list. -/
def typeTagsList : List JSON → List String
  | [] => []
  | x :: xs => x.typeTags ++ typeTagsList xs
/-- The string values at `type` in the members of an object. -/
def typeTagsMembers : List (String × JSON) → List String
  | [] => []
  | (k, v) :: ms => typeTagAt k v ++ (v.typeTags ++ typeTagsMembers ms)
end

/-- The characters that `json.Marshal` writes as themselves. -/
def Plain (c : Char) : Prop := escapeChar c = [c]

/-- A piece of patched JSON text: a token, or the space that the replacement text has
after its comma. -/
inductive Piece where
  | tok (t : Token)
  | space

/-- The text of a piece. -/
def Piece.render : Piece → List Char
  | .tok t => t.render
  | .space => [' ']

/-- The text of a sequence of pieces. -/
def renderPieces : List Piece → List Char
  | [] => []
  | p :: ps => p.render ++ renderPieces ps

/-- The pattern of a call of `strings.ReplaceAll` in `patchText`: a quoted tag. -/
def pattern (tag : List Char) : List Char := dq :: (tag ++ [dq])

/-- The replacement text of a call of `strings.ReplaceAll` in `patchText`, for the
placeholder `ph`. -/
def replacement (ph : List Char) : List Char :=
  "\"text\", \"text\":\"".data ++ (ph ++ [dq])

/-- The part of a string before a final quoted tag: `some (s0 ++ [dq])` when the string
is `s0`, a quote, and the tag. -/
def cutTag (tag : List Char) : List Char → Option (List Char)
  | [] => none
  | c :: cs => if c = dq ∧ cs = tag then some [dq] else (cutTag tag cs).map (c :: ·)

/-- The part of a string that a replacement keeps: nothing when the string is the tag. -/
def patchStr (tag s : List Char) : Option (List Char) :=
  if s = tag then some [] else cutTag tag s

/-- The pieces written in place of a string token hit by a replacement. -/
def patched (pre ph : List Char) : List Piece :=
  [.tok (.str ⟨pre ++ "text".data⟩), .tok .comma, .space, .tok (.str "text"),
   .tok .colon, .tok (.str ⟨ph⟩)]

/-- What a call of `strings.ReplaceAll` in `patchText` makes of one piece. -/
def patchPiece (tag ph : List Char) : Piece → List Piece
  | .tok (.str s) =>
    match patchStr tag s.data with
    | some pre => patched pre ph
    | none => [.tok (.str s)]
  | p => [p]

/-- What a call of `strings.ReplaceAll` in `patchText` makes of a string literal after
its opening quote, when the string is not the tag. -/
def patchBody (tag rep : List Char) : List Char → List Char
  | [] => [dq]
  | c :: cs => if c = dq ∧ cs = tag then bsl :: rep else escapeChar c ++ patchBody tag rep cs

/-- The body of the spec's first end-to-end example. -/
def exampleBody : List Char :=
  ("\x7b\"tools\":[\x7b\"name\":\"search\",\"description\":\"web search\"," ++
   "\"input_schema\":\x7b\"type\":\"object\"\x7d\x7d]," ++
   "\"messages\":[\x7b\"role\":\"user\",\"content\":[\x7b\"type\":\"text\",\"text\":\"hi\"\x7d]\x7d]," ++
   "\"model\":\"x\"\x7d").data

/-- The tool of `exampleBody`. -/
def exampleTool : JSON :=
  .obj [("description", .str "web search"),
        ("input_schema", .obj [("type", .str "object")]), ("name", .str "search")]

/-- The message of `exampleBody`. -/
def exampleMessage : JSON :=
  .obj [("content", .arr [.obj [("text", .str "hi"), ("type", .str "text")]]),
        ("role", .str "user")]

/-- The fields of `exampleBody`. -/
def exampleRaw : GoMap JSON :=
  [("messages", .arr [exampleMessage]), ("model", .str "x"), ("tools", .arr [exampleTool])]

/-- The request decoded from `exampleBody`. -/
def examplePayload : ProxyPayload :=
  { Tools := [⟨"search", "web search", some [("type", .str "object")]⟩],
    ToolChoice := none,
    Other := [("model", .str "x")],
    Messages := [⟨[⟨"text", "hi", "", none, "", "", []⟩], "user"⟩] }

/-- The payload assembled from `exampleBody`. -/
def exampleResult : GoMap Value :=
  [("messages", .messages [⟨[⟨"text", "hi", "", none, "", ""⟩], "user"⟩]),
   ("model", .json (.str "x")),
   ("tools", .tools [⟨"function", ⟨"search", "web search", some [("type", .str "object")]⟩⟩])]

/-- A request body with a tool choice of the shape that is narrowed. -/
def toolChoiceBody : List Char :=
  "\x7b\"messages\":[],\"tool_choice\":\x7b\"type\":\"auto\"\x7d\x7d".data

/-- The fields of `toolChoiceBody`. -/
def toolChoiceRaw : GoMap JSON :=
  [("messages", .arr []), ("tool_choice", .obj [("type", .str "auto")])]

/-- A request body whose message has an empty content sequence. -/
def emptyContentBody : List Char :=
  "\x7b\"messages\":[\x7b\"role\":\"user\",\"content\":[]\x7d]\x7d".data

/-- A request body whose message starts with a `tool_use` block without nested content. -/
def emptyNestedBody : List Char :=
  ("\x7b\"messages\":[\x7b\"role\":\"assistant\",\"content\":[\x7b\"type\":\"tool_use\"," ++
   "\"id\":\"t1\",\"name\":\"search\",\"input\":\x7b\"q\":\"x\"\x7d\x7d]\x7d]\x7d").data

/-- A request body whose message has the free text `tool_use`. -/
def freeTextBody : List Char :=
  ("\x7b\"messages\":[\x7b\"role\":\"user\",\"content\":" ++
   "[\x7b\"type\":\"text\",\"text\":\"tool_use\"\x7d]\x7d]\x7d").data

/-- The payload assembled from `freeTextBody`. -/
def freeTextResult : GoMap Value :=
  [("messages", .messages [⟨[⟨"text", "tool_use", "", none, "", ""⟩], "user"⟩]),
   ("tools", .tools [])]

/-- The payload assembled from the request body `{"model":"tool_result"}`. -/
def modelResult : GoMap Value :=
  [("messages", .messages []), ("model", .json (.str "tool_result")), ("tools", .tools [])]

/-- An assembled payload with a pass-through object of type `tool_use`. -/
def taggedResult : GoMap Value :=
  [("messages", .messages []), ("metadata", .json (.obj [("type", .str "tool_use")])),
   ("tools", .tools [])]

/-- What `ConvertToolTypesToText` returns for `taggedResult`. -/
def taggedOutput : GoMap JSON :=
  [("messages", .arr []),
   ("metadata", .obj [("text", .str "incorrect tool use"), ("type", .str "text")]),
   ("tools", .arr [])]

/-! ## Further examples -/

/-- A request body whose tool choice names a specific tool. -/
def structuredChoiceBody : List Char :=
  ("\x7b\"messages\":[],\"tool_choice\":" ++
   "\x7b\"type\":\"tool\",\"name\":\"search\"\x7d\x7d").data

/-- The fields of `structuredChoiceBody`. -/
def structuredChoiceRaw : GoMap JSON :=
  [("messages", .arr []),
   ("tool_choice", .obj [("name", .str "search"), ("type", .str "tool")])]

/-- The request decoded from `structuredChoiceBody`. -/
def structuredChoicePayload : ProxyPayload :=
  { Tools := [], ToolChoice := some [("name", .str "search"), ("type", .str "tool")],
    Other := [], Messages := [] }

/-- The payload assembled from `structuredChoiceBody`. -/
def structuredChoiceResult : GoMap Value :=
  [("messages", .messages []), ("tool_choice", .json (.str "tool")), ("tools", .tools [])]

/-- A request body whose `messages` and `tools` are not arrays. -/
def misshapenBody : List Char :=
  "\x7b\"messages\":\"hello\",\"tools\":\x7b\"name\":\"search\"\x7d\x7d".data

/-- A request body whose message has a plain string as content. -/
def stringContentBody : List Char :=
  "\x7b\"messages\":[\x7b\"role\":\"user\",\"content\":\"hi\"\x7d]\x7d".data

/-- A request body with a pass-through array that holds the string `tool_use`. -/
def stopBody : List Char :=
  "\x7b\"messages\":[],\"stop\":[\"tool_use\"]\x7d".data

/-- The payload assembled from `stopBody`. -/
def stopResult : GoMap Value :=
  [("messages", .messages []), ("stop", .json (.arr [.str "tool_use"])), ("tools", .tools [])]

/-- A request body with a pass-through object that has the key `tool_use`. -/
def keyBody : List Char :=
  "\x7b\"messages\":[],\"metadata\":\x7b\"tool_use\":true\x7d\x7d".data

/-- The payload assembled from `keyBody`. -/
def keyResult : GoMap Value :=
  [("messages", .messages []), ("metadata", .json (.obj [("tool_use", .bool true)])),
   ("tools", .tools [])]

/-- The payload that `proxyHandler` forwards for `exampleBody`, as decoded from the text
that `ConvertToolTypesToText` has patched. -/
def exampleForwarded : GoMap JSON :=
  [("messages", .arr [.obj [
      ("content", .arr [.obj [("cache_control", .str ""), ("id", .str ""),
        ("input", .null), ("name", .str ""), ("text", .str "hi"), ("type", .str "text")]]),
      ("role", .str "user")]]),
   ("model", .str "x"),
   ("tools", .arr [.obj [
      ("function", .obj [("description", .str "web search"), ("name", .str "search"),
        ("parameters", .obj [("type", .str "object")])]),
      ("type", .str "function")]])]

/-- The `messages` value that the spec's example expects, as a decoded value. -/
def exampleExpectedMessages : JSON :=
  .arr [.obj [("content", .arr [.obj [("text", .str "hi"), ("type", .str "text")]]),
              ("role", .str "user")]]

/-! ## The textual pass, structurally -/

/-- What `patchText` does to a string literal: `some (pre, ph)` when one of the two calls
of `strings.ReplaceAll` replaces its end, `pre` being the part of the string that is kept
and `ph` the placeholder written after it. -/
def hitStr (s : List Char) : Option (List Char × List Char) :=
  match patchStr "tool_use".data s with
  | some pre => some (pre, "incorrect tool use".data)
  | none =>
    match patchStr "tool_result".data s with
    | some pre => some (pre, "incorrect tool result".data)
    | none => none

/-- The tokens that the scanner reads where a token stood before `patchText`. -/
def patchTok : Token → List Token
  | .str s =>
    match hitStr s.data with
    | some (pre, ph) => [.str ⟨pre ++ "text".data⟩, .comma, .str "text", .colon, .str ⟨ph⟩]
    | none => [.str s]
  | t => [t]

/-- What the two calls of `strings.ReplaceAll` in `patchText` make of one piece. -/
def patchBoth (p : Piece) : List Piece :=
  (patchPiece "tool_use".data "incorrect tool use".data p).flatMap
    (patchPiece "tool_result".data "incorrect tool result".data)

/-- The tokens among pieces. -/
def pieceTokens : List Piece → List Token
  | [] => []
  | .tok t :: ps => t :: pieceTokens ps
  | .space :: ps => pieceTokens ps

/-- No number token is followed by a number token. -/
def NumSeparated : List Token → Prop
  | [] => True
  | [_] => True
  | .num _ :: .num _ :: _ => False
  | _ :: t :: ts => NumSeparated (t :: ts)

/-- What a string value that `patchText` rewrites becomes, with the placeholder. -/
def hitValue : JSON → Option (String × String)
  | .str s => (hitStr s.data).map fun p => (⟨p.1 ++ "text".data⟩, ⟨p.2⟩)
  | _ => none

mutual
/-- The value decoded from the patched text of a value, computed on the value: a string
that `patchText` rewrites makes the text invalid when it is an array element or a key;
as the value of a member it becomes two members, the second one named `text`. A number
is read again as a `float64`. -/
def JSON.sanit : JSON → Option JSON
  | .arr xs => (sanitElems xs).map .arr
  | .obj ms => (sanitMembers ms).map fun l =>
      .obj (l.foldl (fun m kv => GoMap.insert kv.1 kv.2 m) [])
  | .num n => (float64Lit n).map .num
  | v => some v
/-- The elements decoded from the patched text of array elements. -/
def sanitElems : List JSON → Option (List JSON)
  | [] => some []
  | x :: xs =>
    if (hitValue x).isSome then none
    else
      match x.sanit, sanitElems xs with
      | some x1, some xs1 => some (x1 :: xs1)
      | _, _ => none
/-- The members decoded, in order, from the patched text of object members. -/
def sanitMembers : List (String × JSON) → Option (List (String × JSON))
  | [] => some []
  | (k, v) :: ms =>
    if (hitStr k.data).isSome then none
    else
      match hitValue v with
      | some (s1, ph) =>
        (sanitMembers ms).map fun l => (k, .str s1) :: ("text", .str ph) :: l
      | none =>
        match v.sanit, sanitMembers ms with
        | some v1, some l => some ((k, v1) :: l)
        | _, _ => none
end

/-- A string that `patchText` does not rewrite. -/
def NoHit (s : String) : Prop := hitStr s.data = none


/-! ## Places in a value -/

/-- A step from a value to a value in it: to the member of an object with a name, or to
the element of an array at an index. -/
inductive Step where
  | key (k : String)
  | idx (i : Nat)

/-- The value one step into a value. -/
def JSON.child : JSON → Step → Option JSON
  | .obj ms, .key k => GoMap.lookup k ms
  | .arr xs, .idx i => xs.get? i
  | _, _ => none

/-- The value at a place in a value. -/
def JSON.valueAt : JSON → List Step → Option JSON
  | v, [] => some v
  | v, s :: p =>
    match v.child s with
    | some c => c.valueAt p
    | none => none

/-- The members written after the member named `k`. -/
def membersAfter (k : String) : List (String × JSON) → List (String × JSON)
  | [] => []
  | (k1, _) :: ms => if k = k1 then ms else membersAfter k ms

mutual
/-- The member names of every object in a value are pairwise distinct. -/
def JSON.Distinct : JSON → Prop
  | .arr xs => distinctElems xs
  | .obj ms => (ms.map Prod.fst).Nodup ∧ distinctMembers ms
  | _ => True
/-- The member names of every object in the elements are pairwise distinct. -/
def distinctElems : List JSON → Prop
  | [] => True
  | x :: xs => x.Distinct ∧ distinctElems xs
/-- The member names of every object in the members are pairwise distinct. -/
def distinctMembers : List (String × JSON) → Prop
  | [] => True
  | (_, v) :: ms => v.Distinct ∧ distinctMembers ms
end

/-- On the way `p` into `v`, no member named `text` is followed, in its object, by a
member that `patchText` rewrites. -/
def JSON.Clear : JSON → List Step → Prop
  | _, [] => True
  | .obj ms, .key k :: p =>
    (k = "text" → ∀ kv ∈ membersAfter k ms, hitValue kv.2 = none) ∧
    match GoMap.lookup k ms with
    | some c => c.Clear p
    | none => True
  | .arr xs, .idx i :: p =>
    match xs.get? i with
    | some c => c.Clear p
    | none => True
  | _, _ :: _ => True

/-- A request body with a pass-through object that holds both tags. -/
def bothTagsBody : List Char :=
  ("\x7b\"messages\":[],\"metadata\":" ++
   "\x7b\"a\":\"tool_use\",\"b\":\"tool_result\"\x7d\x7d").data

/-- The payload assembled from `bothTagsBody`. -/
def bothTagsResult : GoMap Value :=
  [("messages", .messages []),
   ("metadata", .json (.obj [("a", .str "tool_use"), ("b", .str "tool_result")])),
   ("tools", .tools [])]

/-- A request body whose message has the tag `tool_use` as the id of its first block. -/
def taggedIdBody : List Char :=
  ("\x7b\"messages\":[\x7b\"role\":\"user\",\"content\":[\x7b\"type\":\"text\"," ++
   "\"text\":\"hi\",\"id\":\"tool_use\"\x7d]\x7d]\x7d").data

/-- The payload assembled from `taggedIdBody`. -/
def taggedIdResult : GoMap Value :=
  [("messages", .messages [⟨[⟨"text", "hi", "tool_use", none, "", ""⟩], "user"⟩]),
   ("tools", .tools [])]

/-- A request body with a pass-through object that has the tag `tool_use` at a member
written before its member `text`. -/
def laterTextBody : List Char :=
  ("\x7b\"messages\":[],\"metadata\":" ++
   "\x7b\"id\":\"tool_use\",\"text\":\"hello\"\x7d\x7d").data

/-- The payload assembled from `laterTextBody`. -/
def laterTextResult : GoMap Value :=
  [("messages", .messages []),
   ("metadata", .json (.obj [("id", .str "tool_use"), ("text", .str "hello")])),
   ("tools", .tools [])]

/-- The value that `json.Marshal` writes for the map `result`. -/
def payloadJSON (input : GoMap Value) : JSON :=
  .obj (input.map fun kv => (kv.1, kv.2.toJSON))

/-- What `ConvertToolTypesToText` returns for `taggedIdResult`. -/
def taggedIdOutput : GoMap JSON :=
  [("messages", .arr [.obj [
      ("content", .arr [.obj [("cache_control", .str ""), ("id", .str "text"),
        ("input", .null), ("name", .str ""), ("text", .str "incorrect tool use"),
        ("type", .str "text")]]),
      ("role", .str "user")]]),
   ("tools", .arr [])]

/-- A request body with a pass-through integer beyond `2 ^ 53`. -/
def seedBody : List Char :=
  "\x7b\"messages\":[],\"seed\":12345678901234567890\x7d".data

/-- The number that Go holds for the `seed` of `seedBody`: the `float64`
`12345678901234567168`, which `json.Marshal` writes with seventeen digits. -/
def seedStored : NumLit := ⟨"12345678901234567000".data, rfl⟩

/-- The payload assembled from `seedBody`. -/
def seedResult : GoMap Value :=
  [("messages", .messages []), ("seed", .json (.num seedStored)), ("tools", .tools [])]

/-- A request body with a number beyond the largest `float64`. -/
def rangeBody : List Char :=
  "\x7b\"messages\":[],\"seed\":1e999\x7d".data
end CursorMiddleware

namespace CursorMiddleware

set_option maxRecDepth 100000

/-! ## The translators -/

/-- C1: a message whose first block has type `tool_use` or `tool_result` and a non-empty
nested content translates to a message of role `tool` with exactly one item, of type
`text`, whose text is that of the first nested element and whose id, input, cache control
and name are those of the outer block. -/
theorem translateMessage_tool_block (m : OriginalMessage) (b : OriginalContent)
    (rest : List OriginalContent) (n : NestedContent) (ns : List NestedContent)
    (hm : m.Content = b :: rest)
    (ht : b.Type_ = "tool_use" ∨ b.Type_ = "tool_result")
    (hn : b.Content = n :: ns) :
    translateMessage m = .ok {
      Content := [{
        Type_ := "text",
        Text := n.Text,
        Id := b.Id,
        Input := b.Input,
        CacheControl := b.CacheControl,
        Name := b.Name }],
      Role := "tool" } := by
  unfold translateMessage
  simp only [hm, index, List.get?, bind, Except.bind, hn, pure, Except.pure]
  rcases ht with ht | ht
  · have h1 : ¬ b.Type_ = "tool_result" := by rw [ht]; decide
    simp [h1, ht, hn]
  · simp [ht, hn]

/-- C1, at the message of the spec's example. -/
theorem translateMessage_tool_block_witness :
    (("tool_use" : String) = "tool_use" ∨ ("tool_use" : String) = "tool_result") ∧
    translateMessage
      { Content := [{ Type_ := "tool_use", Text := "", Id := "t1",
                      Input := some [("q", .str "x")], Name := "search", CacheControl := "",
                      Content := [{ Text := "result body", Type_ := "text" }] }],
        Role := "assistant" } =
      .ok { Content := [{ Type_ := "text", Text := "result body", Id := "t1",
                          Input := some [("q", .str "x")], CacheControl := "",
                          Name := "search" }],
            Role := "tool" } :=
  ⟨Or.inl rfl, translateMessage_tool_block _ _ [] _ [] rfl (Or.inl rfl) rfl⟩

/-- C2: a message whose first block has a type other than `tool_use` and `tool_result`
keeps its role, and its single item carries the type, text, id, input, cache control and
name of the first block unchanged. -/
theorem translateMessage_plain_block (m : OriginalMessage) (b : OriginalContent)
    (rest : List OriginalContent)
    (hm : m.Content = b :: rest)
    (hu : b.Type_ ≠ "tool_use") (hr : b.Type_ ≠ "tool_result") :
    translateMessage m = .ok {
      Content := [{
        Type_ := b.Type_,
        Text := b.Text,
        Id := b.Id,
        Input := b.Input,
        CacheControl := b.CacheControl,
        Name := b.Name }],
      Role := m.Role } := by
  unfold translateMessage
  simp [hm, index, bind, Except.bind, pure, Except.pure, hu, hr]

/-- C2, at a text message with a cache control annotation. -/
theorem translateMessage_plain_block_witness :
    (("text" : String) ≠ "tool_use" ∧ ("text" : String) ≠ "tool_result") ∧
    translateMessage
      { Content := [{ Type_ := "text", Text := "hi", Id := "", Input := none, Name := "",
                      CacheControl := "ephemeral", Content := [] }],
        Role := "user" } =
      .ok { Content := [{ Type_ := "text", Text := "hi", Id := "", Input := none,
                          CacheControl := "ephemeral", Name := "" }],
            Role := "user" } :=
  ⟨⟨by decide, by decide⟩, translateMessage_plain_block _ _ [] rfl (by decide) (by decide)⟩

/-- C3: `translateTool` is a total function; the tool it returns has type `function`, and
its function part has the name, the description and, as parameters, the input schema of
the source tool, the schema being the same value. -/
theorem translateTool_spec (t : OriginalTool) :
    (translateTool t).Type_ = "function" ∧
    (translateTool t).Function.Name = t.Name ∧
    (translateTool t).Function.Description = t.Description ∧
    (translateTool t).Function.Parameters = t.InputSchema :=
  ⟨rfl, rfl, rfl, rfl⟩

/-! ## Numbers -/

theorem withNat_eq {α : Type} (n : Nat) (k : Nat → α) : withNat n k = k n := by
  cases n <;> rfl

theorem withInt_eq {α : Type} (i : Int) (k : Int → α) : withInt i k = k i := by
  cases i <;> simp [withInt, withNat_eq]

/-- The decimal that `shortest` returns is one from which `parseFloat` reads `f`. -/
theorem shortest_reads (f : F64) (vn vd : Nat) (k : Int) (e : Bool) :
    ∀ (fuel n : Nat) (t : List Char), shortest f vn vd k e fuel n = some t →
      parseFloat t = some f
  | 0, _, _, h => by simp [shortest] at h
  | fuel + 1, n, t, h => by
    rw [shortest] at h
    simp only [withNat_eq, withInt_eq] at h
    split at h
    · rename_i hboth
      simp only [decide_eq_true_eq] at hboth
      split at h
      · simp only [Option.some.injEq] at h
        rw [← h]; exact hboth.1
      · simp only [Option.some.injEq] at h
        rw [← h]; exact hboth.2
    · split at h
      · rename_i hd
        simp only [decide_eq_true_eq] at hd
        simp only [Option.some.injEq] at h
        rw [← h]; exact hd
      · split at h
        · rename_i hu
          simp only [decide_eq_true_eq] at hu
          simp only [Option.some.injEq] at h
          rw [← h]; exact hu
        · exact shortest_reads f vn vd k e fuel (n + 1) t h

/-- What is written for a `float64` is read as a `float64` that is written in the same
way. -/
theorem formatFloat_fixed (f : F64) (t : List Char) (h : formatFloat f = some t) :
    ∃ g, parseFloat t = some g ∧ formatFloat g = some t := by
  have hf := h
  unfold formatFloat at h
  by_cases hz : f.mant = 0
  · rw [if_pos hz] at h
    simp only [Option.some.injEq] at h
    rw [← h]
    cases f.neg
    · exact ⟨⟨false, 0, -1074⟩, rfl, rfl⟩
    · exact ⟨⟨true, 0, -1074⟩, rfl, rfl⟩
  · rw [if_neg hz] at h
    simp only [withNat_eq, withInt_eq] at h
    exact ⟨f, shortest_reads _ _ _ _ _ _ _ _ h, hf⟩

/-- The decoder refuses a number exactly when `parseFloat` has a range error. -/
theorem float64Lit_eq_none (n : NumLit) : float64Lit n = none ↔ parseFloat n.lit = none := by
  unfold float64Lit
  cases parseFloat n.lit with
  | none => simp
  | some f =>
    simp only [withNat_eq, withInt_eq, reduceCtorEq, iff_false]
    cases formatFloat ⟨f.neg, f.mant, f.exp⟩ with
    | none => simp
    | some t =>
      simp only
      split <;> simp

/-- The literal stored for a number is stored for itself. -/
theorem float64Lit_fixed (n m : NumLit) (h : float64Lit n = some m) :
    float64Lit m = some m := by
  have hn := h
  unfold float64Lit at h
  cases hp : parseFloat n.lit with
  | none => rw [hp] at h; simp at h
  | some f =>
    rw [hp] at h
    simp only [withNat_eq, withInt_eq] at h
    cases hf : formatFloat ⟨f.neg, f.mant, f.exp⟩ with
    | none =>
      rw [hf] at h
      simp only [Option.some.injEq] at h
      subst h; exact hn
    | some t =>
      rw [hf] at h
      simp only at h
      split at h
      · rename_i hv
        simp only [Option.some.injEq] at h
        obtain ⟨g, hg1, hg2⟩ := formatFloat_fixed _ _ hf
        have hm : m.lit = t := by rw [← h]
        unfold float64Lit
        rw [hm, hg1]
        simp only [withNat_eq, withInt_eq]
        rw [hg2]
        simp only [hv, dite_true, Option.some.injEq]
        rw [← h]
      · simp only [Option.some.injEq] at h
        subst h; exact hn
/-! ## Go maps -/

theorem keyLt_irrefl (a : List Char) : keyLt a a = false := by
  induction a with
  | nil => rfl
  | cons c cs ih => simp [keyLt, ih]

theorem keyLt_cons (x y : Char) (xs ys : List Char) :
    keyLt (x :: xs) (y :: ys) = true ↔ x < y ∨ (x = y ∧ keyLt xs ys = true) := by
  simp only [keyLt]
  by_cases h1 : x < y
  · simp [h1]
  · by_cases h2 : x = y <;> simp [h1, h2]

theorem keyLt_trans : ∀ (a b c : List Char), keyLt a b = true → keyLt b c = true → keyLt a c = true
  | [], [], _, h, _ => by simp [keyLt] at h
  | _ :: _, [], _, h, _ => by simp [keyLt] at h
  | _, _ :: _, [], _, h => by simp [keyLt] at h
  | [], _ :: _, _ :: _, _, _ => by simp [keyLt]
  | x :: xs, y :: ys, z :: zs, h1, h2 => by
    rw [keyLt_cons] at h1 h2 ⊢
    rcases h1 with h1 | ⟨h1, h1'⟩
    · rcases h2 with h2 | ⟨h2, _⟩
      · exact Or.inl (lt_trans h1 h2)
      · subst h2; exact Or.inl h1
    · subst h1
      rcases h2 with h2 | ⟨h2, h2'⟩
      · exact Or.inl h2
      · exact Or.inr ⟨h2, keyLt_trans xs ys zs h1' h2'⟩

theorem keyLt_total : ∀ (a b : List Char), keyLt a b = false → keyLt b a = false → a = b
  | [], [], _, _ => rfl
  | [], _ :: _, h, _ => by simp [keyLt] at h
  | _ :: _, [], _, h => by simp [keyLt] at h
  | x :: xs, y :: ys, h1, h2 => by
    rw [Bool.eq_false_iff, Ne, keyLt_cons] at h1 h2
    push_neg at h1 h2
    have hxy : x = y := le_antisymm h2.1 h1.1
    subst hxy
    have := keyLt_total xs ys (by simpa using h1.2 rfl) (by simpa using h2.2 rfl)
    rw [this]

theorem lookup_insert {α : Type} (k k' : String) (v : α) (m : GoMap α) :
    GoMap.lookup k' (GoMap.insert k v m) = if k' = k then some v else GoMap.lookup k' m := by
  induction m with
  | nil => simp [GoMap.insert, GoMap.lookup]
  | cons kv m ih =>
    obtain ⟨k1, v1⟩ := kv
    simp only [GoMap.insert]
    by_cases h1 : k = k1
    · subst h1
      by_cases h2 : k' = k <;> simp [GoMap.lookup, h2]
    · by_cases h3 : keyLt k.data k1.data = true
      · by_cases h2 : k' = k <;> simp [GoMap.lookup, h1, h2, h3]
      · by_cases h2 : k' = k
        · subst h2
          simp [GoMap.lookup, h1, h3, ih]
        · simp [GoMap.lookup, h1, h2, h3, ih]

theorem lookup_erase_ne {α : Type} (k k' : String) (m : GoMap α) (h : k' ≠ k) :
    GoMap.lookup k' (GoMap.erase k m) = GoMap.lookup k' m := by
  induction m with
  | nil => rfl
  | cons kv m ih =>
    obtain ⟨k1, v1⟩ := kv
    unfold GoMap.erase at ih ⊢
    by_cases h1 : k1 = k
    · subst h1
      simp [List.filter, GoMap.lookup, h, ih]
    · by_cases h2 : k' = k1 <;> simp [List.filter, GoMap.lookup, h1, h2, ih]

theorem mem_erase {α : Type} (k : String) (m : GoMap α) (kv : String × α) :
    kv ∈ GoMap.erase k m ↔ kv ∈ m ∧ kv.1 ≠ k := by
  simp [GoMap.erase]

theorem lookup_eq_none_of_not_mem {α : Type} (k : String) (m : GoMap α)
    (h : ∀ kv ∈ m, kv.1 ≠ k) : GoMap.lookup k m = none := by
  induction m with
  | nil => rfl
  | cons kv m ih =>
    obtain ⟨k1, v1⟩ := kv
    have h1 : k ≠ k1 := fun e => h (k1, v1) (List.mem_cons_self _ _) e.symm
    simp only [GoMap.lookup, h1, if_false]
    exact ih (fun kv hkv => h kv (List.mem_cons_of_mem _ hkv))

theorem lookup_erase_self {α : Type} (k : String) (m : GoMap α) :
    GoMap.lookup k (GoMap.erase k m) = none :=
  lookup_eq_none_of_not_mem k _ (fun kv hkv => ((mem_erase k m kv).mp hkv).2)

theorem mem_of_lookup {α : Type} (k : String) (v : α) (m : GoMap α)
    (h : GoMap.lookup k m = some v) : (k, v) ∈ m := by
  induction m with
  | nil => simp [GoMap.lookup] at h
  | cons kv m ih =>
    obtain ⟨k1, v1⟩ := kv
    simp only [GoMap.lookup] at h
    by_cases h1 : k = k1
    · simp only [h1, if_true, Option.some.injEq] at h
      simp [h1, h]
    · simp only [h1, if_false] at h
      exact List.mem_cons_of_mem _ (ih h)

theorem mem_insert {α : Type} (k : String) (v : α) (m : GoMap α) (kv : String × α)
    (h : kv ∈ GoMap.insert k v m) : kv = (k, v) ∨ kv ∈ m := by
  induction m with
  | nil => simpa [GoMap.insert] using h
  | cons kv1 m ih =>
    obtain ⟨k1, v1⟩ := kv1
    simp only [GoMap.insert] at h
    split_ifs at h
    · rcases List.mem_cons.mp h with h | h
      · exact Or.inl h
      · exact Or.inr (List.mem_cons_of_mem _ h)
    · rcases List.mem_cons.mp h with h | h
      · exact Or.inl h
      · exact Or.inr h
    · rcases List.mem_cons.mp h with h | h
      · exact Or.inr (h ▸ List.mem_cons_self _ _)
      · rcases ih h with h | h
        · exact Or.inl h
        · exact Or.inr (List.mem_cons_of_mem _ h)

theorem keysSorted_insert {α : Type} (k : String) (v : α) (m : GoMap α) (h : KeysSorted m) :
    KeysSorted (GoMap.insert k v m) := by
  induction m with
  | nil => simp [GoMap.insert, KeysSorted]
  | cons kv1 m ih =>
    obtain ⟨k1, v1⟩ := kv1
    unfold KeysSorted at h ih ⊢
    simp only [List.map_cons, List.pairwise_cons] at h
    simp only [GoMap.insert]
    by_cases h1 : k = k1
    · subst h1
      simpa [List.pairwise_cons] using h
    · by_cases h3 : keyLt k.data k1.data = true
      · rw [if_neg h1, if_pos h3]
        simp only [List.map_cons, List.pairwise_cons]
        refine ⟨?_, h⟩
        intro a ha
        rcases List.mem_cons.mp ha with ha | ha
        · rw [ha]; exact h3
        · exact keyLt_trans _ _ _ h3 (h.1 a ha)
      · rw [if_neg h1, if_neg h3]
        simp only [List.map_cons, List.pairwise_cons]
        refine ⟨?_, ih h.2⟩
        intro a ha
        obtain ⟨kv, hkv, rfl⟩ := List.mem_map.mp ha
        rcases mem_insert k v m kv hkv with hkv | hkv
        · rw [hkv]
          have h4 : keyLt k.data k1.data = false := by simpa using h3
          by_contra h5
          have h6 : keyLt k1.data k.data = false := by simpa using h5
          exact h1 (String.ext (keyLt_total _ _ h4 h6))
        · exact h.1 _ (List.mem_map_of_mem _ hkv)

theorem keysSorted_erase {α : Type} (k : String) (m : GoMap α) (h : KeysSorted m) :
    KeysSorted (GoMap.erase k m) := by
  unfold KeysSorted GoMap.erase at *
  exact List.Pairwise.sublist ((List.filter_sublist _).map _) h

theorem lookup_of_mem {α : Type} (k : String) (v : α) (m : GoMap α) (hs : KeysSorted m)
    (h : (k, v) ∈ m) : GoMap.lookup k m = some v := by
  induction m with
  | nil => simp at h
  | cons kv1 m ih =>
    obtain ⟨k1, v1⟩ := kv1
    unfold KeysSorted at hs ih
    simp only [List.map_cons, List.pairwise_cons] at hs
    rcases List.mem_cons.mp h with h | h
    · simp only [Prod.mk.injEq] at h
      simp [GoMap.lookup, h.1, h.2]
    · have h1 : k ≠ k1 := by
        intro e
        have := hs.1 k (List.mem_map_of_mem Prod.fst h)
        rw [e, keyLt_irrefl] at this
        exact Bool.noConfusion this
      simp only [GoMap.lookup, h1, if_false]
      exact ih hs.2 h

/-! ## The decoder keeps its invariants -/

theorem complete_ok (I : DecInv) (v : JSON) (st : List Frame) (s : PState) (hv : I.Q v)
    (hst : ∀ f ∈ st, FrameOK I f) (h : complete v st = some s) : PStateOK I s := by
  cases st with
  | nil =>
    simp only [complete, Option.some.injEq] at h
    subst h
    exact ⟨by simp, hv⟩
  | cons f st =>
    have hf := hst f (List.mem_cons_self _ _)
    have hrest : ∀ g ∈ st, FrameOK I g := fun g hg => hst g (List.mem_cons_of_mem _ hg)
    cases f with
    | inArr acc =>
      simp only [complete, Option.some.injEq] at h
      subst h
      refine ⟨?_, trivial⟩
      intro g hg
      rcases List.mem_cons.mp hg with e | e
      · subst e
        intro x hx
        rcases List.mem_cons.mp hx with e | e
        · rw [e]; exact hv
        · exact hf x e
      · exact hrest g e
    | inObj m => simp [complete] at h
    | inObjVal m k =>
      simp only [complete, Option.some.injEq] at h
      subst h
      refine ⟨?_, trivial⟩
      intro g hg
      rcases List.mem_cons.mp hg with e | e
      · subst e
        exact I.m_insert k v m hf.2 hf.1 hv
      · exact hrest g e

theorem startValue_ok (I : DecInv) (st : List Frame) (t : Token) (s : PState) (ht : I.T t)
    (hst : ∀ f ∈ st, FrameOK I f) (h : startValue st t = some s) : PStateOK I s := by
  cases t with
  | nul => exact complete_ok I _ st s I.q_null hst h
  | tru => exact complete_ok I _ st s (I.q_bool _) hst h
  | fls => exact complete_ok I _ st s (I.q_bool _) hst h
  | num n =>
    simp only [startValue] at h
    cases hn : float64Lit n with
    | none => rw [hn] at h; simp at h
    | some m =>
      rw [hn] at h
      exact complete_ok I _ st s (I.q_num n m hn) hst h
  | str x => exact complete_ok I _ st s (I.q_str x ht) hst h
  | lbrack =>
    simp only [startValue, Option.some.injEq] at h
    subst h
    refine ⟨?_, trivial⟩
    intro g hg
    rcases List.mem_cons.mp hg with e | e
    · subst e; intro x hx; simp at hx
    · exact hst g e
  | lbrace =>
    simp only [startValue, Option.some.injEq] at h
    subst h
    refine ⟨?_, trivial⟩
    intro g hg
    rcases List.mem_cons.mp hg with e | e
    · subst e; exact I.m_nil
    · exact hst g e
  | rbrace => simp [startValue] at h
  | rbrack => simp [startValue] at h
  | comma => simp [startValue] at h
  | colon => simp [startValue] at h

theorem startKey_ok (I : DecInv) (st : List Frame) (t : Token) (s : PState) (ht : I.T t)
    (hst : ∀ f ∈ st, FrameOK I f) (h : startKey st t = some s) : PStateOK I s := by
  unfold startKey at h
  split at h
  · split at h
    · simp only [Option.some.injEq] at h
      subst h
      refine ⟨?_, trivial⟩
      intro g hg
      rcases List.mem_cons.mp hg with e | e
      · subst e
        exact ⟨hst (.inObj _) (List.mem_cons_self _ _), ht⟩
      · exact hst g (List.mem_cons_of_mem _ e)
    · simp at h
  · simp at h

theorem pstep_ok (I : DecInv) (s s1 : PState) (t : Token) (ht : I.T t) (hs : PStateOK I s)
    (h : pstep s t = some s1) : PStateOK I s1 := by
  obtain ⟨st, mode⟩ := s
  have hst : ∀ f ∈ st, FrameOK I f := hs.1
  unfold pstep at h
  cases mode with
  | value => exact startValue_ok I st t s1 ht hst h
  | arrFirst =>
    simp only at h
    split at h
    · rename_i acc st1
      have hrest : ∀ g ∈ st1, FrameOK I g := fun g hg => hst g (List.mem_cons_of_mem _ hg)
      exact complete_ok I _ st1 s1 (I.q_arr [] (by simp)) hrest h
    · exact startValue_ok I st t s1 ht hst h
  | objFirst =>
    simp only at h
    split at h
    · rename_i m st1
      exact complete_ok I _ st1 s1 (I.q_obj m (hst (.inObj m) (List.mem_cons_self _ _)))
        (fun g hg => hst g (List.mem_cons_of_mem _ hg)) h
    · exact startKey_ok I st t s1 ht hst h
  | key => exact startKey_ok I st t s1 ht hst h
  | colon =>
    simp only at h
    split at h
    · simp only [Option.some.injEq] at h
      subst h
      exact ⟨hst, trivial⟩
    · simp at h
  | afterValue =>
    simp only at h
    split at h
    · simp only [Option.some.injEq] at h
      subst h
      exact ⟨hst, trivial⟩
    · simp only [Option.some.injEq] at h
      subst h
      exact ⟨hst, trivial⟩
    · rename_i acc st1
      refine complete_ok I _ st1 s1 (I.q_arr _ ?_)
        (fun g hg => hst g (List.mem_cons_of_mem _ hg)) h
      intro x hx
      exact hst (.inArr acc) (List.mem_cons_self _ _) x (List.mem_reverse.mp hx)
    · rename_i m st1
      exact complete_ok I _ st1 s1 (I.q_obj m (hst (.inObj m) (List.mem_cons_self _ _)))
        (fun g hg => hst g (List.mem_cons_of_mem _ hg)) h
    · simp at h
  | done v => simp at h

theorem prun_ok (I : DecInv) : ∀ (ts : List Token) (s s1 : PState), (∀ t ∈ ts, I.T t) →
    PStateOK I s → prun s ts = some s1 → PStateOK I s1
  | [], s, s1, _, hs, h => by
    simp only [prun, Option.some.injEq] at h
    exact h ▸ hs
  | t :: ts, s, s1, ht, hs, h => by
    simp only [prun] at h
    split at h
    · rename_i s2 heq
      exact prun_ok I ts s2 s1 (fun x hx => ht x (List.mem_cons_of_mem _ hx))
        (pstep_ok I s s2 t (ht t (List.mem_cons_self _ _)) hs heq) h
    · simp at h

/-- What `parse` returns satisfies every invariant of the decoder that the tokens of the
text admit. -/
theorem parse_inv (I : DecInv) (text : List Char) (v : JSON) (h : parse text = some v) :
    ∃ ts, lexAux 0 text = some ts ∧ ((∀ t ∈ ts, I.T t) → I.Q v) := by
  unfold parse at h
  split at h
  · simp at h
  · rename_i ts hlex
    refine ⟨ts, hlex, fun ht => ?_⟩
    split at h
    · rename_i st v1 heq
      simp only [Option.some.injEq] at h
      subst h
      exact (prun_ok I ts ⟨[], .value⟩ _ ht ⟨by simp, trivial⟩ heq).2
    · simp at h

theorem canonMap_nil : CanonMap [] := ⟨by simp [KeysSorted], by simp⟩

theorem canonMap_insert (k : String) (v : JSON) (m : GoMap JSON) (h : CanonMap m)
    (hv : Canon v) : CanonMap (GoMap.insert k v m) := by
  refine ⟨keysSorted_insert k v m h.1, ?_⟩
  intro kv hkv
  rcases mem_insert k v m kv hkv with e | e
  · rw [e]; exact hv
  · exact h.2 kv e

theorem parse_canon (text : List Char) (v : JSON) (h : parse text = some v) : Canon v := by
  obtain ⟨ts, _, hq⟩ := parse_inv
    { Q := Canon, M := CanonMap, T := fun _ => True,
      q_null := .null, q_bool := .bool, q_num := fun n m h => .num m (float64Lit_fixed n m h), q_str := fun s _ => .str s,
      q_arr := .arr, q_obj := fun m h => .obj m h.1 h.2, m_nil := canonMap_nil,
      m_insert := fun k v m _ hm hv => canonMap_insert k v m hm hv } text v h
  exact hq (fun _ _ => trivial)

theorem allStrList_iff (P : String → Prop) (xs : List JSON) :
    allStrList P xs ↔ ∀ x ∈ xs, x.AllStr P := by
  induction xs with
  | nil => simp [allStrList]
  | cons x xs ih => simp [allStrList, ih]

theorem allStrMembers_iff (P : String → Prop) (ms : List (String × JSON)) :
    allStrMembers P ms ↔ ∀ kv ∈ ms, P kv.1 ∧ kv.2.AllStr P := by
  induction ms with
  | nil => simp [allStrMembers]
  | cons kv ms ih =>
    obtain ⟨k, v⟩ := kv
    simp [allStrMembers, ih, and_assoc]

theorem allStrMembers_insert (P : String → Prop) (k : String) (v : JSON) (m : GoMap JSON)
    (hk : P k) (hm : allStrMembers P m) (hv : v.AllStr P) :
    allStrMembers P (GoMap.insert k v m) := by
  rw [allStrMembers_iff] at hm ⊢
  intro kv hkv
  rcases mem_insert k v m kv hkv with e | e
  · rw [e]; exact ⟨hk, hv⟩
  · exact hm kv e

/-- The strings of a decoded value, keys and string values, are strings of its tokens. -/
theorem parse_allStr (P : String → Prop) (text : List Char) (v : JSON)
    (h : parse text = some v) :
    ∃ ts, lexAux 0 text = some ts ∧ ((∀ s, Token.str s ∈ ts → P s) → v.AllStr P) := by
  obtain ⟨ts, hlex, hq⟩ := parse_inv
    { Q := JSON.AllStr P, M := allStrMembers P, T := fun t => ∀ s, t = .str s → P s,
      q_null := by simp [JSON.AllStr], q_bool := by simp [JSON.AllStr],
      q_num := by simp [JSON.AllStr],
      q_str := fun s h => by simpa [JSON.AllStr] using h s rfl,
      q_arr := fun xs h => by simpa [JSON.AllStr] using (allStrList_iff P xs).mpr h,
      q_obj := fun m h => by simpa [JSON.AllStr] using h,
      m_nil := by simp [allStrMembers],
      m_insert := fun k v m hk hm hv => allStrMembers_insert P k v m (hk k rfl) hm hv }
    text v h
  exact ⟨ts, hlex, fun hs => hq (fun t ht s e => hs s (e ▸ ht))⟩

/-! ## Decoding and assembly -/

theorem lookup_foldl_insert_of_not_mem {α β : Type} (f : α → β) (K : String) :
    ∀ (l : GoMap α) (base : GoMap β), (∀ kv ∈ l, kv.1 ≠ K) →
      GoMap.lookup K (l.foldl (fun r kv => GoMap.insert kv.1 (f kv.2) r) base) =
        GoMap.lookup K base
  | [], _, _ => rfl
  | kv :: l, base, h => by
    rw [List.foldl_cons, lookup_foldl_insert_of_not_mem f K l _
      (fun x hx => h x (List.mem_cons_of_mem _ hx)), lookup_insert]
    have h1 : K ≠ kv.1 := fun e => h kv (List.mem_cons_self _ _) e.symm
    simp [h1]

theorem lookup_foldl_insert {α β : Type} (f : α → β) (K : String) :
    ∀ (l : GoMap α) (base : GoMap β), KeysSorted l →
      GoMap.lookup K (l.foldl (fun r kv => GoMap.insert kv.1 (f kv.2) r) base) =
        (GoMap.lookup K l).elim (GoMap.lookup K base) (fun v => some (f v))
  | [], _, _ => rfl
  | (k, v) :: l, base, h => by
    unfold KeysSorted at h
    simp only [List.map_cons, List.pairwise_cons] at h
    by_cases hk : K = k
    · subst hk
      have hnot : ∀ kv ∈ l, kv.1 ≠ K := by
        intro kv hkv e
        have := h.1 kv.1 (List.mem_map_of_mem Prod.fst hkv)
        rw [e, keyLt_irrefl] at this
        exact Bool.noConfusion this
      rw [List.foldl_cons, lookup_foldl_insert_of_not_mem f K l _ hnot, lookup_insert]
      simp [GoMap.lookup]
    · rw [List.foldl_cons, lookup_foldl_insert f K l _ h.2, lookup_insert]
      simp [GoMap.lookup, hk]

theorem rawFields_canon (body : List Char) (raw : GoMap JSON) (h : rawFields body = .ok raw) :
    CanonMap raw := by
  unfold rawFields unmarshalMap at h
  split at h
  · simp at h
  · rename_i m heq
    have hc := parse_canon _ _ heq
    simp only [Except.ok.injEq] at h
    subst h
    cases hc with
    | obj _ h1 h2 => exact ⟨h1, h2⟩
  · simp only [Except.ok.injEq] at h
    subst h
    exact canonMap_nil
  · simp at h

/-- The preserved fields of a decoded request are the fields of the body without the
three recognized keys. -/
theorem unmarshal_other (body : List Char) (raw : GoMap JSON) (payload : ProxyPayload)
    (hraw : rawFields body = .ok raw) (hp : UnmarshalJSON body = .ok payload) :
    payload.Other =
      GoMap.erase "tool_choice" (GoMap.erase "tools" (GoMap.erase "messages" raw)) := by
  unfold UnmarshalJSON at hp
  rw [hraw] at hp
  simp only [Except.ok.injEq] at hp
  rw [← hp]

theorem unmarshal_toolChoice (body : List Char) (raw : GoMap JSON) (payload : ProxyPayload)
    (hraw : rawFields body = .ok raw) (hp : UnmarshalJSON body = .ok payload) :
    payload.ToolChoice =
      match (GoMap.lookup "tool_choice" raw).getD .null with
      | .obj m => some m
      | _ => none := by
  unfold UnmarshalJSON at hp
  rw [hraw] at hp
  simp only [Except.ok.injEq] at hp
  rw [← hp]

theorem unmarshal_ok (body : List Char) (raw : GoMap JSON) (hraw : rawFields body = .ok raw) :
    ∃ payload, UnmarshalJSON body = .ok payload := by
  unfold UnmarshalJSON
  rw [hraw]
  exact ⟨_, rfl⟩

theorem assembled_eq (payload : ProxyPayload) (result : GoMap Value)
    (h : assembled payload = .ok result) :
    ∃ tms, translateMessages payload.Messages = .ok tms ∧
      result = assemble (translateTools payload.Tools) tms payload := by
  unfold assembled at h
  split at h
  · simp at h
  · rename_i tms heq
    simp only [Except.ok.injEq] at h
    exact ⟨tms, heq, h.symm⟩

/-- The map `result` before the preserved fields are merged. -/
theorem lookup_assemble (tts : List TransformedTool) (tms : List TransformedMessage)
    (payload : ProxyPayload) (K : String) (hs : KeysSorted payload.Other) :
    GoMap.lookup K (assemble tts tms payload) =
      (GoMap.lookup K payload.Other).elim
        (if K = "tool_choice" then
          (narrowToolChoice payload.ToolChoice).map (fun s => Value.json (.str s))
         else if K = "messages" then some (.messages tms)
         else if K = "tools" then some (.tools tts)
         else none)
        (fun v => some (.json v)) := by
  unfold assemble
  simp only []
  rw [lookup_foldl_insert Value.json K payload.Other _ hs]
  congr 1
  cases narrowToolChoice payload.ToolChoice with
  | none =>
    simp only [lookup_insert, GoMap.lookup, Option.map_none']
    by_cases h1 : K = "tool_choice"
    · subst h1; simp
    · simp [h1]
  | some s =>
    simp only [lookup_insert, GoMap.lookup, Option.map_some']
    by_cases h1 : K = "tool_choice"
    · subst h1; simp
    · simp [h1]

/-- Between decoding and assembly no pass-through key is dropped or changed: for a request
body that `json.Unmarshal` decodes to the fields `raw`, and a key `K` other than `tools`,
`messages` and `tool_choice`, the payload assembled by `proxyHandler` has at `K` the value
that `raw` has at `K` (and has no `K` when `raw` has none). -/
theorem passthrough_preserved (body : List Char) (raw : GoMap JSON) (payload : ProxyPayload)
    (result : GoMap Value) (K : String)
    (hraw : rawFields body = .ok raw) (hp : UnmarshalJSON body = .ok payload)
    (hres : assembled payload = .ok result)
    (hK : K ≠ "tools" ∧ K ≠ "messages" ∧ K ≠ "tool_choice") :
    GoMap.lookup K result = (GoMap.lookup K raw).map Value.json := by
  obtain ⟨tms, _, rfl⟩ := assembled_eq payload result hres
  have hother := unmarshal_other body raw payload hraw hp
  have hsorted : KeysSorted payload.Other := by
    rw [hother]
    exact keysSorted_erase _ _ (keysSorted_erase _ _ (keysSorted_erase _ _
      (rawFields_canon body raw hraw).1))
  rw [lookup_assemble _ _ _ _ hsorted, hother, lookup_erase_ne _ _ _ hK.2.2,
    lookup_erase_ne _ _ _ hK.1, lookup_erase_ne _ _ _ hK.2.1]
  cases GoMap.lookup K raw with
  | none => simp [hK.1, hK.2.1, hK.2.2]
  | some v => simp

/-- The pass-through key `model` of the spec's example. -/
theorem passthrough_preserved_witness :
    rawFields exampleBody = .ok exampleRaw ∧
    UnmarshalJSON exampleBody = .ok examplePayload ∧
    assembled examplePayload = .ok exampleResult ∧
    ("model" ≠ "tools" ∧ "model" ≠ "messages" ∧ "model" ≠ "tool_choice") ∧
    GoMap.lookup "model" exampleResult = (GoMap.lookup "model" exampleRaw).map Value.json :=
  ⟨rfl, rfl, rfl, by decide,
    passthrough_preserved exampleBody exampleRaw examplePayload exampleResult "model"
      rfl rfl rfl (by decide)⟩

/-- The preserved fields of a decoded request: a Go map without the recognized keys. -/
theorem other_excludes_recognized (body : List Char) (payload : ProxyPayload)
    (hp : UnmarshalJSON body = .ok payload) :
    KeysSorted payload.Other ∧
    ∀ kv ∈ payload.Other, kv.1 ≠ "tools" ∧ kv.1 ≠ "messages" ∧ kv.1 ≠ "tool_choice" := by
  have hraw : ∃ raw, rawFields body = .ok raw := by
    unfold UnmarshalJSON at hp
    cases h : rawFields body with
    | error e => rw [h] at hp; simp at hp
    | ok raw => exact ⟨raw, rfl⟩
  obtain ⟨raw, hraw⟩ := hraw
  have hother := unmarshal_other body raw payload hraw hp
  constructor
  · rw [hother]
    exact keysSorted_erase _ _ (keysSorted_erase _ _ (keysSorted_erase _ _
      (rawFields_canon body raw hraw).1))
  · intro kv hkv
    rw [hother] at hkv
    have h1 := (mem_erase _ _ _).mp hkv
    have h2 := (mem_erase _ _ _).mp h1.1
    have h3 := (mem_erase _ _ _).mp h2.1
    exact ⟨h2.2, h3.2, h1.2⟩

/-- The recognized keys of the assembled payload come from the translators. -/
theorem assembled_recognized (body : List Char) (payload : ProxyPayload)
    (result : GoMap Value)
    (hp : UnmarshalJSON body = .ok payload) (hres : assembled payload = .ok result) :
    GoMap.lookup "tools" result = some (.tools (translateTools payload.Tools)) ∧
    (∃ tms, translateMessages payload.Messages = .ok tms ∧
      GoMap.lookup "messages" result = some (.messages tms)) ∧
    GoMap.lookup "tool_choice" result =
      (narrowToolChoice payload.ToolChoice).map (fun s => Value.json (.str s)) := by
  obtain ⟨tms, htms, rfl⟩ := assembled_eq payload result hres
  obtain ⟨hsorted, hmem⟩ := other_excludes_recognized body payload hp
  have hnone : ∀ K, (K = "tools" ∨ K = "messages" ∨ K = "tool_choice") →
      GoMap.lookup K payload.Other = none := by
    intro K hK
    apply lookup_eq_none_of_not_mem
    intro kv hkv e
    have := hmem kv hkv
    rcases hK with h | h | h <;> simp_all
  refine ⟨?_, ⟨tms, htms, ?_⟩, ?_⟩
  · rw [lookup_assemble _ _ _ _ hsorted, hnone _ (Or.inl rfl)]
    simp
  · rw [lookup_assemble _ _ _ _ hsorted, hnone _ (Or.inr (Or.inl rfl))]
    simp
  · rw [lookup_assemble _ _ _ _ hsorted, hnone _ (Or.inr (Or.inr rfl))]
    simp

/-- C5: the preserved fields of a decoded request contain none of the keys `tools`,
`messages` and `tool_choice`; hence, in the payload assembled from it, `tools` is the
list of the translated tools, `messages` the list of the translated messages, and
`tool_choice` is the narrowed string or absent. -/
theorem recognized_keys_not_overwritten (body : List Char) (payload : ProxyPayload)
    (hp : UnmarshalJSON body = .ok payload) :
    (∀ kv ∈ payload.Other, kv.1 ≠ "tools" ∧ kv.1 ≠ "messages" ∧ kv.1 ≠ "tool_choice") ∧
    ∀ result, assembled payload = .ok result →
      GoMap.lookup "tools" result = some (.tools (translateTools payload.Tools)) ∧
      (∃ tms, translateMessages payload.Messages = .ok tms ∧
        GoMap.lookup "messages" result = some (.messages tms)) ∧
      GoMap.lookup "tool_choice" result =
        (narrowToolChoice payload.ToolChoice).map (fun s => Value.json (.str s)) :=
  ⟨(other_excludes_recognized body payload hp).2,
   fun result hres => assembled_recognized body payload result hp hres⟩

/-- C5, at the spec's example. -/
theorem recognized_keys_not_overwritten_witness :
    UnmarshalJSON exampleBody = .ok examplePayload ∧
    assembled examplePayload = .ok exampleResult ∧
    GoMap.lookup "tools" exampleResult =
      some (.tools (translateTools examplePayload.Tools)) :=
  ⟨rfl, rfl,
    ((recognized_keys_not_overwritten exampleBody examplePayload rfl).2 exampleResult rfl).1⟩

/-- The narrowed tool choice is the string at `type` of an object. -/
theorem narrowToolChoice_eq_some (tc : Option (GoMap JSON)) (s : String) :
    narrowToolChoice tc = some s ↔ ∃ m, tc = some m ∧ GoMap.lookup "type" m = some (.str s) := by
  unfold narrowToolChoice
  cases tc with
  | none => simp
  | some m =>
    simp only [Option.some.injEq, exists_eq_left']
    split
    · rename_i s1 heq
      rw [heq]
      simp
    · rename_i hne
      constructor
      · intro h; simp at h
      · intro h; exact absurd h (hne s)

/-- C6: decoding does not fail on any shape of `tool_choice`, and the assembled payload
has the key `tool_choice`, with the bare string `s`, exactly when the body's `tool_choice`
is an object whose member `type` is the string `s`; in every other case the assembled
payload has no key `tool_choice`. -/
theorem tool_choice_narrowed (body : List Char) (raw : GoMap JSON)
    (hraw : rawFields body = .ok raw) :
    ∃ payload, UnmarshalJSON body = .ok payload ∧
      (∀ tms, translateMessages payload.Messages = .ok tms →
        assembled payload = .ok (assemble (translateTools payload.Tools) tms payload)) ∧
      ∀ result, assembled payload = .ok result →
        (∀ s, GoMap.lookup "tool_choice" result = some (.json (.str s)) ↔
          ∃ m, GoMap.lookup "tool_choice" raw = some (.obj m) ∧
            GoMap.lookup "type" m = some (.str s)) ∧
        ((¬ ∃ m s, GoMap.lookup "tool_choice" raw = some (.obj m) ∧
            GoMap.lookup "type" m = some (.str s)) →
          GoMap.lookup "tool_choice" result = none) := by
  obtain ⟨payload, hp⟩ := unmarshal_ok body raw hraw
  refine ⟨payload, hp, ?_, ?_⟩
  · intro tms htms
    unfold assembled
    rw [htms]
  · intro result hres
    have hlook := (assembled_recognized body payload result hp hres).2.2
    have htc := unmarshal_toolChoice body raw payload hraw hp
    have hchar : ∀ s, narrowToolChoice payload.ToolChoice = some s ↔
        ∃ m, GoMap.lookup "tool_choice" raw = some (.obj m) ∧
          GoMap.lookup "type" m = some (.str s) := by
      intro s
      rw [narrowToolChoice_eq_some, htc]
      constructor
      · rintro ⟨m, h1, h2⟩
        refine ⟨m, ?_, h2⟩
        cases h : GoMap.lookup "tool_choice" raw with
        | none => rw [h] at h1; simp at h1
        | some v =>
          rw [h] at h1
          cases v <;> simp at h1
          rw [h1]
      · rintro ⟨m, h1, h2⟩
        exact ⟨m, by rw [h1]; rfl, h2⟩
    constructor
    · intro s
      rw [hlook, ← hchar s]
      cases narrowToolChoice payload.ToolChoice <;> simp
    · intro hno
      rw [hlook]
      cases h : narrowToolChoice payload.ToolChoice with
      | none => rfl
      | some s =>
        obtain ⟨m, h1, h2⟩ := (hchar s).mp h
        exact absurd ⟨m, s, h1, h2⟩ hno

/-! ## The textual pass: marshalled text, `strings.ReplaceAll`, the scanner -/

theorem hexVal_hexDigit (d : Nat) (h : d < 16) : hexVal (hexDigit d) = some d := by
  interval_cases d <;> rfl

theorem hexDigit_ne_dq (d : Nat) (h : d < 16) : hexDigit d ≠ dq := by
  interval_cases d <;> decide

theorem hex4_of_byte (n : Nat) (h : n < 256) :
    hex4 '0' '0' (hexDigit (n / 16)) (hexDigit (n % 16)) = some n := by
  have h1 : n / 16 < 16 := by omega
  have h2 : n % 16 < 16 := by omega
  unfold hex4
  rw [hexVal_hexDigit _ h1, hexVal_hexDigit _ h2]
  have : hexVal '0' = some 0 := rfl
  simp only [this]
  congr 1
  omega

/-- How `json.Marshal` writes a character: the seven shapes of `escapeChar`. -/
theorem escapeChar_shape (c : Char) :
    (c = dq ∧ escapeChar c = [bsl, dq]) ∨
    (c = bsl ∧ escapeChar c = [bsl, bsl]) ∨
    (∃ e, c ≠ dq ∧ c ≠ bsl ∧ e ≠ dq ∧ e ≠ 'u' ∧ simpleEscape e = some c ∧
      escapeChar c = [bsl, e]) ∨
    (c ≠ dq ∧ c ≠ bsl ∧ c.toNat < 256 ∧
      escapeChar c = [bsl, 'u', '0', '0', hexDigit (c.toNat / 16), hexDigit (c.toNat % 16)]) ∨
    (c = Char.ofNat 8232 ∧ escapeChar c = [bsl, 'u', '2', '0', '2', '8']) ∨
    (c = Char.ofNat 8233 ∧ escapeChar c = [bsl, 'u', '2', '0', '2', '9']) ∨
    (c ≠ dq ∧ c ≠ bsl ∧ ¬ c.toNat < 32 ∧ escapeChar c = [c]) := by
  by_cases h1 : c = dq
  · subst h1; exact Or.inl ⟨rfl, rfl⟩
  by_cases h2 : c = bsl
  · subst h2; exact Or.inr (Or.inl ⟨rfl, rfl⟩)
  by_cases h3 : c = Char.ofNat 8
  · subst h3; exact Or.inr (Or.inr (Or.inl ⟨'b', by decide, by decide, by decide, by decide, rfl, rfl⟩))
  by_cases h4 : c = Char.ofNat 12
  · subst h4; exact Or.inr (Or.inr (Or.inl ⟨'f', by decide, by decide, by decide, by decide, rfl, rfl⟩))
  by_cases h5 : c = Char.ofNat 10
  · subst h5; exact Or.inr (Or.inr (Or.inl ⟨'n', by decide, by decide, by decide, by decide, rfl, rfl⟩))
  by_cases h6 : c = Char.ofNat 13
  · subst h6; exact Or.inr (Or.inr (Or.inl ⟨'r', by decide, by decide, by decide, by decide, rfl, rfl⟩))
  by_cases h7 : c = Char.ofNat 9
  · subst h7; exact Or.inr (Or.inr (Or.inl ⟨'t', by decide, by decide, by decide, by decide, rfl, rfl⟩))
  by_cases h8 : c.toNat < 32 ∨ c = '<' ∨ c = '>' ∨ c = '&'
  · refine Or.inr (Or.inr (Or.inr (Or.inl ⟨h1, h2, ?_, ?_⟩)))
    · rcases h8 with h | h | h | h
      · omega
      · subst h; decide
      · subst h; decide
      · subst h; decide
    · rw [escapeChar, if_neg h1, if_neg h2, if_neg h3, if_neg h4, if_neg h5, if_neg h6,
        if_neg h7, if_pos h8]
  by_cases h9 : c = Char.ofNat 8232
  · subst h9; exact Or.inr (Or.inr (Or.inr (Or.inr (Or.inl ⟨rfl, rfl⟩))))
  by_cases h10 : c = Char.ofNat 8233
  · subst h10; exact Or.inr (Or.inr (Or.inr (Or.inr (Or.inr (Or.inl ⟨rfl, rfl⟩)))))
  refine Or.inr (Or.inr (Or.inr (Or.inr (Or.inr (Or.inr ⟨h1, h2, ?_, ?_⟩)))))
  · exact fun h => h8 (Or.inl h)
  · rw [escapeChar, if_neg h1, if_neg h2, if_neg h3, if_neg h4, if_neg h5, if_neg h6,
      if_neg h7, if_neg h8, if_neg h9, if_neg h10]

/-- What `json.Marshal` writes for a character starts with the character itself, which is
then all of it, or with a backslash. -/
theorem escapeChar_head (c : Char) :
    escapeChar c = [c] ∧ c ≠ dq ∧ c ≠ bsl ∨ ∃ t, escapeChar c = bsl :: t := by
  rcases escapeChar_shape c with h | h | ⟨e, h⟩ | h | h | h | h
  · exact Or.inr ⟨_, h.2⟩
  · exact Or.inr ⟨_, h.2⟩
  · exact Or.inr ⟨_, h.2.2.2.2.2⟩
  · exact Or.inr ⟨_, h.2.2.2⟩
  · exact Or.inr ⟨_, h.2⟩
  · exact Or.inr ⟨_, h.2⟩
  · exact Or.inl ⟨h.2.2.2, h.1, h.2.1⟩

/-- A quote is written only for a quote, after a backslash. -/
theorem dq_not_mem_escapeChar (c : Char) (h : c ≠ dq) : dq ∉ escapeChar c := by
  rcases escapeChar_shape c with h1 | h1 | ⟨e, h1⟩ | h1 | h1 | h1 | h1
  · exact absurd h1.1 h
  · rw [h1.2]; decide
  · rw [h1.2.2.2.2.2]
    simp only [List.mem_cons, List.mem_singleton, List.not_mem_nil, or_false, not_or]
    exact ⟨by decide, fun e' => h1.2.2.1 e'.symm⟩
  · rw [h1.2.2.2]
    have ha := hexDigit_ne_dq (c.toNat / 16) (by omega)
    have hb := hexDigit_ne_dq (c.toNat % 16) (by omega)
    simp only [List.mem_cons, List.mem_singleton, List.not_mem_nil, or_false, not_or]
    exact ⟨by decide, by decide, by decide, by decide, fun e => ha e.symm, fun e => hb e.symm⟩
  · rw [h1.2]; decide
  · rw [h1.2]; decide
  · rw [h1.2.2.2]
    simpa using fun e => h e.symm

/-! ### `strings.ReplaceAll` on marshalled text -/

theorem replaceAux_skip (old new : List Char) :
    ∀ (xs rest : List Char), replaceAux old new xs.length (xs ++ rest) = replaceAux old new 0 rest
  | [], _ => rfl
  | _ :: xs, rest => by
    simp only [List.length_cons, List.cons_append, replaceAux]
    exact replaceAux_skip old new xs rest

theorem replaceAux_match (o : Char) (os new rest : List Char) :
    replaceAux (o :: os) new 0 ((o :: os) ++ rest) = new ++ replaceAux (o :: os) new 0 rest := by
  have h : (o :: os).isPrefixOf (o :: (os ++ rest)) = true :=
    List.isPrefixOf_iff_prefix.mpr ⟨rest, rfl⟩
  rw [List.cons_append, replaceAux, if_pos h]
  simp only [List.length_cons, Nat.add_sub_cancel]
  rw [replaceAux_skip]

theorem replaceAux_nomatch (old new : List Char) (c : Char) (cs : List Char)
    (h : ¬ old <+: (c :: cs)) :
    replaceAux old new 0 (c :: cs) = c :: replaceAux old new 0 cs := by
  have h1 : old.isPrefixOf (c :: cs) = false := by
    rw [Bool.eq_false_iff]
    exact fun e => h (List.isPrefixOf_iff_prefix.mp e)
  simp only [replaceAux, h1, Bool.false_eq_true, if_false]

theorem pattern_prefix_cons (tag : List Char) (c : Char) (cs : List Char) :
    pattern tag <+: (c :: cs) ↔ c = dq ∧ (tag ++ [dq]) <+: cs := by
  unfold pattern
  rw [List.cons_prefix_cons]
  exact ⟨fun h => ⟨h.1.symm, h.2⟩, fun h => ⟨h.1.symm, h.2⟩⟩

theorem replaceAux_noquote (tag new : List Char) :
    ∀ (xs rest : List Char), (∀ c ∈ xs, c ≠ dq) →
      replaceAux (pattern tag) new 0 (xs ++ rest) = xs ++ replaceAux (pattern tag) new 0 rest
  | [], _, _ => rfl
  | x :: xs, rest, h => by
    rw [List.cons_append, replaceAux_nomatch, replaceAux_noquote tag new xs rest
      (fun c hc => h c (List.mem_cons_of_mem _ hc))]
    · rfl
    · rw [pattern_prefix_cons]
      exact fun e => h x (List.mem_cons_self _ _) e.1

theorem plain_ne (c : Char) (h : Plain c) : c ≠ dq ∧ c ≠ bsl := by
  unfold Plain at h
  rcases escapeChar_head c with h1 | ⟨t, h1⟩
  · exact h1.2
  · rw [h1] at h
    simp only [List.cons.injEq] at h
    constructor
    · intro e; rw [e] at h; exact absurd h.1 (by decide)
    · intro e
      rcases escapeChar_shape c with h2 | h2 | ⟨e', h2⟩ | h2 | h2 | h2 | h2
      · rw [h2.1] at e; exact absurd e (by decide)
      · rw [h2.2] at h1
        simp only [List.cons.injEq, true_and] at h1
        rw [← h1] at h
        exact absurd h.2 (by decide)
      · exact h2.2.1 e
      · exact h2.2.1 e
      · rw [h2.1] at e; exact absurd e (by decide)
      · rw [h2.1] at e; exact absurd e (by decide)
      · exact h2.2.1 e

theorem escapeString_plain : ∀ (tag : List Char), (∀ c ∈ tag, Plain c) → escapeString tag = tag
  | [], _ => rfl
  | c :: cs, h => by
    rw [escapeString, h c (List.mem_cons_self _ _),
      escapeString_plain cs (fun x hx => h x (List.mem_cons_of_mem _ hx))]
    rfl

theorem escapeString_append : ∀ (a b : List Char),
    escapeString (a ++ b) = escapeString a ++ escapeString b
  | [], _ => rfl
  | c :: cs, b => by
    rw [List.cons_append, escapeString, escapeString, escapeString_append cs b,
      List.append_assoc]

/-- In marshalled text, a quote is followed by the tag and a quote exactly when what is
left of the string literal is the tag. -/
theorem tag_prefix_iff : ∀ (tag cs rest : List Char), (∀ c ∈ tag, Plain c) →
    ((tag ++ [dq]) <+: (escapeString cs ++ dq :: rest) ↔ cs = tag)
  | [], [], rest, _ => by
    simp only [List.nil_append, escapeString, iff_true]
    exact ⟨rest, rfl⟩
  | [], c :: cs, rest, _ => by
    simp only [List.nil_append, escapeString, List.append_assoc, List.cons_ne_nil, iff_false]
    rcases escapeChar_head c with h | ⟨t, h⟩
    · rw [h.1, List.singleton_append, List.cons_prefix_cons]
      exact fun e => h.2.1 e.1.symm
    · rw [h, List.cons_append, List.cons_prefix_cons]
      exact fun e => absurd e.1 (by decide)
  | t :: tag, [], rest, hp => by
    simp only [List.cons_append, escapeString, List.nil_append, List.cons_prefix_cons,
      List.nil_eq, List.cons_ne_nil, iff_false, not_and]
    intro e
    exact absurd e (plain_ne t (hp t (List.mem_cons_self _ _))).1
  | t :: tag, c :: cs, rest, hp => by
    have ht := hp t (List.mem_cons_self _ _)
    have hrec := tag_prefix_iff tag cs rest (fun x hx => hp x (List.mem_cons_of_mem _ hx))
    simp only [List.cons_append, escapeString, List.append_assoc, List.cons.injEq]
    rcases escapeChar_head c with h | ⟨u, h⟩
    · rw [h.1, List.singleton_append, List.cons_prefix_cons, hrec]
      exact ⟨fun e => ⟨e.1.symm, e.2⟩, fun e => ⟨e.1.symm, e.2⟩⟩
    · rw [h, List.cons_append, List.cons_prefix_cons]
      constructor
      · intro e
        exact absurd e.1 (plain_ne t ht).2
      · intro e
        rw [e.1] at h
        rw [ht] at h
        simp only [List.cons.injEq] at h
        exact absurd h.1 (plain_ne t ht).2

/-- A call of `strings.ReplaceAll` in `patchText` on a string literal after its opening
quote, when the string is not the tag. -/
theorem replaceAux_body (tag rep rest : List Char) (hp : ∀ c ∈ tag, Plain c)
    (hrest : ¬ (tag ++ [dq]) <+: rest) :
    ∀ s : List Char, replaceAux (pattern tag) rep 0 (escapeString s ++ dq :: rest) =
      patchBody tag rep s ++ replaceAux (pattern tag) rep 0 rest
  | [] => by
    simp only [escapeString, List.nil_append, patchBody, List.singleton_append]
    rw [replaceAux_nomatch]
    rw [pattern_prefix_cons]
    exact fun e => hrest e.2
  | c :: cs => by
    simp only [escapeString, List.append_assoc, patchBody]
    by_cases hc : c = dq
    · subst hc
      have he : escapeChar dq = [bsl, dq] := rfl
      rw [he]
      simp only [List.cons_append, List.nil_append, true_and]
      rw [replaceAux_nomatch _ _ _ _ (by
        rw [pattern_prefix_cons]; exact fun e => absurd e.1 (by decide))]
      by_cases hcs : cs = tag
      · subst hcs
        rw [if_pos rfl, escapeString_plain cs hp]
        have : dq :: (cs ++ dq :: rest) = pattern cs ++ rest := by
          simp [pattern]
        rw [this]
        unfold pattern
        rw [replaceAux_match]
        simp
      · rw [if_neg hcs, replaceAux_nomatch _ _ _ _ (by
          rw [pattern_prefix_cons, tag_prefix_iff tag cs rest hp]
          exact fun e => hcs e.2)]
        rw [replaceAux_body tag rep rest hp hrest cs]
        simp
    · rw [if_neg (fun e => hc e.1), replaceAux_noquote _ _ _ _ (by
        intro x hx e
        exact dq_not_mem_escapeChar c hc (e ▸ hx))]
      rw [replaceAux_body tag rep rest hp hrest cs]
      simp

/-! ### Number literals -/

theorem isNumChar_of_isDigit (c : Char) (h : isDigit c = true) : isNumChar c = true := by
  simp [isNumChar, h]

theorem all_numChar_of_all_digit (l : List Char) (h : l.all isDigit = true) :
    l.all isNumChar = true := by
  rw [List.all_eq_true] at h ⊢
  exact fun c hc => isNumChar_of_isDigit c (h c hc)

theorem numExp_chars (l : List Char) (h : numExp l = true) : l.all isNumChar = true := by
  cases l with
  | nil => rfl
  | cons c r =>
    unfold numExp at h
    simp only at h
    split_ifs at h with h1
    · simp only [Bool.and_eq_true] at h
      rw [List.all_cons, all_numChar_of_all_digit r h.2]
      rcases h1 with h1 | h1 <;> simp [isNumChar, h1]
    · exact all_numChar_of_all_digit _ h

theorem numAfterFrac_chars (l : List Char) (h : numAfterFrac l = true) :
    l.all isNumChar = true := by
  cases l with
  | nil => rfl
  | cons c r =>
    unfold numAfterFrac at h
    simp only at h
    split_ifs at h with h1
    rw [List.all_cons, numExp_chars r h]
    rcases h1 with h1 | h1 <;> simp [isNumChar, h1]

theorem takeWhile_all (p : Char → Bool) (l : List Char) : (l.takeWhile p).all p = true := by
  rw [List.all_eq_true]
  exact fun c hc => List.mem_takeWhile_imp hc

theorem numAfterInt_chars (l : List Char) (h : numAfterInt l = true) :
    l.all isNumChar = true := by
  cases l with
  | nil => rfl
  | cons c r =>
    unfold numAfterInt at h
    simp only at h
    split_ifs at h with h1 h2
    · simp only [Bool.and_eq_true] at h
      rw [List.all_cons, ← List.takeWhile_append_dropWhile isDigit r, List.all_append,
        all_numChar_of_all_digit _ (takeWhile_all isDigit r), numAfterFrac_chars _ h.2]
      simp [isNumChar, h1]
    · rw [List.all_cons, numExp_chars r h]
      rcases h2 with h2 | h2 <;> simp [isNumChar, h2]

theorem numUnsigned_chars (l : List Char) (h : numUnsigned l = true) :
    l.all isNumChar = true ∧ ∃ c r, l = c :: r ∧ isDigit c = true := by
  cases l with
  | nil => simp [numUnsigned] at h
  | cons c r =>
    unfold numUnsigned at h
    simp only at h
    split_ifs at h with h1 h2
    · subst h1
      exact ⟨by rw [List.all_cons, numAfterInt_chars r h]; rfl, _, _, rfl, rfl⟩
    · refine ⟨?_, _, _, rfl, h2⟩
      rw [List.all_cons, ← List.takeWhile_append_dropWhile isDigit r, List.all_append,
        all_numChar_of_all_digit _ (takeWhile_all isDigit r), numAfterInt_chars _ h,
        isNumChar_of_isDigit c h2]
      rfl

/-- A number literal consists of number characters and starts with a digit or a minus
sign. -/
theorem validNumber_chars (l : List Char) (h : validNumber l = true) :
    l.all isNumChar = true ∧ ∃ c r, l = c :: r ∧ (isDigit c = true ∨ c = '-') := by
  cases l with
  | nil => simp [validNumber] at h
  | cons c r =>
    unfold validNumber at h
    simp only at h
    split_ifs at h with h1
    · refine ⟨?_, _, _, rfl, Or.inr h1⟩
      rw [List.all_cons, (numUnsigned_chars r h).1]
      simp [isNumChar, h1]
    · obtain ⟨h2, c', r', h3, h4⟩ := numUnsigned_chars _ h
      refine ⟨h2, c', r', h3, Or.inl h4⟩

theorem isNumChar_ne (c d : Char) (h : isNumChar c = true) (hd : isNumChar d = false) :
    c ≠ d := by
  intro e
  rw [e, hd] at h
  exact Bool.noConfusion h

/-! ### `strings.ReplaceAll` on pieces -/

theorem renderTokens_eq (ts : List Token) :
    renderTokens ts = renderPieces (ts.map Piece.tok) := by
  induction ts with
  | nil => rfl
  | cons t ts ih => simp [renderTokens, renderPieces, Piece.render, ih]

theorem renderPieces_append (a b : List Piece) :
    renderPieces (a ++ b) = renderPieces a ++ renderPieces b := by
  induction a with
  | nil => rfl
  | cons p a ih => simp [renderPieces, ih]

theorem numLit_no_dq (n : NumLit) : ∀ c ∈ n.lit, c ≠ dq := by
  intro c hc
  have h := (validNumber_chars n.lit n.valid).1
  rw [List.all_eq_true] at h
  exact isNumChar_ne c dq (h c hc) (by decide)

/-- No text of pieces starts with the letters `to`. -/
theorem renderPieces_not_to (ps : List Piece) (r : List Char) :
    renderPieces ps ≠ 't' :: 'o' :: r := by
  cases ps with
  | nil => simp [renderPieces]
  | cons p ps =>
    cases p with
    | space => simp [renderPieces, Piece.render]
    | tok t =>
      cases t with
      | num n =>
        obtain ⟨_, c, l, hl, hc⟩ := validNumber_chars n.lit n.valid
        simp only [renderPieces, Piece.render, Token.render, hl, List.cons_append, ne_eq,
          List.cons.injEq, not_and]
        intro e
        rcases hc with hc | hc
        · rw [e] at hc; exact absurd hc (by decide)
        · rw [e] at hc; exact absurd hc (by decide)
      | str s =>
        simp only [renderPieces, Piece.render, Token.render, List.cons_append, ne_eq,
          List.cons.injEq, not_and]
        intro e
        exact absurd e (by decide)
      | _ => simp [renderPieces, Piece.render, Token.render]

theorem not_tag_prefix_renderPieces (tag : List Char) (ps : List Piece)
    (hto : ∃ r, tag = 't' :: 'o' :: r) : ¬ (tag ++ [dq]) <+: renderPieces ps := by
  obtain ⟨r, rfl⟩ := hto
  rintro ⟨u, hu⟩
  exact renderPieces_not_to ps (r ++ [dq] ++ u) (by rw [← hu]; simp)

/-- The replacement text after its first quote. -/
theorem replacement_eq (ph : List Char) :
    replacement ph = dq :: ("text\", \"text\":\"".data ++ (ph ++ [dq])) := rfl

theorem patchBody_eq (tag rt : List Char) : ∀ s : List Char,
    patchBody tag (dq :: rt) s =
      match cutTag tag s with
      | some pre => escapeString pre ++ rt
      | none => escapeString s ++ [dq]
  | [] => rfl
  | c :: cs => by
    simp only [patchBody, cutTag]
    by_cases h : c = dq ∧ cs = tag
    · rw [if_pos h, if_pos h, h.1]
      rfl
    · rw [if_neg h, if_neg h, patchBody_eq tag rt cs]
      cases cutTag tag cs with
      | none => simp [escapeString]
      | some pre => simp [escapeString]

theorem render_patched (pre ph : List Char) (hph : ∀ c ∈ ph, Plain c) :
    renderPieces (patched pre ph) =
      dq :: (escapeString pre ++ ("text\", \"text\":\"".data ++ (ph ++ [dq]))) := by
  have ht : escapeString "text".data = "text".data := rfl
  simp only [patched, renderPieces, Piece.render, Token.render, escapeString_append, ht,
    escapeString_plain ph hph]
  simp
  rfl

/-- A call of `strings.ReplaceAll` in `patchText` works piece by piece: it replaces the
string tokens that are the tag or end with a quote and the tag. -/
theorem replaceAux_pieces (tag ph : List Char) (hp : ∀ c ∈ tag, Plain c)
    (hph : ∀ c ∈ ph, Plain c) (hto : ∃ r, tag = 't' :: 'o' :: r) :
    ∀ ps : List Piece, replaceAux (pattern tag) (replacement ph) 0 (renderPieces ps) =
      renderPieces (ps.flatMap (patchPiece tag ph))
  | [] => rfl
  | p :: ps => by
    have ih := replaceAux_pieces tag ph hp hph hto ps
    have hrest := not_tag_prefix_renderPieces tag ps hto
    rw [List.flatMap_cons, renderPieces_append, ← ih, renderPieces]
    have hplainPiece : ∀ q : Piece, (∀ c ∈ q.render, c ≠ dq) → patchPiece tag ph q = [q] →
        replaceAux (pattern tag) (replacement ph) 0 (q.render ++ renderPieces ps) =
          renderPieces [q] ++ replaceAux (pattern tag) (replacement ph) 0 (renderPieces ps) := by
      intro q hq _
      rw [replaceAux_noquote _ _ _ _ hq]
      simp [renderPieces]
    cases p with
    | space => exact hplainPiece _ (by simp [Piece.render]; decide) rfl
    | tok t =>
      cases t with
      | str s =>
        simp only [Piece.render, Token.render, patchPiece, patchStr]
        have hassoc : dq :: (escapeString s.data ++ [dq]) ++ renderPieces ps =
            dq :: (escapeString s.data ++ dq :: renderPieces ps) := by simp
        rw [hassoc]
        by_cases hs : s.data = tag
        · rw [if_pos hs, hs, escapeString_plain tag hp]
          have : dq :: (tag ++ dq :: renderPieces ps) = pattern tag ++ renderPieces ps := by
            simp [pattern]
          rw [this]
          unfold pattern
          rw [replaceAux_match]
          simp only [render_patched [] ph hph, escapeString, List.nil_append]
          rfl
        · rw [if_neg hs, replaceAux_nomatch _ _ _ _ (by
            rw [pattern_prefix_cons, tag_prefix_iff tag s.data _ hp]
            exact fun e => hs e.2)]
          rw [replacement_eq, replaceAux_body tag _ _ hp hrest, patchBody_eq]
          cases cutTag tag s.data with
          | none => simp [renderPieces, Piece.render, Token.render]
          | some pre =>
            simp only [render_patched pre ph hph]
            simp
      | num n => exact hplainPiece _ (numLit_no_dq n) rfl
      | lbrace => exact hplainPiece _ (by simp [Piece.render, Token.render]; decide) rfl
      | rbrace => exact hplainPiece _ (by simp [Piece.render, Token.render]; decide) rfl
      | lbrack => exact hplainPiece _ (by simp [Piece.render, Token.render]; decide) rfl
      | rbrack => exact hplainPiece _ (by simp [Piece.render, Token.render]; decide) rfl
      | comma => exact hplainPiece _ (by simp [Piece.render, Token.render]; decide) rfl
      | colon => exact hplainPiece _ (by simp [Piece.render, Token.render]; decide) rfl
      | tru => exact hplainPiece _ (by simp [Piece.render, Token.render]; decide) rfl
      | fls => exact hplainPiece _ (by simp [Piece.render, Token.render]; decide) rfl
      | nul => exact hplainPiece _ (by simp [Piece.render, Token.render]; decide) rfl

/-! ### The scanner on pieces -/

theorem lexAux_drop : ∀ (k : Nat) (cs : List Char), lexAux k cs = lexAux 0 (cs.drop k)
  | 0, cs => by simp
  | k + 1, [] => by simp [lexAux]
  | k + 1, c :: cs => by
    rw [lexAux, lexAux_drop k cs]
    simp

theorem lexAux_skip (xs rest : List Char) : lexAux xs.length (xs ++ rest) = lexAux 0 rest := by
  rw [lexAux_drop]
  simp

theorem lex_space (cs : List Char) : lexAux 0 (' ' :: cs) = lexAux 0 cs := rfl

theorem lex_lbrace (cs : List Char) :
    lexAux 0 ('{' :: cs) = (lexAux 0 cs).map (Token.lbrace :: ·) := rfl

theorem lex_rbrace (cs : List Char) :
    lexAux 0 ('}' :: cs) = (lexAux 0 cs).map (Token.rbrace :: ·) := rfl

theorem lex_lbrack (cs : List Char) :
    lexAux 0 ('[' :: cs) = (lexAux 0 cs).map (Token.lbrack :: ·) := rfl

theorem lex_rbrack (cs : List Char) :
    lexAux 0 (']' :: cs) = (lexAux 0 cs).map (Token.rbrack :: ·) := rfl

theorem lex_comma (cs : List Char) :
    lexAux 0 (',' :: cs) = (lexAux 0 cs).map (Token.comma :: ·) := rfl

theorem lex_colon (cs : List Char) :
    lexAux 0 (':' :: cs) = (lexAux 0 cs).map (Token.colon :: ·) := rfl

theorem lex_true (cs : List Char) :
    lexAux 0 ('t' :: 'r' :: 'u' :: 'e' :: cs) = (lexAux 0 cs).map (Token.tru :: ·) := by
  simp [lexAux, isSpace, isNumChar, isDigit, dq, List.isPrefixOf]

theorem lex_false (cs : List Char) :
    lexAux 0 ('f' :: 'a' :: 'l' :: 's' :: 'e' :: cs) = (lexAux 0 cs).map (Token.fls :: ·) := by
  simp [lexAux, isSpace, isNumChar, isDigit, dq, List.isPrefixOf]

theorem lex_null (cs : List Char) :
    lexAux 0 ('n' :: 'u' :: 'l' :: 'l' :: cs) = (lexAux 0 cs).map (Token.nul :: ·) := by
  simp [lexAux, isSpace, isNumChar, isDigit, dq, List.isPrefixOf]

theorem lex_string (cs : List Char) :
    lexAux 0 (dq :: cs) =
      match readString cs with
      | none => none
      | some (s, n) => (lexAux n cs).map (Token.str (String.mk s) :: ·) := rfl

theorem readStr_simple (e c : Char) (tail : List Char) (h1 : e ≠ 'u')
    (h2 : simpleEscape e = some c) :
    readStr none (bsl :: e :: tail) =
      (readStr none tail).map (fun p => (c :: p.1, p.2 + 2)) := by
  rw [readStr.eq_def]
  simp only [if_neg (show ¬ bsl = dq by decide), if_true, if_neg h1, h2, flush]

theorem readStr_hex (a b c d : Char) (r : Nat) (tail : List Char)
    (h : hex4 a b c d = some r) (hr : r < 55296) :
    readStr none (bsl :: 'u' :: a :: b :: c :: d :: tail) =
      (readStr none tail).map (fun p => (Char.ofNat r :: p.1, p.2 + 6)) := by
  rw [readStr.eq_def]
  simp only [if_neg (show ¬ bsl = dq by decide), if_true, h]
  rw [if_neg (by omega), if_neg (by omega)]
  simp only [flush]

theorem readStr_plain (c : Char) (tail : List Char) (h1 : c ≠ dq) (h2 : c ≠ bsl)
    (h3 : ¬ c.toNat < 32) :
    readStr none (c :: tail) = (readStr none tail).map (fun p => (c :: p.1, p.2 + 1)) := by
  rw [readStr.eq_def]
  simp only [if_neg h1, if_neg h2, if_neg h3, flush]

/-- Reading what `json.Marshal` wrote for a character gives the character back. -/
theorem readStr_escapeChar (c : Char) (tail : List Char) :
    readStr none (escapeChar c ++ tail) =
      (readStr none tail).map (fun p => (c :: p.1, p.2 + (escapeChar c).length)) := by
  rcases escapeChar_shape c with h | h | ⟨e, h⟩ | h | h | h | h
  · rw [h.2, h.1]
    exact readStr_simple dq dq tail (by decide) rfl
  · rw [h.2, h.1]
    exact readStr_simple bsl bsl tail (by decide) rfl
  · rw [h.2.2.2.2.2]
    exact readStr_simple e c tail h.2.2.2.1 h.2.2.2.2.1
  · rw [h.2.2.2]
    have := readStr_hex '0' '0' _ _ c.toNat tail (hex4_of_byte c.toNat h.2.2.1) (by omega)
    rw [Char.ofNat_toNat] at this
    exact this
  · rw [h.2, h.1]
    exact readStr_hex '2' '0' '2' '8' 8232 tail rfl (by omega)
  · rw [h.2, h.1]
    exact readStr_hex '2' '0' '2' '9' 8233 tail rfl (by omega)
  · rw [h.2.2.2]
    exact readStr_plain c tail h.1 h.2.1 h.2.2.1

/-- Reading what `json.Marshal` wrote for a string gives the string back. -/
theorem readString_escapeString : ∀ (s rest : List Char),
    readString (escapeString s ++ dq :: rest) = some (s, (escapeString s).length + 1)
  | [], rest => by
    simp only [escapeString, List.nil_append, readString, List.length_nil, Nat.zero_add]
    rw [readStr.eq_def]
    simp only [if_true, flush]
  | c :: cs, rest => by
    have ih := readString_escapeString cs rest
    unfold readString at ih ⊢
    rw [escapeString, List.append_assoc, readStr_escapeChar, ih]
    simp only [Option.map_some', List.length_append]
    congr 2
    omega

theorem lex_render_string (s : String) (rest : List Char) :
    lexAux 0 ((Token.str s).render ++ rest) = (lexAux 0 rest).map (Token.str s :: ·) := by
  have h : (Token.str s).render ++ rest = dq :: (escapeString s.data ++ dq :: rest) := by
    simp [Token.render]
  rw [h, lex_string, readString_escapeString]
  simp only
  have h2 : (escapeString s.data ++ dq :: rest) =
      (escapeString s.data ++ [dq]) ++ rest := by simp
  have h3 : (escapeString s.data).length + 1 = (escapeString s.data ++ [dq]).length := by simp
  rw [h2, h3, lexAux_skip]

theorem isSpace_not_numChar (c : Char) (h : isNumChar c = true) : isSpace c = false := by
  rw [Bool.eq_false_iff]
  intro hs
  simp only [isSpace, Bool.or_eq_true, decide_eq_true_eq] at hs
  rcases hs with ((hs | hs) | hs) | hs <;> (rw [hs] at h; exact absurd h (by decide))

theorem lex_number (c : Char) (cs : List Char) (hc : isNumChar c = true) :
    lexAux 0 (c :: cs) =
      if h : validNumber (c :: cs.takeWhile isNumChar) = true then
        (lexAux (cs.takeWhile isNumChar).length cs).map
          (Token.num ⟨c :: cs.takeWhile isNumChar, h⟩ :: ·)
      else none := by
  rw [lexAux.eq_def]
  simp only [isSpace_not_numChar c hc, Bool.false_eq_true, if_false,
    if_neg (isNumChar_ne c '{' hc (by decide)), if_neg (isNumChar_ne c '}' hc (by decide)),
    if_neg (isNumChar_ne c '[' hc (by decide)), if_neg (isNumChar_ne c ']' hc (by decide)),
    if_neg (isNumChar_ne c ',' hc (by decide)), if_neg (isNumChar_ne c ':' hc (by decide)),
    if_neg (isNumChar_ne c dq hc (by decide)), hc, if_true]

theorem drop_length_takeWhile (p : Char → Bool) : ∀ l : List Char,
    l.drop (l.takeWhile p).length = l.dropWhile p
  | [] => rfl
  | c :: cs => by
    by_cases h : p c = true
    · simp [List.takeWhile, List.dropWhile, h, drop_length_takeWhile p cs]
    · simp [List.takeWhile, List.dropWhile, h]

theorem dropWhile_append_all (p : Char → Bool) : ∀ (l rest : List Char), l.all p = true →
    (l ++ rest).dropWhile p = rest.dropWhile p
  | [], _, _ => rfl
  | c :: cs, rest, h => by
    simp only [List.all_cons, Bool.and_eq_true] at h
    simp [List.dropWhile, h.1, dropWhile_append_all p cs rest h.2]

theorem takeWhile_append_all (p : Char → Bool) : ∀ (l rest : List Char), l.all p = true →
    (l ++ rest).takeWhile p = l ++ rest.takeWhile p
  | [], _, _ => rfl
  | c :: cs, rest, h => by
    simp only [List.all_cons, Bool.and_eq_true] at h
    simp [List.takeWhile, h.1, takeWhile_append_all p cs rest h.2]

/-- The scanner on a number literal followed by any text: it fails, or reads a number
token that ends where the number characters end. -/
theorem lex_render_number (n : NumLit) (rest : List Char) (ts : List Token)
    (h : lexAux 0 (n.lit ++ rest) = some ts) :
    ∃ m ts1, ts = Token.num m :: ts1 ∧ lexAux 0 (rest.dropWhile isNumChar) = some ts1 := by
  obtain ⟨hall, c, r, hl, _⟩ := validNumber_chars n.lit n.valid
  rw [hl] at hall h
  simp only [List.all_cons, Bool.and_eq_true] at hall
  rw [List.cons_append, lex_number c _ hall.1] at h
  split_ifs at h with hv
  rw [lexAux_drop, drop_length_takeWhile, dropWhile_append_all _ _ _ hall.2] at h
  cases h1 : lexAux 0 (List.dropWhile isNumChar rest) with
  | none => rw [h1] at h; simp at h
  | some ts1 =>
    rw [h1] at h
    simp only [Option.map_some', Option.some.injEq] at h
    exact ⟨_, ts1, h.symm, rfl⟩

/-- Dropping the number characters at the head of the text of pieces leaves the text of
later pieces. -/
theorem dropWhile_renderPieces : ∀ ps : List Piece,
    ∃ ps1, ps1.length ≤ ps.length ∧ (∀ p ∈ ps1, p ∈ ps) ∧
      (renderPieces ps).dropWhile isNumChar = renderPieces ps1
  | [] => ⟨[], le_refl _, fun _ h => h, rfl⟩
  | p :: ps => by
    have hstop : ∀ (c : Char) (t : List Char), isNumChar c = false → p.render = c :: t →
        ∃ ps1, ps1.length ≤ (p :: ps).length ∧ (∀ q ∈ ps1, q ∈ p :: ps) ∧
          (renderPieces (p :: ps)).dropWhile isNumChar = renderPieces ps1 := by
      intro c t hc hr
      refine ⟨p :: ps, le_refl _, fun _ h => h, ?_⟩
      rw [renderPieces, hr, List.cons_append, List.dropWhile, hc]
    cases p with
    | space => exact hstop ' ' [] (by decide) rfl
    | tok t =>
      cases t with
      | num n =>
        obtain ⟨ps1, h1, h2, h3⟩ := dropWhile_renderPieces ps
        refine ⟨ps1, Nat.le_succ_of_le h1, fun q hq => List.mem_cons_of_mem _ (h2 q hq), ?_⟩
        rw [renderPieces, Piece.render, Token.render,
          dropWhile_append_all _ _ _ (validNumber_chars n.lit n.valid).1, h3]
      | str s => exact hstop dq _ (by decide) rfl
      | lbrace => exact hstop '{' [] (by decide) rfl
      | rbrace => exact hstop '}' [] (by decide) rfl
      | lbrack => exact hstop '[' [] (by decide) rfl
      | rbrack => exact hstop ']' [] (by decide) rfl
      | comma => exact hstop ',' [] (by decide) rfl
      | colon => exact hstop ':' [] (by decide) rfl
      | tru => exact hstop 't' _ (by decide) rfl
      | fls => exact hstop 'f' _ (by decide) rfl
      | nul => exact hstop 'n' _ (by decide) rfl

/-- The string tokens that the scanner reads from the text of pieces are string tokens
among the pieces. -/
theorem lex_pieces_strings : ∀ (n : Nat) (ps : List Piece), ps.length ≤ n →
    ∀ ts, lexAux 0 (renderPieces ps) = some ts →
      ∀ s, Token.str s ∈ ts → Piece.tok (.str s) ∈ ps
  | _, [], _, ts, h, s, hs => by
    simp only [renderPieces, lexAux, Option.some.injEq] at h
    rw [← h] at hs
    simp at hs
  | 0, p :: ps, hn, _, _, _, _ => by simp at hn
  | n + 1, p :: ps, hn, ts, h, s, hs => by
    have hlen : ps.length ≤ n := by simpa using hn
    have hstep : ∀ t : Token, p = .tok t →
        lexAux 0 (renderPieces (p :: ps)) = (lexAux 0 (renderPieces ps)).map (t :: ·) →
        Piece.tok (.str s) ∈ p :: ps := by
      intro t hp e
      rw [e] at h
      cases h1 : lexAux 0 (renderPieces ps) with
      | none => rw [h1] at h; simp at h
      | some ts1 =>
        rw [h1] at h
        simp only [Option.map_some', Option.some.injEq] at h
        rw [← h] at hs
        rcases List.mem_cons.mp hs with e1 | e1
        · rw [hp, ← e1]; exact List.mem_cons_self _ _
        · exact List.mem_cons_of_mem _ (lex_pieces_strings n ps hlen ts1 h1 s e1)
    cases p with
    | space =>
      rw [renderPieces, Piece.render, List.singleton_append, lex_space] at h
      exact List.mem_cons_of_mem _ (lex_pieces_strings n ps hlen ts h s hs)
    | tok t =>
      cases t with
      | num m =>
        rw [renderPieces, Piece.render, Token.render] at h
        obtain ⟨m1, ts1, h1, h2⟩ := lex_render_number m _ ts h
        obtain ⟨ps1, h3, h4, h5⟩ := dropWhile_renderPieces ps
        rw [h5] at h2
        rw [h1] at hs
        rcases List.mem_cons.mp hs with e1 | e1
        · exact absurd e1 (by simp)
        · exact List.mem_cons_of_mem _
            (h4 _ (lex_pieces_strings n ps1 (le_trans h3 hlen) ts1 h2 s e1))
      | str x => exact hstep _ rfl (lex_render_string x _)
      | lbrace => exact hstep _ rfl (lex_lbrace _)
      | rbrace => exact hstep _ rfl (lex_rbrace _)
      | lbrack => exact hstep _ rfl (lex_lbrack _)
      | rbrack => exact hstep _ rfl (lex_rbrack _)
      | comma => exact hstep _ rfl (lex_comma _)
      | colon => exact hstep _ rfl (lex_colon _)
      | tru => exact hstep _ rfl (lex_true _)
      | fls => exact hstep _ rfl (lex_false _)
      | nul => exact hstep _ rfl (lex_null _)


/-! ### The sanitation invariant -/

theorem cutTag_mem_dq (tag : List Char) : ∀ (s pre : List Char), cutTag tag s = some pre →
    dq ∈ pre
  | [], _, h => by simp [cutTag] at h
  | c :: cs, pre, h => by
    simp only [cutTag] at h
    split_ifs at h with h1
    · simp only [Option.some.injEq] at h
      rw [← h]; simp
    · cases h2 : cutTag tag cs with
      | none => rw [h2] at h; simp at h
      | some p =>
        rw [h2] at h
        simp only [Option.map_some', Option.some.injEq] at h
        rw [← h]
        exact List.mem_cons_of_mem _ (cutTag_mem_dq tag cs p h2)

/-- The string tokens after a call of `strings.ReplaceAll` in `patchText`: the old ones
that are not the tag, and the new ones. -/
theorem mem_patchPiece_str (tag ph : List Char) (p : Piece) (s : String)
    (h : Piece.tok (.str s) ∈ patchPiece tag ph p) :
    (p = .tok (.str s) ∧ s.data ≠ tag) ∨ s.data = "text".data ∨ s.data = ph ∨
      ∃ pre, s.data = pre ++ "text".data ∧ dq ∈ pre := by
  cases p with
  | space => simp [patchPiece] at h
  | tok t =>
    cases t with
    | str x =>
      simp only [patchPiece] at h
      cases hps : patchStr tag x.data with
      | none =>
        rw [hps] at h
        simp only [List.mem_singleton, Piece.tok.injEq, Token.str.injEq] at h
        subst h
        refine Or.inl ⟨rfl, ?_⟩
        intro e
        simp [patchStr, e] at hps
      | some pre =>
        rw [hps] at h
        simp only [patched, List.mem_cons, Piece.tok.injEq, Token.str.injEq, reduceCtorEq,
          List.mem_singleton, false_or, or_false, List.not_mem_nil] at h
        rcases h with h | h | h
        · unfold patchStr at hps
          split_ifs at hps with h1
          · simp only [Option.some.injEq] at hps
            rw [h, ← hps]
            exact Or.inr (Or.inl rfl)
          · rw [h]
            exact Or.inr (Or.inr (Or.inr ⟨pre, rfl, cutTag_mem_dq tag _ pre hps⟩))
        · rw [h]; exact Or.inr (Or.inl rfl)
        · rw [h]; exact Or.inr (Or.inr (Or.inl rfl))
    | _ => simp [patchPiece] at h

/-- The strings that `patchText` writes are neither of the two tags. -/
theorem new_string_ne_tag (s : List Char)
    (h : s = "text".data ∨ s = "incorrect tool use".data ∨ s = "incorrect tool result".data ∨
      ∃ pre, s = pre ++ "text".data ∧ dq ∈ pre) :
    s ≠ "tool_use".data ∧ s ≠ "tool_result".data := by
  rcases h with h | h | h | ⟨pre, h, hpre⟩
  · rw [h]; decide
  · rw [h]; decide
  · rw [h]; decide
  · have hmem : dq ∈ s := by rw [h]; exact List.mem_append_left _ hpre
    constructor
    · intro e; rw [e] at hmem; exact absurd hmem (by decide)
    · intro e; rw [e] at hmem; exact absurd hmem (by decide)

theorem patchText_eq (t : List Char) :
    patchText t =
      replaceAux (pattern "tool_result".data) (replacement "incorrect tool result".data) 0
        (replaceAux (pattern "tool_use".data) (replacement "incorrect tool use".data) 0 t) :=
  rfl

/-- The text after the two calls of `strings.ReplaceAll`, as pieces. -/
theorem patchText_pieces (ps : List Piece) :
    patchText (renderPieces ps) =
      renderPieces ((ps.flatMap (patchPiece "tool_use".data "incorrect tool use".data)).flatMap
        (patchPiece "tool_result".data "incorrect tool result".data)) := by
  rw [patchText_eq,
    replaceAux_pieces "tool_use".data "incorrect tool use".data
      (by unfold Plain; decide) (by unfold Plain; decide) ⟨_, rfl⟩,
    replaceAux_pieces "tool_result".data "incorrect tool result".data
      (by unfold Plain; decide) (by unfold Plain; decide) ⟨_, rfl⟩]

/-- No string token of the patched text is one of the two tags. -/
theorem patched_strings (ps : List Piece) (s : String)
    (h : Piece.tok (.str s) ∈
      (ps.flatMap (patchPiece "tool_use".data "incorrect tool use".data)).flatMap
        (patchPiece "tool_result".data "incorrect tool result".data)) :
    s.data ≠ "tool_use".data ∧ s.data ≠ "tool_result".data := by
  obtain ⟨p1, hp1, h1⟩ := List.mem_flatMap.mp h
  rcases mem_patchPiece_str _ _ p1 s h1 with ⟨e, hne⟩ | h2 | h2 | ⟨pre, h2, h3⟩
  · subst e
    obtain ⟨p0, _, h0⟩ := List.mem_flatMap.mp hp1
    rcases mem_patchPiece_str _ _ p0 s h0 with ⟨_, hne0⟩ | h2 | h2 | ⟨pre, h2, h3⟩
    · exact ⟨hne0, hne⟩
    · exact new_string_ne_tag _ (Or.inl h2)
    · exact new_string_ne_tag _ (Or.inr (Or.inl h2))
    · exact new_string_ne_tag _ (Or.inr (Or.inr (Or.inr ⟨pre, h2, h3⟩)))
  · exact new_string_ne_tag _ (Or.inl h2)
  · exact new_string_ne_tag _ (Or.inr (Or.inr (Or.inl h2)))
  · exact new_string_ne_tag _ (Or.inr (Or.inr (Or.inr ⟨pre, h2, h3⟩)))

mutual
theorem typeTags_of_allStr (P : String → Prop) : ∀ (v : JSON), v.AllStr P →
    ∀ s ∈ v.typeTags, P s
  | .null, _, s, hs => by simp [JSON.typeTags] at hs
  | .bool _, _, s, hs => by simp [JSON.typeTags] at hs
  | .num _, _, s, hs => by simp [JSON.typeTags] at hs
  | .str _, _, s, hs => by simp [JSON.typeTags] at hs
  | .arr xs, h, s, hs => by
    rw [JSON.typeTags] at hs
    rw [JSON.AllStr] at h
    exact typeTagsList_of_allStr P xs h s hs
  | .obj ms, h, s, hs => by
    rw [JSON.typeTags] at hs
    rw [JSON.AllStr] at h
    exact typeTagsMembers_of_allStr P ms h s hs
theorem typeTagsList_of_allStr (P : String → Prop) : ∀ (xs : List JSON), allStrList P xs →
    ∀ s ∈ typeTagsList xs, P s
  | [], _, s, hs => by simp [typeTagsList] at hs
  | x :: xs, h, s, hs => by
    rw [typeTagsList] at hs
    rw [allStrList] at h
    rcases List.mem_append.mp hs with hs | hs
    · exact typeTags_of_allStr P x h.1 s hs
    · exact typeTagsList_of_allStr P xs h.2 s hs
theorem typeTagsMembers_of_allStr (P : String → Prop) : ∀ (ms : List (String × JSON)),
    allStrMembers P ms → ∀ s ∈ typeTagsMembers ms, P s
  | [], _, s, hs => by simp [typeTagsMembers] at hs
  | (k, v) :: ms, h, s, hs => by
    rw [typeTagsMembers] at hs
    rw [allStrMembers] at h
    rcases List.mem_append.mp hs with h1 | h23
    · cases v with
      | str x =>
        by_cases hk : k = "type"
        · simp only [typeTagAt, hk, if_true, List.mem_singleton] at h1
          rw [h1]
          have := h.2.1
          rwa [JSON.AllStr] at this
        · simp [typeTagAt, hk] at h1
      | null => simp [typeTagAt] at h1
      | bool b => simp [typeTagAt] at h1
      | num n => simp [typeTagAt] at h1
      | arr xs => simp [typeTagAt] at h1
      | obj m => simp [typeTagAt] at h1
    · rcases List.mem_append.mp h23 with h2 | h3
      · exact typeTags_of_allStr P v h.2.1 s h2
      · exact typeTagsMembers_of_allStr P ms h.2.2 s h3
end

/-- Every string, key or value, of the payload that `ConvertToolTypesToText` returns is
different from the two tags. -/
theorem convert_strings (input : GoMap Value) (output : GoMap JSON)
    (h : ConvertToolTypesToText input = .ok output) :
    (JSON.obj output).AllStr (fun s => s ≠ "tool_use" ∧ s ≠ "tool_result") := by
  unfold ConvertToolTypesToText unmarshalMap at h
  simp only at h
  split at h
  · simp at h
  · rename_i output1 heq
    simp only [Except.ok.injEq] at h
    subst h
    split at heq
    · simp at heq
    · rename_i m hparse
      simp only [Except.ok.injEq] at heq
      subst heq
      obtain ⟨ts, hlex, hall⟩ := parse_allStr (fun s => s ≠ "tool_use" ∧ s ≠ "tool_result")
        _ _ hparse
      apply hall
      intro s hs
      unfold marshalPayload marshal at hlex
      rw [renderTokens_eq, patchText_pieces] at hlex
      have := patched_strings _ s (lex_pieces_strings _ _ (le_refl _) ts hlex s hs)
      exact ⟨fun e => this.1 (by rw [e]), fun e => this.2 (by rw [e])⟩
    · simp only [Except.ok.injEq] at heq
      subst heq
      simp [JSON.AllStr, allStrMembers]
    · simp at heq

/-- C7: in the payload that `ConvertToolTypesToText` returns, no member named `type`,
at any depth, has the string value `tool_use` or `tool_result`. -/
theorem sanitation_invariant (input : GoMap Value) (output : GoMap JSON)
    (h : ConvertToolTypesToText input = .ok output) :
    "tool_use" ∉ (JSON.obj output).typeTags ∧ "tool_result" ∉ (JSON.obj output).typeTags :=
  ⟨fun hm => (typeTags_of_allStr _ _ (convert_strings input output h) _ hm).1 rfl,
   fun hm => (typeTags_of_allStr _ _ (convert_strings input output h) _ hm).2 rfl⟩

/-- C7, at a payload with a pass-through object of type `tool_use`. -/
theorem sanitation_invariant_witness :
    ConvertToolTypesToText taggedResult = .ok taggedOutput ∧
    "tool_use" ∉ (JSON.obj taggedOutput).typeTags ∧
    "tool_result" ∉ (JSON.obj taggedOutput).typeTags :=
  ⟨rfl, sanitation_invariant taggedResult taggedOutput rfl⟩

/-- C6, at a request whose tool choice is `{"type":"auto"}`. -/
theorem tool_choice_narrowed_witness :
    rawFields toolChoiceBody = .ok toolChoiceRaw ∧
    ∃ payload, UnmarshalJSON toolChoiceBody = .ok payload ∧
      (∀ tms, translateMessages payload.Messages = .ok tms →
        assembled payload = .ok (assemble (translateTools payload.Tools) tms payload)) ∧
      ∀ result, assembled payload = .ok result →
        (∀ s, GoMap.lookup "tool_choice" result = some (.json (.str s)) ↔
          ∃ m, GoMap.lookup "tool_choice" toolChoiceRaw = some (.obj m) ∧
            GoMap.lookup "type" m = some (.str s)) ∧
        ((¬ ∃ m s, GoMap.lookup "tool_choice" toolChoiceRaw = some (.obj m) ∧
            GoMap.lookup "type" m = some (.str s)) →
          GoMap.lookup "tool_choice" result = none) :=
  ⟨rfl, tool_choice_narrowed toolChoiceBody toolChoiceRaw rfl⟩

/-! ## Failures of `translateMessage` and of the textual pass -/

/-- C8: the textual pass changes a string that is not the value of a `type` field. The
free text `tool_use` of a message becomes `incorrect tool use`; the pass-through value
`tool_result` at `model` becomes `text`, and its object gains the member `text`. -/
theorem free_text_rewritten :
    (∃ payload, UnmarshalJSON freeTextBody = .ok payload ∧
      assembled payload = .ok freeTextResult) ∧
    ConvertToolTypesToText freeTextResult = .ok
      [("messages", .arr [.obj [
          ("content", .arr [.obj [("cache_control", .str ""), ("id", .str ""),
            ("input", .null), ("name", .str ""), ("text", .str "incorrect tool use"),
            ("type", .str "text")]]),
          ("role", .str "user")]]),
       ("tools", .arr [])] ∧
    ConvertToolTypesToText modelResult = .ok
      [("messages", .arr []), ("model", .str "text"),
       ("text", .str "incorrect tool result"), ("tools", .arr [])] :=
  ⟨⟨_, rfl, rfl⟩, rfl, rfl⟩

/-- C9: on a message with an empty content sequence `translateMessage` panics with an
index out of range, and so does `proxyHandler` on a request that holds such a message;
no error value is returned. -/
theorem empty_content_panics :
    translateMessage ⟨[], "user"⟩ = .error (.indexOutOfRange 0 0) ∧
    proxyHandler emptyContentBody = .panicked (.indexOutOfRange 0 0) :=
  ⟨rfl, rfl⟩

/-- C10: on a message whose first block has type `tool_use` or `tool_result` and no nested
content `translateMessage` panics with an index out of range, and so does `proxyHandler`
on a request that holds such a message. -/
theorem empty_nested_content_panics :
    translateMessage ⟨[⟨"tool_use", "", "t1", some [("q", .str "x")], "search", "", []⟩],
      "assistant"⟩ = .error (.indexOutOfRange 0 0) ∧
    translateMessage ⟨[⟨"tool_result", "", "t1", none, "", "", []⟩], "user"⟩ =
      .error (.indexOutOfRange 0 0) ∧
    proxyHandler emptyNestedBody = .panicked (.indexOutOfRange 0 0) :=
  ⟨rfl, rfl, rfl⟩


/-! ## Numbers of the pass-through fields -/

/-- C4: a pass-through number is not kept as the request has it. The request
`{"messages":[],"seed":12345678901234567890}` has the number `12345678901234567890` at
`seed`; `json.Unmarshal` stores the nearest `float64`, `12345678901234567168`, so the
assembled payload has another value at `seed`, and `proxyHandler` forwards
`12345678901234567000`. -/
theorem passthrough_number_rounded :
    lexAux 0 seedBody = some [.lbrace, .str "messages", .colon, .lbrack, .rbrack, .comma,
      .str "seed", .colon, .num ⟨"12345678901234567890".data, rfl⟩, .rbrace] ∧
    parseFloat "12345678901234567890".data = some ⟨false, 6028163525993441, 11⟩ ∧
    6028163525993441 * 2 ^ 11 = 12345678901234567168 ∧
    rawFields seedBody = .ok [("messages", .arr []), ("seed", .num seedStored)] ∧
    (∃ payload, UnmarshalJSON seedBody = .ok payload ∧
      assembled payload = .ok seedResult) ∧
    GoMap.lookup "seed" seedResult = some (.json (.num seedStored)) ∧
    proxyHandler seedBody =
      .forwarded "\x7b\"messages\":[],\"seed\":12345678901234567000,\"tools\":[]\x7d".data :=
  ⟨rfl, rfl, by norm_num, rfl, ⟨_, rfl, rfl⟩, rfl, rfl⟩

/-- A request with a number beyond the largest `float64` is refused: `json.Unmarshal`
returns a type error for the number. -/
theorem number_out_of_range_refused :
    rawFields rangeBody = .error .typeError ∧
    proxyHandler rangeBody = .badRequest "Invalid JSON" :=
  ⟨rfl, rfl⟩
/-! ## The first block decides -/

/-- `translateMessage` reads the role and the first block only. -/
theorem translateMessage_first (b : OriginalContent) (rest rest1 : List OriginalContent)
    (role : String) :
    translateMessage ⟨b :: rest, role⟩ = translateMessage ⟨b :: rest1, role⟩ := by
  unfold translateMessage
  simp only [index, List.get?, bind, Except.bind]

/-- What `translateMessage` returns has one content item. -/
theorem translateMessage_length (m : OriginalMessage) (t : TransformedMessage)
    (ht : translateMessage m = .ok t) : t.Content.length = 1 := by
  unfold translateMessage at ht
  cases hc : m.Content with
  | nil => simp [hc, index, bind, Except.bind] at ht
  | cons b rest =>
    simp only [hc, index, List.get?, bind, Except.bind, pure, Except.pure] at ht
    split_ifs at ht with h1 h2
    · cases hn : b.Content with
      | nil => simp [hn] at ht
      | cons n ns =>
        simp only [hn, List.get?, Except.ok.injEq] at ht
        rw [← ht]; rfl
    · cases hn : b.Content with
      | nil => simp [hn] at ht
      | cons n ns =>
        simp only [hn, List.get?, Except.ok.injEq] at ht
        rw [← ht]; rfl
    · simp only [Except.ok.injEq] at ht
      rw [← ht]; rfl

/-- C11: when `translateMessage` succeeds on a message with first block `b`, the output
has exactly one content item, and every message with the same role and the same first
block, whatever blocks follow, translates to the same output. -/
theorem first_block_only (m : OriginalMessage) (b : OriginalContent)
    (rest : List OriginalContent) (t : TransformedMessage)
    (hm : m.Content = b :: rest) (ht : translateMessage m = .ok t) :
    t.Content.length = 1 ∧
    ∀ rest1 : List OriginalContent, translateMessage ⟨b :: rest1, m.Role⟩ = .ok t := by
  refine ⟨translateMessage_length m t ht, fun rest1 => ?_⟩
  rw [translateMessage_first b rest1 rest m.Role, ← ht]
  cases m
  simp only at hm
  rw [hm]

/-- C11, at a text message followed by a `tool_use` block. -/
theorem first_block_only_witness :
    translateMessage ⟨[⟨"text", "hi", "", none, "", "", []⟩,
        ⟨"tool_use", "", "t1", none, "search", "", []⟩], "user"⟩ =
      .ok ⟨[⟨"text", "hi", "", none, "", ""⟩], "user"⟩ ∧
    (⟨[⟨"text", "hi", "", none, "", ""⟩], "user"⟩ : TransformedMessage).Content.length = 1 ∧
    ∀ rest1 : List OriginalContent,
      translateMessage ⟨⟨"text", "hi", "", none, "", "", []⟩ :: rest1, "user"⟩ =
        .ok ⟨[⟨"text", "hi", "", none, "", ""⟩], "user"⟩ :=
  ⟨rfl, first_block_only
    ⟨[⟨"text", "hi", "", none, "", "", []⟩, ⟨"tool_use", "", "t1", none, "search", "", []⟩],
      "user"⟩ _ _ _ rfl rfl⟩

/-! ## Tool choices with further members -/

/-- The narrowed tool choice of a decoded request, read off the fields of the body. -/
theorem narrow_of_raw (body : List Char) (raw : GoMap JSON) (payload : ProxyPayload)
    (hraw : rawFields body = .ok raw) (hp : UnmarshalJSON body = .ok payload) (s : String) :
    narrowToolChoice payload.ToolChoice = some s ↔
      ∃ m, GoMap.lookup "tool_choice" raw = some (.obj m) ∧
        GoMap.lookup "type" m = some (.str s) := by
  rw [narrowToolChoice_eq_some, unmarshal_toolChoice body raw payload hraw hp]
  constructor
  · rintro ⟨m, h1, h2⟩
    refine ⟨m, ?_, h2⟩
    cases h : GoMap.lookup "tool_choice" raw with
    | none => rw [h] at h1; simp at h1
    | some v =>
      rw [h] at h1
      cases v <;> simp at h1
      rw [h1]
  · rintro ⟨m, h1, h2⟩
    exact ⟨m, by rw [h1]; rfl, h2⟩

/-- C14 as stated fails: the tool choice `{"type":"tool","name":"search"}` is not dropped;
the assembled payload has `tool_choice` equal to `tool`. -/
theorem structured_tool_choice_kept :
    UnmarshalJSON structuredChoiceBody = .ok structuredChoicePayload ∧
    assembled structuredChoicePayload = .ok structuredChoiceResult ∧
    GoMap.lookup "tool_choice" structuredChoiceResult = some (.json (.str "tool")) :=
  ⟨rfl, rfl, rfl⟩

/-- C14, amended: a tool choice that is an object with a string member `type` is narrowed
to that string whatever further members it carries, and the assembled payload has no key
`tool_choice` exactly when the tool choice of the body is not such an object. -/
theorem tool_choice_further_members (body : List Char) (raw : GoMap JSON)
    (payload : ProxyPayload) (result : GoMap Value)
    (hraw : rawFields body = .ok raw) (hp : UnmarshalJSON body = .ok payload)
    (hres : assembled payload = .ok result) :
    (∀ m s, GoMap.lookup "tool_choice" raw = some (.obj m) →
      GoMap.lookup "type" m = some (.str s) →
      GoMap.lookup "tool_choice" result = some (.json (.str s))) ∧
    (GoMap.lookup "tool_choice" result = none ↔
      ¬ ∃ m s, GoMap.lookup "tool_choice" raw = some (.obj m) ∧
        GoMap.lookup "type" m = some (.str s)) := by
  have hlook := (assembled_recognized body payload result hp hres).2.2
  have hchar := narrow_of_raw body raw payload hraw hp
  constructor
  · intro m s h1 h2
    rw [hlook, (hchar s).mpr ⟨m, h1, h2⟩]
    rfl
  · rw [hlook]
    constructor
    · intro hnone
      rintro ⟨m, s, h1, h2⟩
      rw [(hchar s).mpr ⟨m, h1, h2⟩] at hnone
      simp at hnone
    · intro hno
      cases h : narrowToolChoice payload.ToolChoice with
      | none => rfl
      | some s =>
        obtain ⟨m, h1, h2⟩ := (hchar s).mp h
        exact absurd ⟨m, s, h1, h2⟩ hno

/-- C14 amended, at the tool choice `{"type":"tool","name":"search"}`. -/
theorem tool_choice_further_members_witness :
    rawFields structuredChoiceBody = .ok structuredChoiceRaw ∧
    UnmarshalJSON structuredChoiceBody = .ok structuredChoicePayload ∧
    assembled structuredChoicePayload = .ok structuredChoiceResult ∧
    GoMap.lookup "tool_choice" structuredChoiceResult = some (.json (.str "tool")) :=
  ⟨rfl, rfl, rfl,
    (tool_choice_further_members structuredChoiceBody structuredChoiceRaw
      structuredChoicePayload structuredChoiceResult rfl rfl rfl).1
      [("name", .str "search"), ("type", .str "tool")] "tool" rfl rfl⟩

/-! ## Requests that are not shaped as the source payload -/

/-- C16: `UnmarshalJSON` returns no error for a body whose `messages` and `tools` are not
arrays: both decode to nothing, and `proxyHandler` forwards a payload without messages
and tools. For a message whose content is a plain string the content decodes to nothing,
and `proxyHandler` panics. -/
theorem misshapen_body_accepted :
    UnmarshalJSON misshapenBody = .ok ⟨[], none, [], []⟩ ∧
    proxyHandler misshapenBody =
      .forwarded "\x7b\"messages\":[],\"tools\":[]\x7d".data ∧
    UnmarshalJSON stringContentBody = .ok ⟨[], none, [], [⟨[], "user"⟩]⟩ ∧
    proxyHandler stringContentBody = .panicked (.indexOutOfRange 0 0) :=
  ⟨rfl, rfl, rfl, rfl⟩

/-! ## Well-formed requests that the textual pass rejects -/

/-- C17: for the request `{"messages":[],"stop":["tool_use"]}`, and for the request
`{"messages":[],"metadata":{"tool_use":true}}`, the patched text is not valid JSON:
`ConvertToolTypesToText` returns the error `failed to parse updated JSON`, and
`proxyHandler` answers with an internal error instead of forwarding. -/
theorem sanitation_rejects_valid_request :
    ((∃ payload, UnmarshalJSON stopBody = .ok payload ∧ assembled payload = .ok stopResult) ∧
      parse (patchText (marshalPayload stopResult)) = none ∧
      ConvertToolTypesToText stopResult = .error "failed to parse updated JSON" ∧
      proxyHandler stopBody =
        .internalError "Failed to convert tool types to text: failed to parse updated JSON") ∧
    ((∃ payload, UnmarshalJSON keyBody = .ok payload ∧ assembled payload = .ok keyResult) ∧
      parse (patchText (marshalPayload keyResult)) = none ∧
      ConvertToolTypesToText keyResult = .error "failed to parse updated JSON" ∧
      proxyHandler keyBody =
        .internalError "Failed to convert tool types to text: failed to parse updated JSON") :=
  ⟨⟨⟨_, rfl, rfl⟩, rfl, rfl, rfl⟩, ⟨⟨_, rfl, rfl⟩, rfl, rfl, rfl⟩⟩

/-! ## The translated lists -/

/-- `translateMessage` succeeds on a message with a first block that has nested content
when its type is `tool_use` or `tool_result`. -/
theorem translateMessage_ok (m : OriginalMessage)
    (h : ∃ b rest, m.Content = b :: rest ∧
      ((b.Type_ = "tool_use" ∨ b.Type_ = "tool_result") → b.Content ≠ [])) :
    ∃ t, translateMessage m = .ok t := by
  obtain ⟨b, rest, hm, hb⟩ := h
  unfold translateMessage
  simp only [hm, index, List.get?, bind, Except.bind, pure, Except.pure]
  by_cases h1 : b.Type_ = "tool_result"
  · cases hn : b.Content with
    | nil => exact absurd hn (hb (Or.inr h1))
    | cons n ns => simp [h1, hn]
  · by_cases h2 : b.Type_ = "tool_use"
    · cases hn : b.Content with
      | nil => exact absurd hn (hb (Or.inl h2))
      | cons n ns => simp [h1, h2, hn]
    · simp [h1, h2]

/-- The loop over the messages returns the translations in order when each succeeds. -/
theorem translateMessages_ok : ∀ ms : List OriginalMessage,
    (∀ m ∈ ms, ∃ t, translateMessage m = .ok t) →
    ∃ tms, translateMessages ms = .ok tms ∧ ms.map translateMessage = tms.map Except.ok
  | [], _ => ⟨[], rfl, rfl⟩
  | m :: ms, h => by
    obtain ⟨t, ht⟩ := h m (List.mem_cons_self _ _)
    obtain ⟨tms, h1, h2⟩ := translateMessages_ok ms
      (fun x hx => h x (List.mem_cons_of_mem _ hx))
    refine ⟨t :: tms, ?_, ?_⟩
    · simp only [translateMessages, ht, h1]
    · simp only [List.map_cons, ht, h2]

/-- C18: for a decoded request whose messages all have a first block, with nested content
where its type is `tool_use` or `tool_result`, the payload is assembled, its `tools` is
the list of the `translateTool` images of the tools, and its `messages` is the list of the
`translateMessage` results of the messages, in the same order and of the same length. -/
theorem assembled_elementwise (body : List Char) (payload : ProxyPayload)
    (hp : UnmarshalJSON body = .ok payload)
    (hmsgs : ∀ m ∈ payload.Messages, ∃ b rest, m.Content = b :: rest ∧
      ((b.Type_ = "tool_use" ∨ b.Type_ = "tool_result") → b.Content ≠ [])) :
    ∃ result tms, assembled payload = .ok result ∧
      GoMap.lookup "tools" result = some (.tools (payload.Tools.map translateTool)) ∧
      GoMap.lookup "messages" result = some (.messages tms) ∧
      payload.Messages.map translateMessage = tms.map Except.ok ∧
      tms.length = payload.Messages.length := by
  obtain ⟨tms, h1, h2⟩ := translateMessages_ok payload.Messages
    (fun m hm => translateMessage_ok m (hmsgs m hm))
  have hres : assembled payload =
      .ok (assemble (translateTools payload.Tools) tms payload) := by
    unfold assembled
    rw [h1]
  obtain ⟨h3, ⟨tms1, h4, h5⟩, _⟩ := assembled_recognized body payload _ hp hres
  rw [h1] at h4
  simp only [Except.ok.injEq] at h4
  subst h4
  refine ⟨_, tms, hres, h3, h5, h2, ?_⟩
  have := congrArg List.length h2
  simpa using this.symm

/-- C18, at the spec's example. -/
theorem assembled_elementwise_witness :
    UnmarshalJSON exampleBody = .ok examplePayload ∧
    ∃ result tms, assembled examplePayload = .ok result ∧
      GoMap.lookup "tools" result = some (.tools (examplePayload.Tools.map translateTool)) ∧
      GoMap.lookup "messages" result = some (.messages tms) ∧
      examplePayload.Messages.map translateMessage = tms.map Except.ok ∧
      tms.length = examplePayload.Messages.length :=
  ⟨rfl, assembled_elementwise exampleBody examplePayload rfl (by
    intro m hm
    simp only [examplePayload, List.mem_singleton] at hm
    subst hm
    exact ⟨_, _, rfl, fun h => by rcases h with h | h <;> exact absurd h (by decide)⟩)⟩

/-! ## The end-to-end example -/

/-- C15 as stated fails: in the payload forwarded for the spec's example, the `messages`
value is not the expected one; its content item also has the members `cache_control`,
`id`, `input` and `name`. -/
theorem example_messages_differ :
    ConvertToolTypesToText exampleResult = .ok exampleForwarded ∧
    proxyHandler exampleBody = .forwarded (marshal (.obj exampleForwarded)) ∧
    GoMap.lookup "messages" exampleForwarded ≠ some exampleExpectedMessages := by
  refine ⟨rfl, rfl, ?_⟩
  simp [GoMap.lookup, exampleForwarded, exampleExpectedMessages]

/-- C15, amended: for the spec's example the pipeline forwards a payload whose `tools`
value is the expected list with the one function tool, whose `model` value is `x`, and
whose `messages` value is one message of role `user` with one content item that has all
six members of `TransformedContent`: `type` = `text`, `text` = `hi`, `input` = null, and
`id`, `cache_control`, `name` empty. -/
theorem example_end_to_end :
    proxyHandler exampleBody = .forwarded (marshal (.obj exampleForwarded)) ∧
    parse (marshal (.obj exampleForwarded)) = some (.obj exampleForwarded) ∧
    GoMap.lookup "tools" exampleForwarded = some (.arr [.obj [
      ("function", .obj [("description", .str "web search"), ("name", .str "search"),
        ("parameters", .obj [("type", .str "object")])]),
      ("type", .str "function")]]) ∧
    GoMap.lookup "messages" exampleForwarded = some (.arr [.obj [
      ("content", .arr [.obj [("cache_control", .str ""), ("id", .str ""),
        ("input", .null), ("name", .str ""), ("text", .str "hi"), ("type", .str "text")]]),
      ("role", .str "user")]]) ∧
    GoMap.lookup "model" exampleForwarded = some (.str "x") :=
  ⟨rfl, rfl, rfl, rfl, rfl⟩

/-! ## The textual pass, structurally -/

theorem cutTag_suffix (tag : List Char) : ∀ (s pre : List Char), cutTag tag s = some pre →
    tag <:+ s
  | [], _, h => by simp [cutTag] at h
  | c :: cs, pre, h => by
    simp only [cutTag] at h
    split_ifs at h with h1
    · rw [h1.2]
      exact List.suffix_cons _ _
    · cases h2 : cutTag tag cs with
      | none => rw [h2] at h; simp at h
      | some p => exact (cutTag_suffix tag cs p h2).trans (List.suffix_cons _ _)

theorem patchStr_suffix (tag s pre : List Char) (h : patchStr tag s = some pre) :
    tag <:+ s := by
  unfold patchStr at h
  split_ifs at h with h1
  · rw [h1]
  · exact cutTag_suffix tag s pre h

theorem patchStr_none_of_not_suffix (tag s : List Char) (h : ¬ tag <:+ s) :
    patchStr tag s = none := by
  cases h1 : patchStr tag s with
  | none => rfl
  | some pre => exact absurd (patchStr_suffix tag s pre h1) h

/-- A string that ends with `text` is not rewritten. -/
theorem hitStr_text (pre : List Char) : hitStr (pre ++ "text".data) = none := by
  have h1 : patchStr "tool_use".data (pre ++ "text".data) = none := by
    apply patchStr_none_of_not_suffix
    rw [← List.reverse_prefix]
    simp only [List.reverse_append]
    intro h
    simp at h
  have h2 : patchStr "tool_result".data (pre ++ "text".data) = none := by
    apply patchStr_none_of_not_suffix
    rw [← List.reverse_prefix]
    simp only [List.reverse_append]
    intro h
    simp at h
  simp only [hitStr, h1, h2]

theorem hitStr_placeholder_use : hitStr "incorrect tool use".data = none := rfl

theorem hitStr_placeholder_result : hitStr "incorrect tool result".data = none := rfl

theorem patchStr_result_text (pre : List Char) :
    patchStr "tool_result".data (pre ++ "text".data) = none := by
  have h := hitStr_text pre
  unfold hitStr at h
  cases h1 : patchStr "tool_use".data (pre ++ "text".data) with
  | some p => rw [h1] at h; simp at h
  | none =>
    rw [h1] at h
    cases h2 : patchStr "tool_result".data (pre ++ "text".data) with
    | some p => rw [h2] at h; simp at h
    | none => rfl

/-- The two calls of `strings.ReplaceAll` on one piece: a string token is rewritten at
most once. -/
theorem patchBoth_str (s : String) :
    patchBoth (.tok (.str s)) =
      match hitStr s.data with
      | some (pre, ph) => patched pre ph
      | none => [.tok (.str s)] := by
  unfold patchBoth hitStr
  simp only [patchPiece]
  cases h1 : patchStr "tool_use".data s.data with
  | some pre =>
    have h2 := patchStr_result_text pre
    have h3 : patchStr "tool_result".data "text".data = none := rfl
    have h4 : patchStr "tool_result".data "incorrect tool use".data = none := rfl
    simp [patched, patchPiece, h2, h3, h4]
  | none =>
    simp only [List.flatMap_cons, List.flatMap_nil, List.append_nil, patchPiece]
    cases h2 : patchStr "tool_result".data s.data with
    | some pre => rfl
    | none => rfl

theorem patchBoth_other (p : Piece) (h : ∀ s, p ≠ .tok (.str s)) : patchBoth p = [p] := by
  unfold patchBoth
  cases p with
  | space => rfl
  | tok t =>
    cases t with
    | str s => exact absurd rfl (h s)
    | _ => rfl

theorem pieceTokens_append (a b : List Piece) :
    pieceTokens (a ++ b) = pieceTokens a ++ pieceTokens b := by
  induction a with
  | nil => rfl
  | cons p a ih =>
    cases p with
    | tok t => simp [pieceTokens, ih]
    | space => simp [pieceTokens, ih]

theorem pieceTokens_patchBoth (t : Token) : pieceTokens (patchBoth (.tok t)) = patchTok t := by
  cases t with
  | str s =>
    rw [patchBoth_str]
    simp only [patchTok]
    cases h : hitStr s.data with
    | none => rfl
    | some p => rfl
  | _ => rfl

theorem pieceTokens_flatMap (ts : List Token) :
    pieceTokens ((ts.map Piece.tok).flatMap patchBoth) = ts.flatMap patchTok := by
  induction ts with
  | nil => rfl
  | cons t ts ih =>
    simp only [List.map_cons, List.flatMap_cons, pieceTokens_append, ih,
      pieceTokens_patchBoth]

/-- The text after the two calls of `strings.ReplaceAll`, piece by piece. -/
theorem patchText_patchBoth (ps : List Piece) :
    patchText (renderPieces ps) = renderPieces (ps.flatMap patchBoth) := by
  rw [patchText_pieces, List.flatMap_assoc]
  rfl

/-! ### The scanner on the patched text -/

theorem lex_render_number_exact (n : NumLit) (rest : List Char)
    (hrest : rest.takeWhile isNumChar = []) :
    lexAux 0 (n.lit ++ rest) = (lexAux 0 rest).map (Token.num n :: ·) := by
  obtain ⟨lit, valid⟩ := n
  obtain ⟨hall, c, r, hl, _⟩ := validNumber_chars lit valid
  subst hl
  simp only [List.all_cons, Bool.and_eq_true] at hall
  have htw : (r ++ rest).takeWhile isNumChar = r := by
    rw [takeWhile_append_all _ _ _ hall.2, hrest, List.append_nil]
  rw [List.cons_append, lex_number c _ hall.1]
  simp only [htw]
  rw [dif_pos valid, lexAux_skip]

/-- A piece that is not a number token is read as itself whatever follows. -/
theorem lex_piece (p : Piece) (rest : List Char) (h : ∀ n, p ≠ .tok (.num n)) :
    lexAux 0 (p.render ++ rest) = (lexAux 0 rest).map (pieceTokens [p] ++ ·) := by
  cases p with
  | space =>
    simp only [Piece.render, List.singleton_append, lex_space, pieceTokens, List.nil_append]
    cases lexAux 0 rest <;> rfl
  | tok t =>
    cases t with
    | num n => exact absurd rfl (h n)
    | str s => exact lex_render_string s rest
    | lbrace => exact lex_lbrace rest
    | rbrace => exact lex_rbrace rest
    | lbrack => exact lex_lbrack rest
    | rbrack => exact lex_rbrack rest
    | comma => exact lex_comma rest
    | colon => exact lex_colon rest
    | tru => exact lex_true rest
    | fls => exact lex_false rest
    | nul => exact lex_null rest

theorem lex_pieces_nonum : ∀ (ps : List Piece) (rest : List Char),
    (∀ p ∈ ps, ∀ n, p ≠ .tok (.num n)) →
    lexAux 0 (renderPieces ps ++ rest) = (lexAux 0 rest).map (pieceTokens ps ++ ·)
  | [], rest, _ => by
    simp only [renderPieces, List.nil_append, pieceTokens]
    cases lexAux 0 rest <;> rfl
  | p :: ps, rest, h => by
    rw [renderPieces, List.append_assoc, lex_piece p _ (h p (List.mem_cons_self _ _)),
      lex_pieces_nonum ps rest (fun q hq => h q (List.mem_cons_of_mem _ hq))]
    have : pieceTokens (p :: ps) = pieceTokens [p] ++ pieceTokens ps :=
      pieceTokens_append [p] ps
    rw [this]
    cases lexAux 0 rest <;> simp

/-- A piece that is not a number token does not start with a number character. -/
theorem piece_head (p : Piece) (h : ∀ n, p ≠ .tok (.num n)) :
    ∃ c t, p.render = c :: t ∧ isNumChar c = false := by
  cases p with
  | space => exact ⟨' ', [], rfl, by decide⟩
  | tok t =>
    cases t with
    | num n => exact absurd rfl (h n)
    | str s => exact ⟨dq, _, rfl, by decide⟩
    | lbrace => exact ⟨'{', [], rfl, by decide⟩
    | rbrace => exact ⟨'}', [], rfl, by decide⟩
    | lbrack => exact ⟨'[', [], rfl, by decide⟩
    | rbrack => exact ⟨']', [], rfl, by decide⟩
    | comma => exact ⟨',', [], rfl, by decide⟩
    | colon => exact ⟨':', [], rfl, by decide⟩
    | tru => exact ⟨'t', _, rfl, by decide⟩
    | fls => exact ⟨'f', _, rfl, by decide⟩
    | nul => exact ⟨'n', _, rfl, by decide⟩

/-- The pieces written for a token that is not a number: none is a number, and there is
a first one. -/
theorem patchBoth_nonum (t : Token) (h : ∀ n, t ≠ .num n) :
    (∀ p ∈ patchBoth (.tok t), ∀ n, p ≠ .tok (.num n)) ∧
    ∃ q qs, patchBoth (.tok t) = q :: qs := by
  cases t with
  | num n => exact absurd rfl (h n)
  | str s =>
    rw [patchBoth_str]
    cases hitStr s.data with
    | none => exact ⟨by simp, _, _, rfl⟩
    | some p => exact ⟨by simp [patched], _, _, rfl⟩
  | _ => exact ⟨by simp [patchBoth, patchPiece], _, _, rfl⟩

theorem numSeparated_tail (t : Token) (ts : List Token) (h : NumSeparated (t :: ts)) :
    NumSeparated ts := by
  cases ts with
  | nil => trivial
  | cons t2 ts =>
    cases t <;> cases t2 <;> simp_all [NumSeparated]

theorem numSeparated_head (n : NumLit) (t : Token) (ts : List Token)
    (h : NumSeparated (.num n :: t :: ts)) : ∀ m, t ≠ .num m := by
  intro m e
  subst e
  simp [NumSeparated] at h

/-- The scanner reads from the patched text the patched tokens. -/
theorem lex_patched : ∀ ts : List Token, NumSeparated ts →
    lexAux 0 (renderPieces ((ts.map Piece.tok).flatMap patchBoth)) = some (ts.flatMap patchTok)
  | [], _ => rfl
  | t :: ts, h => by
    have ih := lex_patched ts (numSeparated_tail t ts h)
    simp only [List.map_cons, List.flatMap_cons, renderPieces_append]
    by_cases hn : ∃ n, t = .num n
    · obtain ⟨n, rfl⟩ := hn
      have hp : patchBoth (.tok (.num n)) = [.tok (.num n)] := rfl
      have hrest : (renderPieces ((ts.map Piece.tok).flatMap patchBoth)).takeWhile isNumChar
          = [] := by
        cases ts with
        | nil => rfl
        | cons t2 ts2 =>
          obtain ⟨hno, q, qs, hq⟩ := patchBoth_nonum t2 (numSeparated_head n t2 ts2 h)
          obtain ⟨c, tl, hc, hcn⟩ := piece_head q (hno q (by rw [hq]; exact List.mem_cons_self _ _))
          simp only [List.map_cons, List.flatMap_cons, hq, List.cons_append, renderPieces, hc,
            List.takeWhile, hcn]
      rw [hp]
      simp only [renderPieces, Piece.render, Token.render, List.append_nil]
      rw [lex_render_number_exact n _ hrest, ih]
      rfl
    · have hn1 : ∀ n, t ≠ .num n := fun n e => hn ⟨n, e⟩
      rw [lex_pieces_nonum _ _ (patchBoth_nonum t hn1).1, ih, pieceTokens_patchBoth]
      rfl

theorem numSeparated_cons (c : Token) (ts : List Token) (hc : ∀ n, c ≠ .num n)
    (h : NumSeparated ts) : NumSeparated (c :: ts) := by
  cases ts with
  | nil => simp [NumSeparated]
  | cons t ts =>
    cases c with
    | num n => exact absurd rfl (hc n)
    | _ => exact h

theorem numSeparated_append : ∀ (a : List Token) (c : Token) (b : List Token),
    NumSeparated a → (∀ n, c ≠ .num n) → NumSeparated (c :: b) → NumSeparated (a ++ c :: b)
  | [], _, _, _, _, h => h
  | [x], c, b, _, hc, h => by
    cases x with
    | num n =>
      cases c with
      | num m => exact absurd rfl (hc m)
      | _ => exact h
    | _ => exact h
  | x :: y :: rest, c, b, ha, hc, h => by
    have ih := numSeparated_append (y :: rest) c b (numSeparated_tail x _ ha) hc h
    cases x with
    | num n =>
      cases y with
      | num m => simp [NumSeparated] at ha
      | _ => exact ih
    | _ => exact ih

mutual
/-- In the token stream of a value no number follows a number. -/
theorem tokens_separated : ∀ v : JSON, NumSeparated v.tokens
  | .null => by simp [NumSeparated, JSON.tokens, elemTokens, memberTokens]
  | .bool true => by simp [NumSeparated, JSON.tokens, elemTokens, memberTokens]
  | .bool false => by simp [NumSeparated, JSON.tokens, elemTokens, memberTokens]
  | .num _ => by simp [NumSeparated, JSON.tokens, elemTokens, memberTokens]
  | .str _ => by simp [NumSeparated, JSON.tokens, elemTokens, memberTokens]
  | .arr xs => by
    rw [JSON.tokens]
    exact numSeparated_cons _ _ (by simp)
      (numSeparated_append _ _ _ (elemTokens_separated xs) (by simp) (by simp [NumSeparated]))
  | .obj ms => by
    rw [JSON.tokens]
    exact numSeparated_cons _ _ (by simp)
      (numSeparated_append _ _ _ (memberTokens_separated ms) (by simp) (by simp [NumSeparated]))
theorem elemTokens_separated : ∀ xs : List JSON, NumSeparated (elemTokens xs)
  | [] => by simp [NumSeparated, JSON.tokens, elemTokens, memberTokens]
  | [x] => by
    rw [elemTokens]
    exact tokens_separated x
  | x :: y :: xs => by
    rw [elemTokens]
    exact numSeparated_append _ _ _ (tokens_separated x) (by simp)
      (numSeparated_cons _ _ (by simp) (elemTokens_separated (y :: xs)))
theorem memberTokens_separated : ∀ ms : List (String × JSON), NumSeparated (memberTokens ms)
  | [] => by simp [NumSeparated, JSON.tokens, elemTokens, memberTokens]
  | [(k, v)] => by
    rw [memberTokens]
    exact numSeparated_cons _ _ (by simp) (numSeparated_cons _ _ (by simp) (tokens_separated v))
  | (k, v) :: m :: ms => by
    rw [memberTokens]
    have h1 : NumSeparated (Token.str k :: Token.colon :: v.tokens) :=
      numSeparated_cons _ _ (by simp) (numSeparated_cons _ _ (by simp) (tokens_separated v))
    exact numSeparated_append _ _ _ h1 (by simp)
      (numSeparated_cons _ _ (by simp) (memberTokens_separated (m :: ms)))
end

/-- The tokens that the scanner reads from the patched text of a value. -/
theorem lex_patchText_marshal (v : JSON) :
    lexAux 0 (patchText (marshal v)) = some (v.tokens.flatMap patchTok) := by
  unfold marshal
  rw [renderTokens_eq, patchText_patchBoth, lex_patched _ (tokens_separated v)]

/-! ### The decoder on the patched tokens -/

theorem prun_cons (s : PState) (t : Token) (ts : List Token) :
    prun s (t :: ts) = (pstep s t).bind (fun s1 => prun s1 ts) := by
  rw [prun]
  cases pstep s t <;> rfl

theorem pstep_startValue (st : List Frame) (mode : Mode) (t : Token)
    (hm : mode = .value ∨ mode = .arrFirst) (ht : t ≠ .rbrack) :
    pstep ⟨st, mode⟩ t = startValue st t := by
  rcases hm with rfl | rfl
  · rfl
  · cases t <;> first | rfl | exact absurd rfl ht

theorem pstep_startKey (st : List Frame) (mode : Mode) (k : String)
    (hm : mode = .objFirst ∨ mode = .key) :
    pstep ⟨st, mode⟩ (.str k) = startKey st (.str k) := by
  rcases hm with rfl | rfl <;> rfl

/-- A rewritten string as an array element: the decoder fails at the colon. -/
theorem prun_hit_element (acc : List JSON) (st : List Frame) (mode : Mode) (a b : String)
    (rest : List Token) (hm : mode = .value ∨ mode = .arrFirst) :
    prun ⟨.inArr acc :: st, mode⟩ (.str a :: .comma :: .str b :: .colon :: rest) = none := by
  rw [prun_cons, pstep_startValue _ _ _ hm (by simp)]
  rfl

/-- A rewritten string as an object key: the decoder fails at the comma. -/
theorem prun_hit_key (m : GoMap JSON) (st : List Frame) (mode : Mode) (a : String)
    (rest : List Token) (hm : mode = .objFirst ∨ mode = .key) :
    prun ⟨.inObj m :: st, mode⟩ (.str a :: .comma :: rest) = none := by
  rw [prun_cons, pstep_startKey _ _ _ hm]
  rfl

/-- A rewritten string as the value of a member: two members are stored. -/
theorem prun_hit_member (m : GoMap JSON) (k : String) (st : List Frame) (a b c : String)
    (rest : List Token) :
    prun ⟨.inObjVal m k :: st, .value⟩
        (.str a :: .comma :: .str b :: .colon :: .str c :: rest) =
      prun ⟨.inObj (GoMap.insert b (.str c) (GoMap.insert k (.str a) m)) :: st, .afterValue⟩
        rest := rfl

theorem hitValue_str (s : String) : hitValue (.str s) = none ↔ hitStr s.data = none := by
  simp [hitValue]

theorem patchTok_nohit (s : String) (h : hitStr s.data = none) :
    patchTok (.str s) = [.str s] := by
  simp only [patchTok, h]

/-- The decoder on the token of a value that is not an array or an object. -/
theorem prun_scalar (v : JSON) (t : Token) (st : List Frame) (mode : Mode) (rest : List Token)
    (hm : mode = .value ∨ mode = .arrFirst) (ht : t ≠ .rbrack)
    (hs : startValue st t = complete v st) :
    prun ⟨st, mode⟩ (t :: rest) = (complete v st).bind (fun s => prun s rest) := by
  rw [prun_cons, pstep_startValue _ _ _ hm ht, hs]

theorem complete_inArr (v : JSON) (acc : List JSON) (st : List Frame) :
    complete v (.inArr acc :: st) = some ⟨.inArr (v :: acc) :: st, .afterValue⟩ := rfl

theorem complete_inObjVal (v : JSON) (m : GoMap JSON) (k : String) (st : List Frame) :
    complete v (.inObjVal m k :: st) =
      some ⟨.inObj (GoMap.insert k v m) :: st, .afterValue⟩ := rfl

theorem pstep_comma_arr (acc : List JSON) (st : List Frame) :
    pstep ⟨.inArr acc :: st, .afterValue⟩ .comma = some ⟨.inArr acc :: st, .value⟩ := rfl

theorem pstep_comma_obj (m : GoMap JSON) (st : List Frame) :
    pstep ⟨.inObj m :: st, .afterValue⟩ .comma = some ⟨.inObj m :: st, .key⟩ := rfl

theorem pstep_rbrack (acc : List JSON) (st : List Frame) :
    pstep ⟨.inArr acc :: st, .afterValue⟩ .rbrack = complete (.arr acc.reverse) st := rfl

theorem pstep_rbrace (m : GoMap JSON) (st : List Frame) :
    pstep ⟨.inObj m :: st, .afterValue⟩ .rbrace = complete (.obj m) st := rfl

theorem pstep_colon (st : List Frame) :
    pstep ⟨st, .colon⟩ .colon = some ⟨st, .value⟩ := rfl

theorem startKey_inObj (m : GoMap JSON) (k : String) (st : List Frame) :
    startKey (.inObj m :: st) (.str k) = some ⟨.inObjVal m k :: st, .colon⟩ := rfl

theorem flatMap_patchTok_cons (t : Token) (ts : List Token) (h : ∀ s, t ≠ .str s) :
    (t :: ts).flatMap patchTok = t :: ts.flatMap patchTok := by
  rw [List.flatMap_cons]
  cases t with
  | str s => exact absurd rfl (h s)
  | _ => rfl

mutual
/-- The decoder on the patched tokens of a value that is not itself a rewritten string:
it completes the value computed by `JSON.sanit`, or fails when there is none. -/
theorem prun_value : ∀ (v : JSON), hitValue v = none →
    ∀ (st : List Frame) (mode : Mode) (rest : List Token),
    (mode = .value ∨ mode = .arrFirst) →
    prun ⟨st, mode⟩ (v.tokens.flatMap patchTok ++ rest) =
      match v.sanit with
      | some v1 => (complete v1 st).bind (fun s => prun s rest)
      | none => none
  | .null, _, st, mode, rest, hm => prun_scalar .null .nul st mode rest hm (by simp) rfl
  | .bool true, _, st, mode, rest, hm =>
    prun_scalar (.bool true) .tru st mode rest hm (by simp) rfl
  | .bool false, _, st, mode, rest, hm =>
    prun_scalar (.bool false) .fls st mode rest hm (by simp) rfl
  | .num n, _, st, mode, rest, hm => by
    have ht : (JSON.num n).tokens.flatMap patchTok ++ rest = Token.num n :: rest := rfl
    rw [ht, prun_cons, pstep_startValue _ _ _ hm (by simp)]
    simp only [startValue, JSON.sanit]
    cases float64Lit n <;> rfl
  | .str s, hv, st, mode, rest, hm => by
    have h := (hitValue_str s).mp hv
    simp only [JSON.tokens, List.flatMap_cons, List.flatMap_nil, patchTok_nohit s h,
      List.append_nil, List.singleton_append]
    exact prun_scalar (.str s) (.str s) st mode rest hm (by simp) rfl
  | .arr xs, _, st, mode, rest, hm => by
    rw [JSON.tokens, flatMap_patchTok_cons _ _ (by simp), List.flatMap_append,
      List.cons_append, prun_cons, pstep_startValue _ _ _ hm (by simp)]
    simp only [startValue, Option.bind, JSON.sanit]
    by_cases hx : xs = []
    · subst hx
      have h0 : (elemTokens []).flatMap patchTok ++ [Token.rbrack].flatMap patchTok ++ rest
          = Token.rbrack :: rest := rfl
      rw [h0, prun_cons]
      rfl
    · have hr : [Token.rbrack].flatMap patchTok = [Token.rbrack] := rfl
      rw [hr, List.append_assoc, List.singleton_append,
        prun_elems xs hx [] st .arrFirst rest (Or.inr rfl)]
      cases sanitElems xs <;> rfl
  | .obj ms, _, st, mode, rest, hm => by
    rw [JSON.tokens, flatMap_patchTok_cons _ _ (by simp), List.flatMap_append,
      List.cons_append, prun_cons, pstep_startValue _ _ _ hm (by simp)]
    simp only [startValue, Option.bind, JSON.sanit]
    by_cases hx : ms = []
    · subst hx
      have h0 : (memberTokens []).flatMap patchTok ++ [Token.rbrace].flatMap patchTok ++ rest
          = Token.rbrace :: rest := rfl
      rw [h0, prun_cons]
      rfl
    · have hr : [Token.rbrace].flatMap patchTok = [Token.rbrace] := rfl
      rw [hr, List.append_assoc, List.singleton_append,
        prun_members ms hx [] st .objFirst rest (Or.inl rfl)]
      cases sanitMembers ms <;> rfl
/-- The decoder on the patched tokens of the elements of an array. -/
theorem prun_elems : ∀ (xs : List JSON), xs ≠ [] →
    ∀ (acc : List JSON) (st : List Frame) (mode : Mode) (rest : List Token),
    (mode = .value ∨ mode = .arrFirst) →
    prun ⟨.inArr acc :: st, mode⟩ ((elemTokens xs).flatMap patchTok ++ .rbrack :: rest) =
      match sanitElems xs with
      | some xs1 => (complete (.arr (acc.reverse ++ xs1)) st).bind (fun s => prun s rest)
      | none => none
  | [], h, _, _, _, _, _ => absurd rfl h
  | [x], _, acc, st, mode, rest, hm => by
    rw [elemTokens]
    cases hh : hitValue x with
    | some p =>
      cases x with
      | str s =>
        simp only [hitValue, Option.map_eq_some'] at hh
        obtain ⟨⟨pre, ph⟩, hq, _⟩ := hh
        simp only [JSON.tokens, List.flatMap_cons, List.flatMap_nil, patchTok, hq,
          List.append_nil, List.cons_append, List.nil_append, sanitElems, hitValue,
          Option.map_some', Option.isSome_some, if_true]
        exact prun_hit_element acc st mode _ _ _ hm
      | _ => simp [hitValue] at hh
    | none =>
      rw [prun_value x hh _ mode _ hm]
      simp only [sanitElems, hh, Option.isSome_none, Bool.false_eq_true, if_false]
      cases x.sanit with
      | none => rfl
      | some x1 =>
        simp only [complete_inArr, Option.some_bind, prun_cons, pstep_rbrack,
          List.reverse_cons]
  | x :: y :: xs, _, acc, st, mode, rest, hm => by
    rw [elemTokens, List.flatMap_append, List.append_assoc]
    cases hh : hitValue x with
    | some p =>
      cases x with
      | str s =>
        simp only [hitValue, Option.map_eq_some'] at hh
        obtain ⟨⟨pre, ph⟩, hq, _⟩ := hh
        simp only [JSON.tokens, List.flatMap_cons, List.flatMap_nil, patchTok, hq,
          List.append_nil, List.cons_append, List.nil_append, sanitElems, hitValue,
          Option.map_some', Option.isSome_some, if_true]
        exact prun_hit_element acc st mode _ _ _ hm
      | _ => simp [hitValue] at hh
    | none =>
      rw [prun_value x hh _ mode _ hm]
      rw [sanitElems]
      simp only [hh, Option.isSome_none, Bool.false_eq_true, if_false]
      cases x.sanit with
      | none => rfl
      | some x1 =>
        have ih := prun_elems (y :: xs) (by simp) (x1 :: acc) st .value rest (Or.inl rfl)
        rw [flatMap_patchTok_cons _ _ (by simp)]
        simp only [complete_inArr, Option.some_bind, List.cons_append, prun_cons,
          pstep_comma_arr]
        rw [ih]
        cases sanitElems (y :: xs) with
        | none => rfl
        | some ys => simp only [List.reverse_cons, List.append_assoc, List.singleton_append]
/-- The decoder on the patched tokens of the members of an object. -/
theorem prun_members : ∀ (ms : List (String × JSON)), ms ≠ [] →
    ∀ (m : GoMap JSON) (st : List Frame) (mode : Mode) (rest : List Token),
    (mode = .objFirst ∨ mode = .key) →
    prun ⟨.inObj m :: st, mode⟩ ((memberTokens ms).flatMap patchTok ++ .rbrace :: rest) =
      match sanitMembers ms with
      | some l => (complete (.obj (l.foldl (fun m kv => GoMap.insert kv.1 kv.2 m) m)) st).bind
          (fun s => prun s rest)
      | none => none
  | [], h, _, _, _, _, _ => absurd rfl h
  | [(k, v)], _, m, st, mode, rest, hm => by
    rw [memberTokens]
    cases hk : hitStr k.data with
    | some p =>
      obtain ⟨pre, ph⟩ := p
      simp only [List.flatMap_cons, patchTok, hk, List.cons_append, sanitMembers,
        Option.isSome_some, if_true]
      exact prun_hit_key m st mode _ _ hm
    | none =>
      rw [List.flatMap_cons, patchTok_nohit k hk, flatMap_patchTok_cons _ _ (by simp),
        List.singleton_append, List.cons_append, List.cons_append, prun_cons,
        pstep_startKey _ _ _ hm, startKey_inObj, Option.some_bind, prun_cons, pstep_colon,
        Option.some_bind]
      simp only [sanitMembers, hk, Option.isSome_none, Bool.false_eq_true, if_false]
      cases hh : hitValue v with
      | some p =>
        cases v with
        | str s =>
          simp only [hitValue, Option.map_eq_some'] at hh
          obtain ⟨⟨pre, ph⟩, hq, hp⟩ := hh
          subst hp
          simp only [JSON.tokens, List.flatMap_cons, List.flatMap_nil, patchTok, hq,
            List.append_nil, List.cons_append, List.nil_append]
          rw [prun_hit_member, prun_cons, pstep_rbrace]
          rfl
        | _ => simp [hitValue] at hh
      | none =>
        rw [prun_value v hh _ .value _ (Or.inl rfl)]
        cases v.sanit with
        | none => rfl
        | some v1 =>
          simp only [complete_inObjVal, Option.some_bind, prun_cons, pstep_rbrace,
            List.foldl_cons, List.foldl_nil]
  | (k, v) :: kv :: ms, _, m, st, mode, rest, hm => by
    rw [memberTokens, List.flatMap_append, List.append_assoc]
    cases hk : hitStr k.data with
    | some p =>
      obtain ⟨pre, ph⟩ := p
      simp only [List.flatMap_cons, patchTok, hk, List.cons_append, sanitMembers,
        Option.isSome_some, if_true]
      exact prun_hit_key m st mode _ _ hm
    | none =>
      rw [List.flatMap_cons, patchTok_nohit k hk, flatMap_patchTok_cons _ _ (by simp),
        List.singleton_append, List.cons_append, List.cons_append, prun_cons,
        pstep_startKey _ _ _ hm, startKey_inObj, Option.some_bind, prun_cons, pstep_colon,
        Option.some_bind, sanitMembers]
      simp only [hk, Option.isSome_none, Bool.false_eq_true, if_false]
      rw [flatMap_patchTok_cons _ (memberTokens (kv :: ms)) (by simp)]
      cases hh : hitValue v with
      | some p =>
        cases v with
        | str s =>
          simp only [hitValue, Option.map_eq_some'] at hh
          obtain ⟨⟨pre, ph⟩, hq, hp⟩ := hh
          subst hp
          have ih := prun_members (kv :: ms) (by simp)
            (GoMap.insert "text" (.str ⟨ph⟩) (GoMap.insert k (.str ⟨pre ++ "text".data⟩) m))
            st .key rest (Or.inr rfl)
          simp only [JSON.tokens, List.flatMap_cons, List.flatMap_nil, patchTok, hq,
            List.append_nil, List.cons_append, List.nil_append]
          rw [prun_hit_member, prun_cons, pstep_comma_obj, Option.some_bind, ih]
          cases sanitMembers (kv :: ms) with
          | none => rfl
          | some l => rfl
        | _ => simp [hitValue] at hh
      | none =>
        rw [prun_value v hh _ .value _ (Or.inl rfl)]
        cases v.sanit with
        | none => rfl
        | some v1 =>
          have ih := prun_members (kv :: ms) (by simp) (GoMap.insert k v1 m) st .key rest
            (Or.inr rfl)
          simp only [complete_inObjVal, Option.some_bind, List.cons_append, prun_cons,
            pstep_comma_obj]
          rw [ih]
          cases sanitMembers (kv :: ms) with
          | none => rfl
          | some l => rfl
end

/-- Decoding the patched text of a value gives the value computed by `JSON.sanit`, and
fails when there is none. -/
theorem parse_patchText (v : JSON) (hv : hitValue v = none) :
    parse (patchText (marshal v)) = v.sanit := by
  unfold parse
  rw [lex_patchText_marshal]
  have h := prun_value v hv [] .value [] (Or.inl rfl)
  rw [List.append_nil] at h
  simp only [h]
  cases v.sanit with
  | none => rfl
  | some v1 => rfl

/-- `ConvertToolTypesToText`, computed on the payload. -/
theorem convert_structural (input : GoMap Value) :
    ConvertToolTypesToText input =
      match sanitMembers (input.map fun kv => (kv.1, kv.2.toJSON)) with
      | some l => .ok (l.foldl (fun m kv => GoMap.insert kv.1 kv.2 m) [])
      | none => .error "failed to parse updated JSON" := by
  unfold ConvertToolTypesToText unmarshalMap marshalPayload
  simp only []
  rw [parse_patchText (.obj (input.map fun kv => (kv.1, kv.2.toJSON))) rfl, JSON.sanit]
  cases sanitMembers (input.map fun kv => (kv.1, kv.2.toJSON)) with
  | none => rfl
  | some l => rfl

/-! ### Idempotence -/

theorem insert_last {α : Type} (k : String) (v : α) : ∀ m : GoMap α,
    (∀ kv ∈ m, keyLt kv.1.data k.data = true) → GoMap.insert k v m = m ++ [(k, v)]
  | [], _ => rfl
  | (k1, v1) :: m, h => by
    have h1 := h (k1, v1) (List.mem_cons_self _ _)
    simp only at h1
    have hne : k ≠ k1 := by
      intro e
      rw [e, keyLt_irrefl] at h1
      exact Bool.noConfusion h1
    have hlt : ¬ keyLt k.data k1.data = true := by
      intro h2
      have := keyLt_trans _ _ _ h2 h1
      rw [keyLt_irrefl] at this
      exact Bool.noConfusion this
    rw [GoMap.insert, if_neg hne, if_neg hlt,
      insert_last k v m (fun kv hkv => h kv (List.mem_cons_of_mem _ hkv))]
    rfl

/-- Storing the members of a Go map one by one, after smaller keys, rebuilds the map. -/
theorem foldl_insert_sorted : ∀ (ms m : GoMap JSON), KeysSorted (m ++ ms) →
    ms.foldl (fun m kv => GoMap.insert kv.1 kv.2 m) m = m ++ ms
  | [], m, _ => by simp
  | (k, v) :: ms, m, h => by
    have hm : ∀ kv ∈ m, keyLt kv.1.data k.data = true := by
      intro kv hkv
      unfold KeysSorted at h
      rw [List.map_append, List.pairwise_append] at h
      exact h.2.2 kv.1 (List.mem_map_of_mem _ hkv) k (by simp)
    rw [List.foldl_cons, insert_last k v m hm,
      foldl_insert_sorted ms (m ++ [(k, v)]) (by simpa using h)]
    simp

theorem hitValue_of_allStr (v : JSON) (h : v.AllStr NoHit) : hitValue v = none := by
  cases v with
  | str s =>
    rw [JSON.AllStr] at h
    exact (hitValue_str s).mpr h
  | _ => rfl

mutual
/-- A value of the decoder without a string that `patchText` rewrites is left as it is. -/
theorem sanit_id : ∀ v : JSON, Canon v → v.AllStr NoHit → v.sanit = some v
  | .null, _, _ => rfl
  | .bool _, _, _ => rfl
  | .num n, hc, _ => by
    cases hc with
    | num _ h =>
      rw [JSON.sanit, h]
      rfl
  | .str _, _, _ => rfl
  | .arr xs, hc, hs => by
    cases hc with
    | arr _ h1 =>
      rw [JSON.AllStr] at hs
      rw [JSON.sanit, sanitElems_id xs h1 hs]
      rfl
  | .obj ms, hc, hs => by
    cases hc with
    | obj _ h1 h2 =>
      rw [JSON.AllStr] at hs
      rw [JSON.sanit, sanitMembers_id ms h2 hs]
      simp only [Option.map_some']
      rw [foldl_insert_sorted ms [] (by simpa using h1)]
      rfl
theorem sanitElems_id : ∀ xs : List JSON, (∀ x ∈ xs, Canon x) → allStrList NoHit xs →
    sanitElems xs = some xs
  | [], _, _ => rfl
  | x :: xs, hc, hs => by
    rw [allStrList] at hs
    rw [sanitElems, hitValue_of_allStr x hs.1,
      sanit_id x (hc x (List.mem_cons_self _ _)) hs.1,
      sanitElems_id xs (fun y hy => hc y (List.mem_cons_of_mem _ hy)) hs.2]
    rfl
theorem sanitMembers_id : ∀ ms : List (String × JSON), (∀ kv ∈ ms, Canon kv.2) →
    allStrMembers NoHit ms → sanitMembers ms = some ms
  | [], _, _ => rfl
  | (k, v) :: ms, hc, hs => by
    rw [allStrMembers] at hs
    have hk : hitStr k.data = none := hs.1
    rw [sanitMembers, hk, hitValue_of_allStr v hs.2.1,
      sanit_id v (hc (k, v) (List.mem_cons_self _ _)) hs.2.1,
      sanitMembers_id ms (fun y hy => hc y (List.mem_cons_of_mem _ hy)) hs.2.2]
    rfl
end

theorem hitStr_placeholder (s pre ph : List Char) (h : hitStr s = some (pre, ph)) :
    hitStr ph = none := by
  unfold hitStr at h
  cases h1 : patchStr "tool_use".data s with
  | some p =>
    rw [h1] at h
    simp only [Option.some.injEq, Prod.mk.injEq] at h
    rw [← h.2]
    rfl
  | none =>
    rw [h1] at h
    cases h2 : patchStr "tool_result".data s with
    | some p =>
      rw [h2] at h
      simp only [Option.some.injEq, Prod.mk.injEq] at h
      rw [← h.2]
      rfl
    | none => rw [h2] at h; simp at h

/-- No string token of the patched text is rewritten by `patchText`. -/
theorem mem_patchTok_str (t : Token) (s : String) (h : Token.str s ∈ patchTok t) :
    NoHit s := by
  cases t with
  | str x =>
    simp only [patchTok] at h
    cases hx : hitStr x.data with
    | none =>
      rw [hx] at h
      simp only [List.mem_singleton, Token.str.injEq] at h
      rw [h]
      exact hx
    | some p =>
      obtain ⟨pre, ph⟩ := p
      rw [hx] at h
      simp only [List.mem_cons, Token.str.injEq, reduceCtorEq, List.mem_singleton, false_or,
        List.not_mem_nil, or_false] at h
      rcases h with h | h | h
      · rw [h]; exact hitStr_text pre
      · rw [h]; rfl
      · rw [h]; exact hitStr_placeholder _ _ _ hx
  | _ => simp [patchTok] at h

/-- What `ConvertToolTypesToText` returns was decoded from the patched text. -/
theorem convert_parse (input : GoMap Value) (output : GoMap JSON)
    (h : ConvertToolTypesToText input = .ok output) :
    parse (patchText (marshalPayload input)) = some (.obj output) := by
  unfold ConvertToolTypesToText unmarshalMap at h
  simp only [] at h
  cases hp : parse (patchText (marshalPayload input)) with
  | none => rw [hp] at h; simp at h
  | some v =>
    rw [hp] at h
    cases v with
    | obj m =>
      simp only [Except.ok.injEq] at h
      rw [h]
    | null =>
      unfold marshalPayload at hp
      rw [parse_patchText (.obj (input.map fun kv => (kv.1, kv.2.toJSON))) rfl, JSON.sanit] at hp
      cases hs : sanitMembers (input.map fun kv => (kv.1, kv.2.toJSON)) with
      | none => rw [hs] at hp; simp at hp
      | some l => rw [hs] at hp; simp at hp
    | bool b => simp at h
    | num n => simp at h
    | str s => simp at h
    | arr xs => simp at h

/-- What `ConvertToolTypesToText` returns is a value of the decoder in which no string,
key or value, is rewritten by `patchText`. -/
theorem convert_output (input : GoMap Value) (output : GoMap JSON)
    (h : ConvertToolTypesToText input = .ok output) :
    Canon (.obj output) ∧ (JSON.obj output).AllStr NoHit := by
  have hp := convert_parse input output h
  refine ⟨parse_canon _ _ hp, ?_⟩
  obtain ⟨ts, hlex, hall⟩ := parse_allStr NoHit _ _ hp
  apply hall
  intro s hs
  unfold marshalPayload at hlex
  rw [lex_patchText_marshal] at hlex
  simp only [Option.some.injEq] at hlex
  rw [← hlex] at hs
  obtain ⟨t, _, ht⟩ := List.mem_flatMap.mp hs
  exact mem_patchTok_str t s ht

theorem map_json_toJSON (m : GoMap JSON) :
    ((m.map fun kv => (kv.1, Value.json kv.2)).map fun kv => (kv.1, kv.2.toJSON)) = m := by
  rw [List.map_map]
  conv_rhs => rw [← List.map_id m]
  apply List.map_congr_left
  intro kv _
  rfl

mutual
theorem tokens_strings (P : String → Prop) : ∀ v : JSON, v.AllStr P →
    ∀ s, Token.str s ∈ v.tokens → P s
  | .null, _, s, hs => by simp [JSON.tokens] at hs
  | .bool true, _, s, hs => by simp [JSON.tokens] at hs
  | .bool false, _, s, hs => by simp [JSON.tokens] at hs
  | .num _, _, s, hs => by simp [JSON.tokens] at hs
  | .str x, h, s, hs => by
    simp only [JSON.tokens, List.mem_singleton, Token.str.injEq] at hs
    rw [JSON.AllStr] at h
    rw [hs]; exact h
  | .arr xs, h, s, hs => by
    rw [JSON.AllStr] at h
    simp only [JSON.tokens, List.mem_cons, reduceCtorEq, List.mem_append, List.mem_singleton,
      false_or, or_false, List.not_mem_nil] at hs
    exact elemTokens_strings P xs h s hs
  | .obj ms, h, s, hs => by
    rw [JSON.AllStr] at h
    simp only [JSON.tokens, List.mem_cons, reduceCtorEq, List.mem_append, List.mem_singleton,
      false_or, or_false, List.not_mem_nil] at hs
    exact memberTokens_strings P ms h s hs
theorem elemTokens_strings (P : String → Prop) : ∀ xs : List JSON, allStrList P xs →
    ∀ s, Token.str s ∈ elemTokens xs → P s
  | [], _, s, hs => by simp [elemTokens] at hs
  | [x], h, s, hs => by
    rw [elemTokens] at hs
    rw [allStrList] at h
    exact tokens_strings P x h.1 s hs
  | x :: y :: xs, h, s, hs => by
    rw [elemTokens] at hs
    rw [allStrList] at h
    simp only [List.mem_append, List.mem_cons, reduceCtorEq, false_or] at hs
    rcases hs with hs | hs
    · exact tokens_strings P x h.1 s hs
    · exact elemTokens_strings P (y :: xs) h.2 s hs
theorem memberTokens_strings (P : String → Prop) : ∀ ms : List (String × JSON),
    allStrMembers P ms → ∀ s, Token.str s ∈ memberTokens ms → P s
  | [], _, s, hs => by simp [memberTokens] at hs
  | [(k, v)], h, s, hs => by
    rw [memberTokens] at hs
    rw [allStrMembers] at h
    simp only [List.mem_cons, Token.str.injEq, reduceCtorEq, false_or] at hs
    rcases hs with hs | hs
    · rw [hs]; exact h.1
    · exact tokens_strings P v h.2.1 s hs
  | (k, v) :: kv :: ms, h, s, hs => by
    rw [memberTokens] at hs
    rw [allStrMembers] at h
    simp only [List.cons_append, List.mem_cons, Token.str.injEq, reduceCtorEq, false_or,
      List.mem_append] at hs
    rcases hs with hs | hs | hs
    · rw [hs]; exact h.1
    · exact tokens_strings P v h.2.1 s hs
    · exact memberTokens_strings P (kv :: ms) h.2.2 s hs
end

theorem flatMap_patchBoth_id : ∀ ts : List Token, (∀ s, Token.str s ∈ ts → NoHit s) →
    (ts.map Piece.tok).flatMap patchBoth = ts.map Piece.tok
  | [], _ => rfl
  | t :: ts, h => by
    rw [List.map_cons, List.flatMap_cons,
      flatMap_patchBoth_id ts (fun s hs => h s (List.mem_cons_of_mem _ hs))]
    have : patchBoth (.tok t) = [.tok t] := by
      cases t with
      | str s =>
        rw [patchBoth_str]
        have hs : hitStr s.data = none := h s (List.mem_cons_self _ _)
        rw [hs]
      | _ => rfl
    rw [this]
    rfl

/-- The two calls of `strings.ReplaceAll` leave the text of a value without rewritten
strings as it is. -/
theorem patchText_fixed (v : JSON) (h : v.AllStr NoHit) :
    patchText (marshal v) = marshal v := by
  unfold marshal
  rw [renderTokens_eq, patchText_patchBoth, flatMap_patchBoth_id _ (tokens_strings NoHit v h)]


/-! ## Running the sanitation pass twice -/

/-- C12: when `ConvertToolTypesToText` succeeds with a payload, it succeeds on that
payload and returns it; the two replacements leave the text of that payload unchanged. -/
theorem sanitation_idempotent (input : GoMap Value) (output : GoMap JSON)
    (h : ConvertToolTypesToText input = .ok output) :
    ConvertToolTypesToText (output.map fun kv => (kv.1, Value.json kv.2)) = .ok output ∧
    patchText (marshal (.obj output)) = marshal (.obj output) := by
  obtain ⟨hc, hs⟩ := convert_output input output h
  refine ⟨?_, patchText_fixed _ hs⟩
  unfold ConvertToolTypesToText unmarshalMap marshalPayload
  simp only []
  rw [map_json_toJSON, parse_patchText (.obj output) rfl, sanit_id _ hc hs]

/-- C12, at a payload with a pass-through object of type `tool_use`. -/
theorem sanitation_idempotent_witness :
    ConvertToolTypesToText taggedResult = .ok taggedOutput ∧
    ConvertToolTypesToText (taggedOutput.map fun kv => (kv.1, Value.json kv.2)) =
      .ok taggedOutput ∧
    patchText (marshal (.obj taggedOutput)) = marshal (.obj taggedOutput) :=
  ⟨rfl, sanitation_idempotent taggedResult taggedOutput rfl⟩

/-! ## Where the textual pass puts a rewritten member -/

theorem sanitMembers_cons (k : String) (v : JSON) (ms l : List (String × JSON))
    (h : sanitMembers ((k, v) :: ms) = some l) :
    ∃ l1, sanitMembers ms = some l1 ∧
      ((∃ s1 ph, hitValue v = some (s1, ph) ∧ l = (k, .str s1) :: ("text", .str ph) :: l1) ∨
       (hitValue v = none ∧ ∃ v1, v.sanit = some v1 ∧ l = (k, v1) :: l1)) := by
  rw [sanitMembers] at h
  split at h
  · simp at h
  · cases hv : hitValue v with
    | some p =>
      obtain ⟨s1, ph⟩ := p
      rw [hv] at h
      simp only [Option.map_eq_some'] at h
      obtain ⟨l1, h1, h2⟩ := h
      exact ⟨l1, h1, Or.inl ⟨s1, ph, rfl, h2.symm⟩⟩
    | none =>
      rw [hv] at h
      simp only at h
      cases hs : v.sanit with
      | none => rw [hs] at h; simp at h
      | some v1 =>
        cases hm : sanitMembers ms with
        | none => rw [hs, hm] at h; simp at h
        | some l1 =>
          rw [hs, hm] at h
          simp only [Option.some.injEq] at h
          exact ⟨l1, rfl, Or.inr ⟨rfl, v1, rfl, h.symm⟩⟩

/-- The names of the decoded members are the names written, and `text`. -/
theorem sanitMembers_keys : ∀ (ms l : List (String × JSON)), sanitMembers ms = some l →
    ∀ kv ∈ l, kv.1 = "text" ∨ kv.1 ∈ ms.map Prod.fst
  | [], l, h, kv, hkv => by
    rw [sanitMembers] at h
    simp only [Option.some.injEq] at h
    rw [← h] at hkv
    simp at hkv
  | (k, v) :: ms, l, h, kv, hkv => by
    obtain ⟨l1, h1, h2⟩ := sanitMembers_cons k v ms l h
    have ih := sanitMembers_keys ms l1 h1 kv
    rcases h2 with ⟨s1, ph, _, hl⟩ | ⟨_, v1, _, hl⟩
    · rw [hl] at hkv
      simp only [List.mem_cons] at hkv
      rcases hkv with e | e | e
      · right; rw [e]; simp
      · left; rw [e]
      · rcases ih e with e1 | e1
        · exact Or.inl e1
        · right; simp only [List.map_cons, List.mem_cons]; exact Or.inr e1
    · rw [hl] at hkv
      simp only [List.mem_cons] at hkv
      rcases hkv with e | e
      · right; rw [e]; simp
      · rcases ih e with e1 | e1
        · exact Or.inl e1
        · right; simp only [List.map_cons, List.mem_cons]; exact Or.inr e1

/-- Without a rewritten member, the names of the decoded members are the names written. -/
theorem sanitMembers_keys_plain : ∀ (ms l : List (String × JSON)), sanitMembers ms = some l →
    (∀ kv ∈ ms, hitValue kv.2 = none) → ∀ kv ∈ l, kv.1 ∈ ms.map Prod.fst
  | [], l, h, _, kv, hkv => by
    rw [sanitMembers] at h
    simp only [Option.some.injEq] at h
    rw [← h] at hkv
    simp at hkv
  | (k, v) :: ms, l, h, hn, kv, hkv => by
    obtain ⟨l1, h1, h2⟩ := sanitMembers_cons k v ms l h
    have ih := sanitMembers_keys_plain ms l1 h1
      (fun x hx => hn x (List.mem_cons_of_mem _ hx)) kv
    rcases h2 with ⟨s1, ph, hv, _⟩ | ⟨_, v1, _, hl⟩
    · have := hn (k, v) (List.mem_cons_self _ _)
      simp only at this
      rw [this] at hv
      simp at hv
    · rw [hl] at hkv
      simp only [List.mem_cons] at hkv
      rcases hkv with e | e
      · rw [e]; simp
      · simp only [List.map_cons, List.mem_cons]; exact Or.inr (ih e)

theorem lookup_foldl_other (K : String) : ∀ (l m : GoMap JSON), (∀ kv ∈ l, kv.1 ≠ K) →
    GoMap.lookup K (l.foldl (fun m kv => GoMap.insert kv.1 kv.2 m) m) = GoMap.lookup K m
  | [], _, _ => rfl
  | kv :: l, m, h => by
    rw [List.foldl_cons, lookup_foldl_other K l _ (fun x hx => h x (List.mem_cons_of_mem _ hx)),
      lookup_insert]
    have h1 : K ≠ kv.1 := fun e => h kv (List.mem_cons_self _ _) e.symm
    simp [h1]

theorem membersAfter_subset (k : String) : ∀ (ms : List (String × JSON)),
    ∀ kv ∈ membersAfter k ms, kv ∈ ms
  | [], kv, h => by simp [membersAfter] at h
  | (k1, v1) :: ms, kv, h => by
    rw [membersAfter] at h
    by_cases e : k = k1
    · rw [if_pos e] at h
      exact List.mem_cons_of_mem _ h
    · rw [if_neg e] at h
      exact List.mem_cons_of_mem _ (membersAfter_subset k ms kv h)

/-- A member that `patchText` leaves alone is decoded at its name, unless it is named
`text` and a later member is rewritten. -/
theorem lookup_sanit_plain (k : String) (c : JSON) : ∀ (ms l : List (String × JSON))
    (m : GoMap JSON), sanitMembers ms = some l → (ms.map Prod.fst).Nodup →
    GoMap.lookup k ms = some c → hitValue c = none →
    (k = "text" → ∀ kv ∈ membersAfter k ms, hitValue kv.2 = none) →
    ∃ c1, c.sanit = some c1 ∧
      GoMap.lookup k (l.foldl (fun m kv => GoMap.insert kv.1 kv.2 m) m) = some c1
  | [], _, _, _, _, hk, _, _ => by simp [GoMap.lookup] at hk
  | (k0, v0) :: ms, l, m, h, hnd, hk, hc, ht => by
    obtain ⟨l1, h1, h2⟩ := sanitMembers_cons k0 v0 ms l h
    simp only [List.map_cons, List.nodup_cons] at hnd
    rw [GoMap.lookup] at hk
    rw [membersAfter] at ht
    by_cases e : k = k0
    · rw [if_pos e] at hk ht
      simp only [Option.some.injEq] at hk
      subst hk
      subst e
      rcases h2 with ⟨s1, ph, hv, _⟩ | ⟨_, v1, hs, hl⟩
      · rw [hc] at hv; simp at hv
      · refine ⟨v1, hs, ?_⟩
        rw [hl, List.foldl_cons]
        have hno : ∀ kv ∈ l1, kv.1 ≠ k := by
          intro kv hkv e1
          by_cases et : k = "text"
          · have := sanitMembers_keys_plain ms l1 h1 (ht et) kv hkv
            rw [e1] at this
            exact hnd.1 this
          · rcases sanitMembers_keys ms l1 h1 kv hkv with e2 | e2
            · exact et (e1.symm.trans e2)
            · rw [e1] at e2
              exact hnd.1 e2
        rw [lookup_foldl_other k l1 _ hno, lookup_insert]
        simp
    · rw [if_neg e] at hk ht
      have hstep : ∀ m1, ∃ c1, c.sanit = some c1 ∧
          GoMap.lookup k (l1.foldl (fun m kv => GoMap.insert kv.1 kv.2 m) m1) = some c1 :=
        fun m1 => lookup_sanit_plain k c ms l1 m1 h1 hnd.2 hk hc ht
      rcases h2 with ⟨s1, ph, _, hl⟩ | ⟨_, v1, _, hl⟩
      · rw [hl, List.foldl_cons, List.foldl_cons]
        exact hstep _
      · rw [hl, List.foldl_cons]
        exact hstep _

/-- Once the member `text` holds a placeholder, it holds it to the end of the object when
no later member is named `text` or rewritten with the other placeholder. -/
theorem lookup_text_kept (ph : String) : ∀ (ms l : List (String × JSON)) (m : GoMap JSON),
    sanitMembers ms = some l → GoMap.lookup "text" m = some (.str ph) →
    (∀ kv ∈ ms, kv.1 ≠ "text" ∧ ∀ q, hitValue kv.2 = some q → q.2 = ph) →
    GoMap.lookup "text" (l.foldl (fun m kv => GoMap.insert kv.1 kv.2 m) m) = some (.str ph)
  | [], l, m, h, hm, _ => by
    rw [sanitMembers] at h
    simp only [Option.some.injEq] at h
    rw [← h]
    exact hm
  | (k0, v0) :: ms, l, m, h, hm, hall => by
    obtain ⟨l1, h1, h2⟩ := sanitMembers_cons k0 v0 ms l h
    have h0 := hall (k0, v0) (List.mem_cons_self _ _)
    have hne : ("text" : String) ≠ k0 := fun e => h0.1 e.symm
    have hrest := fun m1 hm1 => lookup_text_kept ph ms l1 m1 h1 hm1
      (fun kv hkv => hall kv (List.mem_cons_of_mem _ hkv))
    rcases h2 with ⟨s1, p1, hv, hl⟩ | ⟨_, v1, _, hl⟩
    · have hp : p1 = ph := h0.2 (s1, p1) hv
      rw [hl, List.foldl_cons, List.foldl_cons]
      apply hrest
      rw [lookup_insert, hp]
      simp
    · rw [hl, List.foldl_cons]
      apply hrest
      rw [lookup_insert, if_neg hne]
      exact hm

/-- A rewritten member is decoded with its rewritten value, and the member `text` next to
it with the placeholder, unless later members take their place. -/
theorem lookup_sanit_hit (k : String) (c : JSON) (s1 ph : String) :
    ∀ (ms l : List (String × JSON)) (m : GoMap JSON), sanitMembers ms = some l →
    (ms.map Prod.fst).Nodup → GoMap.lookup k ms = some c → hitValue c = some (s1, ph) →
    k ≠ "text" →
    (∀ kv ∈ membersAfter k ms, kv.1 ≠ "text" ∧ ∀ q, hitValue kv.2 = some q → q.2 = ph) →
    GoMap.lookup k (l.foldl (fun m kv => GoMap.insert kv.1 kv.2 m) m) = some (.str s1) ∧
    GoMap.lookup "text" (l.foldl (fun m kv => GoMap.insert kv.1 kv.2 m) m) = some (.str ph)
  | [], _, _, _, _, hk, _, _, _ => by simp [GoMap.lookup] at hk
  | (k0, v0) :: ms, l, m, h, hnd, hk, hc, hkt, ht => by
    obtain ⟨l1, h1, h2⟩ := sanitMembers_cons k0 v0 ms l h
    simp only [List.map_cons, List.nodup_cons] at hnd
    rw [GoMap.lookup] at hk
    rw [membersAfter] at ht
    by_cases e : k = k0
    · rw [if_pos e] at hk ht
      simp only [Option.some.injEq] at hk
      subst hk
      subst e
      rcases h2 with ⟨s2, p2, hv, hl⟩ | ⟨hv, _⟩
      · rw [hc] at hv
        simp only [Option.some.injEq, Prod.mk.injEq] at hv
        rw [hl, List.foldl_cons, List.foldl_cons, ← hv.1, ← hv.2]
        have hno : ∀ kv ∈ l1, kv.1 ≠ k := by
          intro kv hkv e1
          rcases sanitMembers_keys ms l1 h1 kv hkv with e2 | e2
          · exact hkt (e1.symm.trans e2)
          · rw [e1] at e2
            exact hnd.1 e2
        constructor
        · rw [lookup_foldl_other k l1 _ hno, lookup_insert, if_neg hkt, lookup_insert]
          simp
        · apply lookup_text_kept ph ms l1 _ h1 _ ht
          rw [lookup_insert]
          simp
      · rw [hc] at hv; simp at hv
    · rw [if_neg e] at hk ht
      have hstep := fun m1 => lookup_sanit_hit k c s1 ph ms l1 m1 h1 hnd.2 hk hc hkt ht
      rcases h2 with ⟨s2, p2, _, hl⟩ | ⟨_, v1, _, hl⟩
      · rw [hl, List.foldl_cons, List.foldl_cons]
        exact hstep _
      · rw [hl, List.foldl_cons]
        exact hstep _

theorem sanitElems_get : ∀ (xs ys : List JSON), sanitElems xs = some ys →
    ∀ (i : Nat) (c : JSON), xs.get? i = some c →
      ∃ c1, c.sanit = some c1 ∧ ys.get? i = some c1
  | [], _, _, i, c, hc => by simp at hc
  | x :: xs, ys, h, i, c, hc => by
    rw [sanitElems] at h
    split at h
    · simp at h
    · cases hx : x.sanit with
      | none => rw [hx] at h; simp at h
      | some x1 =>
        cases hxs : sanitElems xs with
        | none => rw [hx, hxs] at h; simp at h
        | some xs1 =>
          rw [hx, hxs] at h
          simp only [Option.some.injEq] at h
          rw [← h]
          cases i with
          | zero =>
            simp only [List.get?_cons_zero, Option.some.injEq] at hc
            rw [← hc]
            exact ⟨x1, hx, rfl⟩
          | succ j =>
            simp only [List.get?_cons_succ] at hc
            obtain ⟨c1, h1, h2⟩ := sanitElems_get xs xs1 hxs j c hc
            exact ⟨c1, h1, by simpa using h2⟩

theorem distinctElems_get : ∀ (xs : List JSON), distinctElems xs →
    ∀ (i : Nat) (c : JSON), xs.get? i = some c → c.Distinct
  | [], _, i, c, hc => by simp at hc
  | x :: xs, h, i, c, hc => by
    rw [distinctElems] at h
    cases i with
    | zero =>
      simp only [List.get?_cons_zero, Option.some.injEq] at hc
      rw [← hc]
      exact h.1
    | succ j =>
      simp only [List.get?_cons_succ] at hc
      exact distinctElems_get xs h.2 j c hc

theorem distinctMembers_lookup (k : String) (c : JSON) : ∀ (ms : List (String × JSON)),
    distinctMembers ms → GoMap.lookup k ms = some c → c.Distinct
  | [], _, hk => by simp [GoMap.lookup] at hk
  | (k0, v0) :: ms, h, hk => by
    rw [distinctMembers] at h
    rw [GoMap.lookup] at hk
    by_cases e : k = k0
    · rw [if_pos e] at hk
      simp only [Option.some.injEq] at hk
      rw [← hk]
      exact h.1
    · rw [if_neg e] at hk
      exact distinctMembers_lookup k c ms h.2 hk

theorem hitValue_of_valueAt (c o : JSON) (p : List Step) (h : c.valueAt p = some o)
    (ho : hitValue o = none) : hitValue c = none := by
  cases c with
  | str s =>
    cases p with
    | nil =>
      simp only [JSON.valueAt, Option.some.injEq] at h
      rw [h]
      exact ho
    | cons st p => simp [JSON.valueAt, JSON.child] at h
  | _ => rfl

/-- The decoded payload has, at a place of the payload, what the textual pass makes of the
value there, when no object on the way loses its member `text` to a placeholder. -/
theorem sanit_valueAt : ∀ (p : List Step) (v w o : JSON), v.Distinct → v.Clear p →
    v.sanit = some w → v.valueAt p = some o → hitValue o = none →
    o.Distinct ∧ ∃ o1, o.sanit = some o1 ∧ w.valueAt p = some o1
  | [], v, w, o, hd, _, hs, hat, _ => by
    simp only [JSON.valueAt, Option.some.injEq] at hat
    rw [← hat]
    exact ⟨hd, w, hs, rfl⟩
  | st :: p, v, w, o, hd, hc, hs, hat, ho => by
    rw [JSON.valueAt] at hat
    cases hch : v.child st with
    | none => rw [hch] at hat; simp at hat
    | some c =>
      rw [hch] at hat
      simp only at hat
      have hcn := hitValue_of_valueAt c o p hat ho
      cases v with
      | obj ms =>
        cases st with
        | idx i => simp [JSON.child] at hch
        | key k =>
          simp only [JSON.child] at hch
          rw [JSON.Clear, hch] at hc
          rw [JSON.Distinct] at hd
          rw [JSON.sanit] at hs
          simp only [Option.map_eq_some'] at hs
          obtain ⟨l, hl, hw⟩ := hs
          obtain ⟨c1, hc1, hlk⟩ := lookup_sanit_plain k c ms l [] hl hd.1 hch hcn hc.1
          obtain ⟨hod, o1, ho1, hat1⟩ := sanit_valueAt p c c1 o
            (distinctMembers_lookup k c ms hd.2 hch) hc.2 hc1 hat ho
          refine ⟨hod, o1, ho1, ?_⟩
          rw [← hw, JSON.valueAt]
          simp only [JSON.child]
          rw [hlk]
          exact hat1
      | arr xs =>
        cases st with
        | key k => simp [JSON.child] at hch
        | idx i =>
          simp only [JSON.child] at hch
          rw [JSON.Clear, hch] at hc
          rw [JSON.Distinct] at hd
          rw [JSON.sanit] at hs
          simp only [Option.map_eq_some'] at hs
          obtain ⟨ys, hys, hw⟩ := hs
          obtain ⟨c1, hc1, hget⟩ := sanitElems_get xs ys hys i c hch
          obtain ⟨hod, o1, ho1, hat1⟩ := sanit_valueAt p c c1 o
            (distinctElems_get xs hd i c hch) hc hc1 hat ho
          refine ⟨hod, o1, ho1, ?_⟩
          rw [← hw, JSON.valueAt]
          simp only [JSON.child]
          rw [hget]
          exact hat1
      | null => simp [JSON.child] at hch
      | bool b => simp [JSON.child] at hch
      | num n => simp [JSON.child] at hch
      | str s => simp [JSON.child] at hch

/-- The general form of the rewriting of a tagged member, for any payload whose objects
have pairwise distinct member names. -/
theorem convert_tagged_member (input : GoMap Value) (output : GoMap JSON) (p : List Step)
    (ms : List (String × JSON)) (k : String) (c : JSON) (s1 ph : String)
    (h : ConvertToolTypesToText input = .ok output)
    (hd : (JSON.obj (input.map fun kv => (kv.1, kv.2.toJSON))).Distinct)
    (hc : (JSON.obj (input.map fun kv => (kv.1, kv.2.toJSON))).Clear p)
    (hat : (JSON.obj (input.map fun kv => (kv.1, kv.2.toJSON))).valueAt p = some (.obj ms))
    (hk : GoMap.lookup k ms = some c) (hv : hitValue c = some (s1, ph))
    (hkt : k ≠ "text")
    (hafter : ∀ kv ∈ membersAfter k ms,
      kv.1 ≠ "text" ∧ ∀ q, hitValue kv.2 = some q → q.2 = ph) :
    ∃ m1, (JSON.obj output).valueAt p = some (.obj m1) ∧
      GoMap.lookup k m1 = some (.str s1) ∧ GoMap.lookup "text" m1 = some (.str ph) := by
  have hp := convert_parse input output h
  unfold marshalPayload at hp
  rw [parse_patchText (.obj (input.map fun kv => (kv.1, kv.2.toJSON))) rfl] at hp
  obtain ⟨hod, o1, ho1, hat1⟩ := sanit_valueAt p _ _ _ hd hc hp hat rfl
  rw [JSON.Distinct] at hod
  rw [JSON.sanit] at ho1
  simp only [Option.map_eq_some'] at ho1
  obtain ⟨l, hl, hw⟩ := ho1
  refine ⟨_, ?_, lookup_sanit_hit k c s1 ph ms l [] hl hod.1 hk hv hkt hafter⟩
  rw [hat1, ← hw]

/-! ## Member names in an assembled payload -/

theorem keysSorted_nodup {α : Type} (m : GoMap α) (h : KeysSorted m) :
    (m.map Prod.fst).Nodup := by
  unfold KeysSorted at h
  refine List.Pairwise.imp ?_ h
  intro a b hab e
  rw [e, keyLt_irrefl] at hab
  exact Bool.noConfusion hab

theorem distinctElems_of_forall : ∀ xs : List JSON, (∀ x ∈ xs, x.Distinct) →
    distinctElems xs
  | [], _ => by simp [distinctElems]
  | x :: xs, h => by
    rw [distinctElems]
    exact ⟨h x (List.mem_cons_self _ _),
      distinctElems_of_forall xs (fun y hy => h y (List.mem_cons_of_mem _ hy))⟩

theorem distinctMembers_of_forall : ∀ ms : List (String × JSON),
    (∀ kv ∈ ms, kv.2.Distinct) → distinctMembers ms
  | [], _ => by simp [distinctMembers]
  | (k, v) :: ms, h => by
    rw [distinctMembers]
    exact ⟨h (k, v) (List.mem_cons_self _ _),
      distinctMembers_of_forall ms (fun y hy => h y (List.mem_cons_of_mem _ hy))⟩

mutual
/-- The objects of a value of the decoder have pairwise distinct member names. -/
theorem canon_distinct : ∀ v : JSON, Canon v → v.Distinct
  | .null, _ => by simp [JSON.Distinct]
  | .bool _, _ => by simp [JSON.Distinct]
  | .num _, _ => by simp [JSON.Distinct]
  | .str _, _ => by simp [JSON.Distinct]
  | .arr xs, hc => by
    cases hc with
    | arr _ h1 =>
      rw [JSON.Distinct]
      exact canonElems_distinct xs h1
  | .obj ms, hc => by
    cases hc with
    | obj _ h1 h2 =>
      rw [JSON.Distinct]
      exact ⟨keysSorted_nodup ms h1, canonMembers_distinct ms h2⟩
theorem canonElems_distinct : ∀ xs : List JSON, (∀ x ∈ xs, Canon x) → distinctElems xs
  | [], _ => by simp [distinctElems]
  | x :: xs, h => by
    rw [distinctElems]
    exact ⟨canon_distinct x (h x (List.mem_cons_self _ _)),
      canonElems_distinct xs (fun y hy => h y (List.mem_cons_of_mem _ hy))⟩
theorem canonMembers_distinct : ∀ ms : List (String × JSON), (∀ kv ∈ ms, Canon kv.2) →
    distinctMembers ms
  | [], _ => by simp [distinctMembers]
  | (k, v) :: ms, h => by
    rw [distinctMembers]
    exact ⟨canon_distinct v (h (k, v) (List.mem_cons_self _ _)),
      canonMembers_distinct ms (fun y hy => h y (List.mem_cons_of_mem _ hy))⟩
end

theorem mapJSON_distinct (m : Option (GoMap JSON)) (h : ∀ x, m = some x → CanonMap x) :
    (mapJSON m).Distinct := by
  cases m with
  | none => simp [mapJSON, JSON.Distinct]
  | some x =>
    have hx := h x rfl
    exact canon_distinct _ (.obj x hx.1 hx.2)

theorem foldl_inv {α β : Type} (P : β → Prop) (Q : α → Prop) (f : β → α → β)
    (hf : ∀ b a, P b → Q a → P (f b a)) : ∀ (l : List α) (b : β), P b → (∀ a ∈ l, Q a) →
    P (l.foldl f b)
  | [], _, hb, _ => hb
  | a :: l, b, hb, hl => by
    rw [List.foldl_cons]
    exact foldl_inv P Q f hf l _ (hf b a hb (hl a (List.mem_cons_self _ _)))
      (fun x hx => hl x (List.mem_cons_of_mem _ hx))

theorem canon_members (ms : List (String × JSON)) (h : Canon (.obj ms)) :
    ∀ kv ∈ ms, Canon kv.2 := by
  cases h with
  | obj _ _ h2 => exact h2

theorem canon_elems (xs : List JSON) (h : Canon (.arr xs)) : ∀ x ∈ xs, Canon x := by
  cases h with
  | arr _ h1 => exact h1

/-- A map field decoded from a value of the decoder is a Go map of such values. -/
theorem decodeMap_canon (cur : Option (GoMap JSON)) (v : JSON)
    (hcur : ∀ x, cur = some x → CanonMap x) (hv : Canon v) :
    ∀ x, decodeMap cur v = some x → CanonMap x := by
  intro x hx
  cases v with
  | obj ms =>
    simp only [decodeMap, Option.some.injEq] at hx
    rw [← hx]
    apply foldl_inv CanonMap (fun kv => Canon kv.2) _
      (fun b a hb ha => canonMap_insert a.1 a.2 b hb ha) ms _ _ (canon_members ms hv)
    cases cur with
    | none => exact canonMap_nil
    | some c => exact hcur c rfl
  | null => simp [decodeMap] at hx
  | bool b => exact hcur x hx
  | num n => exact hcur x hx
  | str s => exact hcur x hx
  | arr xs => exact hcur x hx

theorem decodeElems_all {α : Type} (P : α → Prop) (zero : α) (dec : α → JSON → α)
    (hz : P zero) (hdec : ∀ c x, P c → Canon x → P (dec c x)) :
    ∀ (cur : List α) (xs : List JSON), (∀ c ∈ cur, P c) → (∀ x ∈ xs, Canon x) →
      ∀ y ∈ decodeElems zero dec cur xs, P y
  | _, [], _, _, y, hy => by
    rw [decodeElems] at hy
    simp at hy
  | [], x :: xs, hc, hx, y, hy => by
    rw [decodeElems] at hy
    rcases List.mem_cons.mp hy with e | e
    · rw [e]; exact hdec _ _ hz (hx x (List.mem_cons_self _ _))
    · exact decodeElems_all P zero dec hz hdec [] xs hc
        (fun z hz1 => hx z (List.mem_cons_of_mem _ hz1)) y e
  | c :: cs, x :: xs, hc, hx, y, hy => by
    rw [decodeElems] at hy
    rcases List.mem_cons.mp hy with e | e
    · rw [e]
      exact hdec _ _ (hc c (List.mem_cons_self _ _)) (hx x (List.mem_cons_self _ _))
    · exact decodeElems_all P zero dec hz hdec cs xs
        (fun z hz1 => hc z (List.mem_cons_of_mem _ hz1))
        (fun z hz1 => hx z (List.mem_cons_of_mem _ hz1)) y e

theorem decodeSlice_all {α : Type} (P : α → Prop) (zero : α) (dec : α → JSON → α)
    (hz : P zero) (hdec : ∀ c x, P c → Canon x → P (dec c x)) (cur : List α) (v : JSON)
    (hc : ∀ c ∈ cur, P c) (hv : Canon v) : ∀ y ∈ decodeSlice zero dec cur v, P y := by
  cases v with
  | arr xs => exact decodeElems_all P zero dec hz hdec cur xs hc (canon_elems xs hv)
  | null => intro y hy; simp [decodeSlice] at hy
  | bool b => exact hc
  | num n => exact hc
  | str s => exact hc
  | obj ms => exact hc

theorem decodeOriginalTool_canon (cur : OriginalTool) (v : JSON)
    (hcur : ∀ x, cur.InputSchema = some x → CanonMap x) (hv : Canon v) :
    ∀ x, (decodeOriginalTool cur v).InputSchema = some x → CanonMap x := by
  cases v with
  | obj ms =>
    simp only [decodeOriginalTool]
    apply foldl_inv (fun c : OriginalTool => ∀ x, c.InputSchema = some x → CanonMap x)
      (fun kv => Canon kv.2) _ _ ms cur hcur (canon_members ms hv)
    intro c kv hc hkv
    split
    · exact hc
    · split
      · exact hc
      · split
        · exact decodeMap_canon _ _ hc hkv
        · exact hc
  | null => exact hcur
  | bool b => exact hcur
  | num n => exact hcur
  | str s => exact hcur
  | arr xs => exact hcur

theorem decodeOriginalContent_canon (cur : OriginalContent) (v : JSON)
    (hcur : ∀ x, cur.Input = some x → CanonMap x) (hv : Canon v) :
    ∀ x, (decodeOriginalContent cur v).Input = some x → CanonMap x := by
  cases v with
  | obj ms =>
    simp only [decodeOriginalContent]
    apply foldl_inv (fun c : OriginalContent => ∀ x, c.Input = some x → CanonMap x)
      (fun kv => Canon kv.2) _ _ ms cur hcur (canon_members ms hv)
    intro c kv hc hkv
    split
    · exact hc
    · split
      · exact hc
      · split
        · exact hc
        · split
          · exact decodeMap_canon _ _ hc hkv
          · split
            · exact hc
            · split
              · exact hc
              · split
                · exact hc
                · exact hc
  | null => exact hcur
  | bool b => exact hcur
  | num n => exact hcur
  | str s => exact hcur
  | arr xs => exact hcur

theorem decodeOriginalMessage_canon (cur : OriginalMessage) (v : JSON)
    (hcur : ∀ c ∈ cur.Content, ∀ x, c.Input = some x → CanonMap x) (hv : Canon v) :
    ∀ c ∈ (decodeOriginalMessage cur v).Content, ∀ x, c.Input = some x → CanonMap x := by
  cases v with
  | obj ms =>
    simp only [decodeOriginalMessage]
    apply foldl_inv
      (fun m : OriginalMessage => ∀ c ∈ m.Content, ∀ x, c.Input = some x → CanonMap x)
      (fun kv => Canon kv.2) _ _ ms cur hcur (canon_members ms hv)
    intro m kv hm hkv
    split
    · exact decodeSlice_all (fun c : OriginalContent => ∀ x, c.Input = some x → CanonMap x)
        _ _ (fun x hx => by simp at hx) decodeOriginalContent_canon _ _ hm hkv
    · split
      · exact hm
      · exact hm
  | null => exact hcur
  | bool b => exact hcur
  | num n => exact hcur
  | str s => exact hcur
  | arr xs => exact hcur

/-- The map fields of a decoded request are Go maps of values of the decoder. -/
theorem unmarshal_canon (body : List Char) (payload : ProxyPayload)
    (h : UnmarshalJSON body = .ok payload) :
    (∀ t ∈ payload.Tools, ∀ x, t.InputSchema = some x → CanonMap x) ∧
    (∀ m ∈ payload.Messages, ∀ c ∈ m.Content, ∀ x, c.Input = some x → CanonMap x) ∧
    CanonMap payload.Other := by
  unfold UnmarshalJSON at h
  cases hraw : rawFields body with
  | error e => rw [hraw] at h; simp at h
  | ok raw =>
    rw [hraw] at h
    simp only [Except.ok.injEq] at h
    have hr := rawFields_canon body raw hraw
    rw [← h]
    refine ⟨?_, ?_, ?_⟩
    · simp only [unmarshalTools]
      split
      · rename_i j hj
        exact decodeSlice_all
          (fun t : OriginalTool => ∀ x, t.InputSchema = some x → CanonMap x) _ _
          (fun x hx => by simp at hx) decodeOriginalTool_canon [] j
          (fun c hc => by simp at hc) (parse_canon _ _ hj)
      · intro t ht; simp at ht
    · simp only [unmarshalMessages]
      split
      · rename_i j hj
        exact decodeSlice_all
          (fun m : OriginalMessage =>
            ∀ c ∈ m.Content, ∀ x, c.Input = some x → CanonMap x) _ _
          (fun c hc => by simp at hc) decodeOriginalMessage_canon [] j
          (fun c hc => by simp at hc) (parse_canon _ _ hj)
      · intro t ht; simp at ht
    · simp only []
      refine ⟨keysSorted_erase _ _ (keysSorted_erase _ _ (keysSorted_erase _ _ hr.1)), ?_⟩
      intro kv hkv
      exact hr.2 kv ((mem_erase _ _ _).mp ((mem_erase _ _ _).mp ((mem_erase _ _ _).mp hkv).1).1).1

theorem translateMessage_input (m : OriginalMessage) (t : TransformedMessage)
    (h : translateMessage m = .ok t) :
    ∃ c0 ∈ m.Content, ∃ tc r, t = ⟨[tc], r⟩ ∧ tc.Input = c0.Input := by
  unfold translateMessage at h
  cases hm : m.Content with
  | nil => simp [hm, index, bind, Except.bind] at h
  | cons b rest =>
    simp only [hm, index, List.get?, bind, Except.bind, pure, Except.pure] at h
    refine ⟨b, List.mem_cons_self _ _, ?_⟩
    by_cases h1 : b.Type_ = "tool_result"
    · cases hn : b.Content with
      | nil => simp [h1, hn] at h
      | cons n ns =>
        simp only [h1, hn, if_true, List.get?, Except.ok.injEq] at h
        exact ⟨_, _, h.symm, rfl⟩
    · by_cases h2 : b.Type_ = "tool_use"
      · cases hn : b.Content with
        | nil => simp [h1, h2, hn] at h
        | cons n ns =>
          simp only [h1, if_false] at h
          simp only [h2, hn, if_true, List.get?, Except.ok.injEq] at h
          exact ⟨_, _, h.symm, rfl⟩
      · simp only [h1, h2, if_false, Except.ok.injEq] at h
        exact ⟨_, _, h.symm, rfl⟩

theorem translateMessages_mem : ∀ (ms : List OriginalMessage) (tms : List TransformedMessage),
    translateMessages ms = .ok tms → ∀ t ∈ tms, ∃ m ∈ ms, translateMessage m = .ok t
  | [], tms, h, t, ht => by
    simp only [translateMessages, Except.ok.injEq] at h
    rw [← h] at ht
    simp at ht
  | m :: ms, tms, h, t, ht => by
    rw [translateMessages] at h
    cases h1 : translateMessage m with
    | error e => rw [h1] at h; simp at h
    | ok t1 =>
      cases h2 : translateMessages ms with
      | error e => rw [h1, h2] at h; simp at h
      | ok ts =>
        rw [h1, h2] at h
        simp only [Except.ok.injEq] at h
        rw [← h] at ht
        rcases List.mem_cons.mp ht with e | e
        · exact ⟨m, List.mem_cons_self _ _, by rw [e]; exact h1⟩
        · obtain ⟨m1, hm1, hx⟩ := translateMessages_mem ms ts h2 t e
          exact ⟨m1, List.mem_cons_of_mem _ hm1, hx⟩

theorem content_distinct (c : TransformedContent) (h : ∀ x, c.Input = some x → CanonMap x) :
    c.toJSON.Distinct := by
  have hi := mapJSON_distinct c.Input h
  simp only [TransformedContent.toJSON, JSON.Distinct, distinctMembers, List.map_cons,
    List.map_nil, and_true, true_and]
  exact ⟨by decide, hi⟩

theorem message_distinct (m : OriginalMessage) (t : TransformedMessage)
    (hm : ∀ c ∈ m.Content, ∀ x, c.Input = some x → CanonMap x)
    (h : translateMessage m = .ok t) : t.toJSON.Distinct := by
  obtain ⟨c0, hc0, tc, r, ht, hi⟩ := translateMessage_input m t h
  have hc := content_distinct tc (by rw [hi]; exact hm c0 hc0)
  rw [ht]
  simp only [TransformedMessage.toJSON, JSON.Distinct, distinctMembers, distinctElems,
    List.map_cons, List.map_nil, and_true, true_and]
  exact ⟨by decide, hc⟩

theorem tool_distinct (t : OriginalTool) (h : ∀ x, t.InputSchema = some x → CanonMap x) :
    (translateTool t).toJSON.Distinct := by
  have hi := mapJSON_distinct t.InputSchema h
  simp only [translateTool, TransformedTool.toJSON, Function.toJSON, JSON.Distinct,
    distinctMembers, List.map_cons, List.map_nil, and_true, true_and]
  exact ⟨by decide, by decide, hi⟩

/-- What the assembled map holds: the translated lists, a string, or a preserved field. -/
theorem assemble_mem (tts : List TransformedTool) (tms : List TransformedMessage)
    (payload : ProxyPayload) : ∀ kv ∈ assemble tts tms payload,
    kv.2 = .messages tms ∨ kv.2 = .tools tts ∨ (∃ s, kv.2 = .json (.str s)) ∨
      ∃ x ∈ payload.Other, kv.2 = .json x.2 := by
  unfold assemble
  simp only []
  intro kv hkv
  have hfold : ∀ (l : GoMap JSON) (base : GoMap Value),
      kv ∈ l.foldl (fun r x => GoMap.insert x.1 (Value.json x.2) r) base →
      kv ∈ base ∨ ∃ x ∈ l, kv.2 = .json x.2 := by
    intro l
    induction l with
    | nil => intro base h; exact Or.inl h
    | cons x l ih =>
      intro base h
      rw [List.foldl_cons] at h
      rcases ih _ h with h1 | ⟨y, hy, e⟩
      · rcases mem_insert _ _ _ _ h1 with e | e
        · exact Or.inr ⟨x, List.mem_cons_self _ _, by rw [e]⟩
        · exact Or.inl e
      · exact Or.inr ⟨y, List.mem_cons_of_mem _ hy, e⟩
  have hbase : ∀ kv1 ∈ GoMap.insert "messages" (Value.messages tms)
      (GoMap.insert "tools" (Value.tools tts) []),
      kv1.2 = .messages tms ∨ kv1.2 = .tools tts := by
    intro kv1 h1
    rcases mem_insert _ _ _ _ h1 with e | e
    · left; rw [e]
    · rcases mem_insert _ _ _ _ e with e1 | e1
      · right; rw [e1]
      · simp at e1
  rcases hfold _ _ hkv with h1 | h1
  · split at h1
    · rcases mem_insert _ _ _ _ h1 with e | e
      · right; right; left
        exact ⟨_, by rw [e]⟩
      · rcases hbase kv e with e1 | e1
        · exact Or.inl e1
        · exact Or.inr (Or.inl e1)
    · rcases hbase kv h1 with e1 | e1
      · exact Or.inl e1
      · exact Or.inr (Or.inl e1)
  · exact Or.inr (Or.inr (Or.inr h1))

theorem assemble_sorted (tts : List TransformedTool) (tms : List TransformedMessage)
    (payload : ProxyPayload) : KeysSorted (assemble tts tms payload) := by
  unfold assemble
  simp only []
  apply foldl_inv KeysSorted (fun _ => True) _
    (fun b a hb _ => keysSorted_insert a.1 (Value.json a.2) b hb) _ _ _ (fun _ _ => trivial)
  have hbase : KeysSorted (GoMap.insert "messages" (Value.messages tms)
      (GoMap.insert "tools" (Value.tools tts) [])) :=
    keysSorted_insert _ _ _ (keysSorted_insert _ _ _ (by simp [KeysSorted]))
  split
  · exact keysSorted_insert _ _ _ hbase
  · exact hbase

/-- In the payload assembled from a request, as `json.Marshal` writes it, the member names
of every object are pairwise distinct. -/
theorem assembled_distinct (body : List Char) (payload : ProxyPayload)
    (result : GoMap Value) (hp : UnmarshalJSON body = .ok payload)
    (hr : assembled payload = .ok result) :
    (JSON.obj (result.map fun kv => (kv.1, kv.2.toJSON))).Distinct := by
  obtain ⟨htools, hmsgs, hother⟩ := unmarshal_canon body payload hp
  unfold assembled at hr
  cases htm : translateMessages payload.Messages with
  | error e => rw [htm] at hr; simp at hr
  | ok tms =>
    rw [htm] at hr
    simp only [Except.ok.injEq] at hr
    rw [← hr, JSON.Distinct]
    constructor
    · rw [List.map_map]
      exact keysSorted_nodup _ (assemble_sorted _ _ _)
    · apply distinctMembers_of_forall
      intro kv hkv
      obtain ⟨x, hx, e⟩ := List.mem_map.mp hkv
      rw [← e]
      simp only []
      rcases assemble_mem _ _ _ x hx with h1 | h1 | ⟨s, h1⟩ | ⟨y, hy, h1⟩
      · rw [h1, Value.toJSON, JSON.Distinct]
        apply distinctElems_of_forall
        intro j hj
        obtain ⟨t, ht, e1⟩ := List.mem_map.mp hj
        obtain ⟨m, hm, hmt⟩ := translateMessages_mem _ _ htm t ht
        rw [← e1]
        exact message_distinct m t (hmsgs m hm) hmt
      · rw [h1, Value.toJSON, JSON.Distinct]
        apply distinctElems_of_forall
        intro j hj
        obtain ⟨t, ht, e1⟩ := List.mem_map.mp hj
        unfold translateTools at ht
        obtain ⟨o, ho, e2⟩ := List.mem_map.mp ht
        rw [← e1, ← e2]
        exact tool_distinct o (htools o ho)
      · rw [h1]
        simp [Value.toJSON, JSON.Distinct]
      · rw [h1]
        exact canon_distinct _ (hother.2 y hy)

/-! ## Members that hold a tag -/

/-- C13, as stated, fails for assembled payloads. A member named `text` that holds
`tool_use` ends as the placeholder, not as `text`; an object with the two tags at `a` and
`b` ends with the placeholder of the second one; and after a tagged member `id`, a member
`text` written later keeps its own value. -/
theorem tagged_member_not_rewritten :
    ((∃ payload, UnmarshalJSON freeTextBody = .ok payload ∧
        assembled payload = .ok freeTextResult) ∧
      (payloadJSON freeTextResult).valueAt [.key "messages", .idx 0, .key "content", .idx 0] =
        some (.obj [("type", .str "text"), ("text", .str "tool_use"), ("id", .str ""),
          ("input", .null), ("cache_control", .str ""), ("name", .str "")]) ∧
      ∃ output, ConvertToolTypesToText freeTextResult = .ok output ∧
        (JSON.obj output).valueAt [.key "messages", .idx 0, .key "content", .idx 0] =
          some (.obj [("cache_control", .str ""), ("id", .str ""), ("input", .null),
            ("name", .str ""), ("text", .str "incorrect tool use"),
            ("type", .str "text")])) ∧
    ((∃ payload, UnmarshalJSON bothTagsBody = .ok payload ∧
        assembled payload = .ok bothTagsResult) ∧
      (payloadJSON bothTagsResult).valueAt [.key "metadata"] =
        some (.obj [("a", .str "tool_use"), ("b", .str "tool_result")]) ∧
      ∃ output, ConvertToolTypesToText bothTagsResult = .ok output ∧
        (JSON.obj output).valueAt [.key "metadata"] =
          some (.obj [("a", .str "text"), ("b", .str "text"),
            ("text", .str "incorrect tool result")])) ∧
    ((∃ payload, UnmarshalJSON laterTextBody = .ok payload ∧
        assembled payload = .ok laterTextResult) ∧
      (payloadJSON laterTextResult).valueAt [.key "metadata"] =
        some (.obj [("id", .str "tool_use"), ("text", .str "hello")]) ∧
      ∃ output, ConvertToolTypesToText laterTextResult = .ok output ∧
        (JSON.obj output).valueAt [.key "metadata"] =
          some (.obj [("id", .str "text"), ("text", .str "hello")])) :=
  ⟨⟨⟨_, rfl, rfl⟩, rfl, _, rfl, rfl⟩, ⟨⟨_, rfl, rfl⟩, rfl, _, rfl, rfl⟩,
    ⟨⟨_, rfl, rfl⟩, rfl, _, rfl, rfl⟩⟩

/-- C13, amended: let `ConvertToolTypesToText` succeed on the payload assembled from a
request, and let an object of the payload, at a place `p` where no member named `text` on
the way is followed by a rewritten member, have a member `k`, not named `text`, whose
value is the string `tool_use` (respectively `tool_result`). If no member written after
`k` in that object is named `text` or rewritten with the other placeholder, then in the
returned payload the object at `p` has `text` at `k`, and its member `text` is
`incorrect tool use` (respectively `incorrect tool result`). -/
theorem tagged_member_rewritten (body : List Char) (payload : ProxyPayload)
    (result : GoMap Value) (output : GoMap JSON) (p : List Step)
    (ms : List (String × JSON)) (k tag ph : String)
    (hp : UnmarshalJSON body = .ok payload) (hr : assembled payload = .ok result)
    (h : ConvertToolTypesToText result = .ok output)
    (htag : (tag = "tool_use" ∧ ph = "incorrect tool use") ∨
      (tag = "tool_result" ∧ ph = "incorrect tool result"))
    (hc : (payloadJSON result).Clear p)
    (hat : (payloadJSON result).valueAt p = some (.obj ms))
    (hk : GoMap.lookup k ms = some (.str tag)) (hkt : k ≠ "text")
    (hafter : ∀ kv ∈ membersAfter k ms,
      kv.1 ≠ "text" ∧ ∀ q, hitValue kv.2 = some q → q.2 = ph) :
    ∃ m1, (JSON.obj output).valueAt p = some (.obj m1) ∧
      GoMap.lookup k m1 = some (.str "text") ∧ GoMap.lookup "text" m1 = some (.str ph) := by
  have hv : hitValue (.str tag) = some ("text", ph) := by
    rcases htag with ⟨e1, e2⟩ | ⟨e1, e2⟩
    · rw [e1, e2]; rfl
    · rw [e1, e2]; rfl
  exact convert_tagged_member result output p ms k (.str tag) "text" ph h
    (assembled_distinct body payload result hp hr) hc hat hk hv hkt hafter

/-- C13, amended, at a request whose first block has the id `tool_use`: the content item
ends with `text` at `id`, and its text `hi` gives way to the placeholder. -/
theorem tagged_member_rewritten_witness :
    (∃ payload, UnmarshalJSON taggedIdBody = .ok payload ∧
      assembled payload = .ok taggedIdResult) ∧
    ConvertToolTypesToText taggedIdResult = .ok taggedIdOutput ∧
    ∃ m1, (JSON.obj taggedIdOutput).valueAt
        [.key "messages", .idx 0, .key "content", .idx 0] = some (.obj m1) ∧
      GoMap.lookup "id" m1 = some (.str "text") ∧
      GoMap.lookup "text" m1 = some (.str "incorrect tool use") :=
  ⟨⟨_, rfl, rfl⟩, rfl,
    tagged_member_rewritten taggedIdBody _ taggedIdResult taggedIdOutput
      [.key "messages", .idx 0, .key "content", .idx 0]
      [("type", .str "text"), ("text", .str "hi"), ("id", .str "tool_use"),
        ("input", .null), ("cache_control", .str ""), ("name", .str "")]
      "id" "tool_use" "incorrect tool use" rfl rfl rfl (Or.inl ⟨rfl, rfl⟩)
      ⟨fun e => absurd e (by decide), fun e => absurd e (by decide), trivial⟩
      rfl rfl (by decide)
      (by
        intro kv hkv
        have hm : kv = ("input", JSON.null) ∨ kv = ("cache_control", JSON.str "") ∨
            kv = ("name", JSON.str "") := by
          simpa [membersAfter] using hkv
        have hnone : hitValue (JSON.str "") = none := rfl
        rcases hm with e | e | e
        · rw [e]; exact ⟨by decide, fun q hq => by simp [hitValue] at hq⟩
        · rw [e]; exact ⟨by decide, fun q hq => by rw [hnone] at hq; simp at hq⟩
        · rw [e]; exact ⟨by decide, fun q hq => by rw [hnone] at hq; simp at hq⟩)⟩
end CursorMiddleware
